import Mathlib

/-!
# Cosby software modem: framer, modulator, sliding buffer, discriminator, session

A shallow embedding of the parts of `cosby.c` that turn bytes into symbol
slices (`press_play`, `get_nth_bit`, `make_output_audio`), that read the audio
through a sliding buffer (`init_audio_buffer`, `audio_at_offset`) from a file
or from the microphone (`read_from_file`, `read_from_mic`), that turn spectra
into bits (`process_harmonics`) and bits back into bytes (`process_bit`), and
that run a session (`press_record`, `main`), with the properties of the
specification proved or refuted against them.

Conventions of the embedding:

* C `int` and `char` values are `Int`; a conversion to `char` is the explicit
  wrap `toChar` (two's complement, `char` signed as on the Linux/x86 targets
  the program is written for).  The counters of `process_bit` never leave
  `0..8`, so no `int` overflow is involved.
* static and global variables become fields of an explicit state record that
  is passed through each call.
* a file written with `fwrite` is the list of the bytes written, in order,
  each byte being the unsigned value `0..255` of the `char` stored.
* a call `output_samples(out_file, table + start, count)` is recorded as a
  `Write` of `count` samples of `table` starting at index `start`.
* `size_t` values are `Nat`; their differences wrap modulo `2^64` (`to_size`).
  A cell of `audio_buffer` or of `out` is an `Option`: `none` stands for a
  value the program never stored, or read outside the buffer.
* `double` values are the elements of a type `α` with the operations the
  program uses; nothing is assumed of them except where a statement says so
  (monotone operations, or an ordered field for exact arithmetic).  The type
  `Binary64` gives the doubles themselves, with rounded operations.
* a C string is the `String` of its characters before the terminating zero
  (so it holds no zero character); a `NULL` pointer to one is `none`.
* a loop that the program leaves on a condition is run for a bounded number
  of passes, and the bound is shown to be enough.
-/

namespace Cosby

/-! ## Configuration constants -/

/-- The macro `DEFAULT_SAMPLE_RATE`. -/
def DEFAULT_SAMPLE_RATE : Nat := 44100

/-- The macro `ZERO_FREQ`. -/
def ZERO_FREQ : Nat := 1378

/-- The macro `DEFAULT_WAVELENGTH`, `(size_t)(S/(double)f + 0.5)`: the
truncation of `S/f + 1/2`, which is `floor ((2*S + f) / (2*f))`.  The quotient
`44100/1378 = 32.0029..` is far from a half-integer, so the rounding of the
double division cannot change the truncated value. -/
def DEFAULT_WAVELENGTH : Nat := (2 * DEFAULT_SAMPLE_RATE + ZERO_FREQ) / (2 * ZERO_FREQ)

/-- The macro `DEFAULT_SYMBOL_LENGTH`, `(size_t)((S/(double)f)/2.0 + 0.5)`:
the truncation of `S/(2*f) + 1/2`, which is `floor ((S + f) / (2*f))`. -/
def DEFAULT_SYMBOL_LENGTH : Nat := (DEFAULT_SAMPLE_RATE + ZERO_FREQ) / (2 * ZERO_FREQ)

/-! ## Machine integers -/

/-- Conversion of an `int` value to (signed, 8-bit) `char`. -/
def toChar (x : Int) : Int := (x + 128) % 256 - 128

/-- The byte stored in memory for a `char` value: its value modulo 256. -/
def charByte (c : Int) : Nat := (c % 256).toNat

/-- The 32-bit two's complement pattern of an `int` value. -/
def intBits (x : Int) : Nat := (x % 4294967296).toNat

/-- The `int` value of a 32-bit two's complement pattern. -/
def bitsInt (p : Nat) : Int := if p < 2147483648 then (p : Int) else (p : Int) - 4294967296

/-! ## Double arithmetic

Where a statement depends on the rounding of `double` operations, the type `α`
of the embedding is taken to be `Binary64`: the finite doubles of IEEE 754
with their operations rounded to nearest, ties to even (the default rounding
mode, which the program never changes). -/

/-- A finite `double` (IEEE 754 binary64): the value `mantissa * 2^exponent`,
in the one form in which either `exponent = -1074` and `|mantissa| < 2^53`
(zero, the subnormal numbers and the lowest normal ones) or `exponent > -1074`
and `2^52 <= |mantissa| < 2^53`.  The two zeros are not told apart (they
compare equal). -/
structure Binary64 where
  mantissa : Int
  exponent : Int
  deriving DecidableEq, Repr

/-- The rational number a double stands for. -/
def Binary64.toRat (a : Binary64) : ℚ :=
  (a.mantissa : ℚ) * (2 : ℚ) ^ a.exponent

/-- The number of binary digits of `n`, at most `fuel`. -/
def bit_count : Nat → Nat → Nat
  | 0, _ => 0
  | fuel + 1, n => if n = 0 then 0 else bit_count fuel (n / 2) + 1

/-- The number of binary digits of `n`. -/
def bit_length (n : Nat) : Nat := bit_count n n

/-- The integer nearest to `n / d` (`d > 0`), the even one of the two when
`n / d` lies halfway between two integers. -/
def round_half_even (n d : Nat) : Nat :=
  if 2 * (n % d) < d then n / d
  else if d < 2 * (n % d) then n / d + 1
  else if n / d % 2 = 0 then n / d
  else n / d + 1

/-- The integer part of the binary logarithm of `num / den` (both positive):
the difference of the numbers of binary digits, or one less. -/
def floor_log2 (num den : Nat) : Int :=
  if 0 ≤ (bit_length num : Int) - (bit_length den : Int) then
    if den * 2 ^ ((bit_length num : Int) - (bit_length den : Int)).toNat ≤ num then
      (bit_length num : Int) - (bit_length den : Int)
    else (bit_length num : Int) - (bit_length den : Int) - 1
  else
    if den ≤ num * 2 ^ ((bit_length den : Int) - (bit_length num : Int)).toNat then
      (bit_length num : Int) - (bit_length den : Int)
    else (bit_length num : Int) - (bit_length den : Int) - 1

/-- The exponent of the double nearest to `num / den * 2^x`: 52 below the
binary logarithm, and at least -1074. -/
def round_exponent (num den : Nat) (x : Int) : Int :=
  max (-1074) (floor_log2 num den + x - 52)

/-- The mantissa of the double nearest to `num / den * 2^x` at the exponent
`round_exponent num den x`: the quotient by `2^e`, rounded to the nearest
integer, ties to even. -/
def round_mantissa (num den : Nat) (x : Int) : Nat :=
  if 0 ≤ x - round_exponent num den x then
    round_half_even (num * 2 ^ (x - round_exponent num den x).toNat) den
  else round_half_even num (den * 2 ^ (round_exponent num den x - x).toNat)

/-- The double nearest to the rational `num / den * 2^x` (`den > 0`), negated
if `neg`, ties going to the even mantissa: the result has 53 significant bits,
or is a multiple of `2^-1074` when it is below `2^-1022`; a mantissa rounded
up to `2^53` is written `2^52` at the next exponent.  The range of exponents
is taken unbounded above: the model gives the IEEE 754 result of an operation
whenever that result is finite. -/
def Binary64.round (neg : Bool) (num den : Nat) (x : Int) : Binary64 :=
  if num = 0 then { mantissa := 0, exponent := -1074 }
  else if round_mantissa num den x = 0 then { mantissa := 0, exponent := -1074 }
  else if 2 ^ 53 ≤ round_mantissa num den x then
    { mantissa :=
        if neg then -((round_mantissa num den x / 2 : Nat) : Int)
        else ((round_mantissa num den x / 2 : Nat) : Int),
      exponent := round_exponent num den x + 1 }
  else
    { mantissa :=
        if neg then -((round_mantissa num den x : Nat) : Int)
        else ((round_mantissa num den x : Nat) : Int),
      exponent := round_exponent num den x }

/-- The exponent to which two doubles are brought to combine their mantissas:
the smaller of the two exponents, a zero leaving the choice to the other. -/
def Binary64.common (a b : Binary64) : Int :=
  if a.mantissa = 0 then b.exponent
  else if b.mantissa = 0 then a.exponent
  else min a.exponent b.exponent

/-- The mantissa of `a` at the exponent `e` (not above the exponent of `a`,
unless `a` is zero). -/
def Binary64.at_exponent (a : Binary64) (e : Int) : Int :=
  a.mantissa * ((2 ^ (a.exponent - e).toNat : Nat) : Int)

/-- Addition of doubles: the exact sum, rounded. -/
instance Binary64.instAdd : Add Binary64 :=
  ⟨fun a b =>
    Binary64.round (decide (a.at_exponent (a.common b) + b.at_exponent (a.common b) < 0))
      (a.at_exponent (a.common b) + b.at_exponent (a.common b)).natAbs 1 (a.common b)⟩

/-- Subtraction of doubles: the exact difference, rounded. -/
instance Binary64.instSub : Sub Binary64 :=
  ⟨fun a b =>
    Binary64.round (decide (a.at_exponent (a.common b) - b.at_exponent (a.common b) < 0))
      (a.at_exponent (a.common b) - b.at_exponent (a.common b)).natAbs 1 (a.common b)⟩

/-- Multiplication of doubles: the exact product, rounded. -/
instance Binary64.instMul : Mul Binary64 :=
  ⟨fun a b =>
    Binary64.round (decide (a.mantissa * b.mantissa < 0)) (a.mantissa * b.mantissa).natAbs 1
      (a.exponent + b.exponent)⟩

/-- Division of doubles by a non-zero double: the exact quotient, rounded. -/
instance Binary64.instDiv : Div Binary64 :=
  ⟨fun a b =>
    Binary64.round (decide (a.mantissa < 0) != decide (b.mantissa < 0)) a.mantissa.natAbs
      b.mantissa.natAbs (a.exponent - b.exponent)⟩

/-- Conversion of a natural number to double. -/
instance Binary64.instNatCast : NatCast Binary64 :=
  ⟨fun n => Binary64.round false n 1 0⟩

/-- The strict order of doubles. -/
instance Binary64.instLT : LT Binary64 :=
  ⟨fun a b => a.at_exponent (a.common b) < b.at_exponent (a.common b)⟩

/-- The order of doubles. -/
instance Binary64.instLE : LE Binary64 :=
  ⟨fun a b => a.at_exponent (a.common b) ≤ b.at_exponent (a.common b)⟩

/-- The strict order of doubles can be evaluated. -/
instance Binary64.instDecidableLT : DecidableRel (fun a b : Binary64 => a < b) :=
  fun a b => Int.decLt (a.at_exponent (a.common b)) (b.at_exponent (a.common b))

/-- The order of doubles can be evaluated. -/
instance Binary64.instDecidableLE : DecidableRel (fun a b : Binary64 => a ≤ b) :=
  fun a b => Int.decLe (a.at_exponent (a.common b)) (b.at_exponent (a.common b))

/-! ## Record side: the framer `process_bit` -/

/-- The global `framed`, the statics `val`, `count`, `initzeros`, `initones`
of `process_bit`, and the bytes written to `out_file` so far. -/
structure BitState where
  framed : Int
  val : Int
  count : Int
  initzeros : Int
  initones : Int
  out : List Nat
  deriving DecidableEq, Repr

/-- The state at program start: `framed = 0` and all statics zero, nothing
written. -/
def BitState.init : BitState :=
  { framed := 0, val := 0, count := 0, initzeros := 0, initones := 0, out := [] }

/-- The function `process_bit(bit, out_file)`. -/
def process_bit (bit : Int) (s : BitState) : BitState :=
  if s.framed ≠ 0 then
    let count := s.count + 1
    let val := toChar (s.val * 2)
    let val := toChar (val + bit)
    if count = 8 then
      { s with out := s.out ++ [charByte val], count := 0, val := 0 }
    else
      { s with count := count, val := val }
  else
    if s.initzeros < 8 then
      if bit = 0 then
        { s with initzeros := s.initzeros + 1 }
      else
        { s with initzeros := 0 }
    else
      if bit = 1 then
        let initones := s.initones + 1
        if initones = 8 then
          { s with initones := initones, framed := 1 }
        else
          { s with initones := initones }
      else if s.initones > 0 then
        { s with initones := 0, initzeros := 1 }
      else
        s

/-- Successive calls of `process_bit`, one per bit of the list, in order. -/
def feed (bits : List Int) (s : BitState) : BitState :=
  bits.foldl (fun st b => process_bit b st) s

/-! ## Play side: the modulator `press_play` -/

/-- The function `get_nth_bit(byte, n)`, `byte & (1 << n)`: `byte` is promoted
to `int`, the conjunction is taken on the 32-bit patterns.  (Meaningful for
`n <= 30`; the program calls it with `n` in `0..7`.) -/
def get_nth_bit (byte : Int) (n : Nat) : Int :=
  bitsInt (Nat.land (intBits byte) (intBits (1 <<< n)))

/-- The two tables built by `make_output_audio`. -/
inductive Wave where
  | zero_audio
  | one_audio
  deriving DecidableEq, Repr

/-- One call `output_samples(out_file, wave + start, count)`. -/
structure Write where
  wave : Wave
  start : Nat
  count : Nat
  deriving DecidableEq, Repr

/-- The local `is_pos` of `press_play` and the calls of `output_samples` made
so far. -/
structure PlayState where
  is_pos : Int
  writes : List Write
  deriving DecidableEq, Repr

/-- The C operator `!` on an `int`. -/
def lnot (x : Int) : Int := if x = 0 then 1 else 0

/-- The body of the inner loop of `press_play` for bit position `n` of
`cur_byte`. -/
def play_bit (cur_byte : Int) (s : PlayState) (n : Nat) : PlayState :=
  if get_nth_bit cur_byte n ≠ 0 then
    if s.is_pos ≠ 0 then
      { s with writes := s.writes ++ [⟨Wave.one_audio, 0, DEFAULT_WAVELENGTH / 2⟩] }
    else
      { s with writes := s.writes ++
          [⟨Wave.one_audio, DEFAULT_WAVELENGTH / 4, DEFAULT_WAVELENGTH - DEFAULT_WAVELENGTH / 2⟩] }
  else
    if s.is_pos ≠ 0 then
      { is_pos := lnot s.is_pos,
        writes := s.writes ++ [⟨Wave.zero_audio, 0, DEFAULT_WAVELENGTH / 2⟩] }
    else
      { is_pos := lnot s.is_pos,
        writes := s.writes ++
          [⟨Wave.zero_audio, DEFAULT_WAVELENGTH / 2, DEFAULT_WAVELENGTH - DEFAULT_WAVELENGTH / 2⟩] }

/-- The inner loop `for (int n=7;n>=0;n--)` of `press_play` for one byte. -/
def play_byte (s : PlayState) (cur_byte : Int) : PlayState :=
  [7, 6, 5, 4, 3, 2, 1, 0].foldl (play_bit cur_byte) s

/-- The loop `while (fread(&cur_byte,1,1,in_file))` over the bytes of the
input file; each byte read is stored into the `char` variable `cur_byte`. -/
def play_data (s : PlayState) (data : List Nat) : PlayState :=
  data.foldl (fun st b => play_byte st (toChar (b : Int))) s

/-- The trailing half wave written after the data. -/
def play_pad (s : PlayState) : PlayState :=
  if s.is_pos ≠ 0 then
    { s with writes := s.writes ++ [⟨Wave.zero_audio, 0, DEFAULT_WAVELENGTH / 2⟩] }
  else
    { s with writes := s.writes ++
        [⟨Wave.zero_audio, DEFAULT_WAVELENGTH / 2, DEFAULT_WAVELENGTH - DEFAULT_WAVELENGTH / 2⟩] }

/-- The calls of `output_samples` made before the data loop: the five seconds
of zero (one whole table per call) and the byte of all ones. -/
def play_lead : List Write :=
  List.replicate (DEFAULT_SAMPLE_RATE * 5 / DEFAULT_WAVELENGTH)
      ⟨Wave.zero_audio, 0, DEFAULT_WAVELENGTH⟩ ++
    List.replicate 8 ⟨Wave.one_audio, 0, DEFAULT_WAVELENGTH / 2⟩

/-- The function `press_play` on the bytes `data` of the input file, as the
sequence of calls of `output_samples` it makes (input and output are taken to
open, and the sink to accept every call). -/
def press_play (data : List Nat) : List Write :=
  (play_pad (play_data { is_pos := 1, writes := play_lead } data)).writes

/-- The samples a call of `output_samples` hands to the sink, read from the
tables `zero_audio` and `one_audio`. -/
def write_samples {α : Type} (zero_audio one_audio : Nat → α) (w : Write) : List α :=
  (List.range w.count).map fun c =>
    match w.wave with
    | Wave.zero_audio => zero_audio (w.start + c)
    | Wave.one_audio => one_audio (w.start + c)

/-- The whole sample stream written by `press_play`. -/
def press_play_samples {α : Type} (zero_audio one_audio : Nat → α) (data : List Nat) : List α :=
  (press_play data).flatMap (write_samples zero_audio one_audio)

/-! ## Play side: the waveform tables `make_output_audio` -/

/-- The assignment `harmonics[c][1] = x` on an array of complex pairs
`(real, imaginary)`. -/
def set_im {α : Type} (harmonics : Nat → α × α) (c : Nat) (x : α) : Nat → α × α :=
  fun k => if k = c then ((harmonics k).1, x) else harmonics k

/-- The full spectrum a complex-to-real transform of length `len` reads from
the `len/2+1` stored harmonics: entry `k` beyond the middle is the conjugate
of the stored entry `len - k`. -/
def hermitian {α : Type} [Neg α] (len : Nat) (harmonics : Nat → α × α) (k : Nat) : α × α :=
  if 2 * k ≤ len then harmonics k
  else ((harmonics (len - k)).1, -(harmonics (len - k)).2)

/-- The output of `fftw_execute` on a plan made by
`fftw_plan_dft_c2r_1d(len, harmonics, out, ..)`, as documented by FFTW: the
unnormalised inverse transform `out[j] = sum over k < len of
Re (X[k] * exp (2 pi i j k / len))` of the Hermitian spectrum `X`.  The
functions `cosT t` and `sinT t` stand for the cosine and sine of `t` turns
(`2 pi t` radians). -/
def dft_c2r {α : Type} [Ring α] (cosT sinT : ℚ → α) (len : Nat) (harmonics : Nat → α × α)
    (j : Nat) : α :=
  ((List.range len).map fun k =>
    (hermitian len harmonics k).1 * cosT (((k * j : Nat) : ℚ) / (len : ℚ)) -
      (hermitian len harmonics k).2 * sinT (((k * j : Nat) : ℚ) / (len : ℚ))).sum

/-- The function `make_output_audio(&zero_audio, &one_audio, low_wavelength)`:
the pair of tables `(zero_audio, one_audio)`.  Both loops over
`c < num_harmonics` clear the whole array of harmonics. -/
def make_output_audio {α : Type} [Field α] (cosT sinT : ℚ → α) (low_wavelength : Nat) :
    (Nat → α) × (Nat → α) :=
  let harmonics : Nat → α × α := fun _ => (0, 0)
  let harmonics := set_im harmonics 1 (-(1 / 2))
  let zero_audio := dft_c2r cosT sinT low_wavelength harmonics
  let harmonics : Nat → α × α := fun _ => (0, 0)
  let harmonics := set_im harmonics 2 (-(1 / 2))
  let one_audio := dft_c2r cosT sinT low_wavelength harmonics
  (zero_audio, one_audio)

/-! ## Record side: the sliding audio buffer -/

/-- The macro `AUDIO_BUFFER_SIZE`. -/
def AUDIO_BUFFER_SIZE : Nat := 4096

/-- Conversion of an integer value to `size_t` (64 bits, unsigned): the value
modulo `2^64`.  Used where the program subtracts `size_t` values; sums of
`size_t` values are taken exactly, no stream having `2^64` samples. -/
def to_size (x : Int) : Nat := (x % 18446744073709551616).toNat

/-- What a call `(*read_samples)(in_file, buffer, count)` does: the `int` it
returns, the samples it stores at `buffer[0 ..]`, and the source afterwards. -/
structure ReadResult (σ α : Type) where
  count : Int
  samples : List α
  next : σ

/-- The function `read_from_file` on a source holding the samples `src` that
are still unread: `sf_read_double` delivers the next `count` samples, or all
that are left when fewer remain, and returns how many it delivered. -/
def read_from_file {α : Type} (src : List α) (count : Nat) : ReadResult (List α) α :=
  { count := ((src.take count).length : Int), samples := src.take count, next := src.drop count }

/-- The globals `audio_buffer` (cell `i` is `none` while nothing has been
stored in it), `audio_buffer_offset`, `audio_buffer_length`,
`audio_buffer_section` and `audio_eof`. -/
structure AudioState (α : Type) where
  audio_buffer : Nat → Option α
  audio_buffer_offset : Nat
  audio_buffer_length : Nat
  audio_buffer_section : Nat
  audio_eof : Int

/-- The cells of `audio_buffer` after `data` has been stored from cell
`start` on. -/
def store {α : Type} (buf : Nat → Option α) (start : Nat) (data : List α) : Nat → Option α :=
  fun i =>
    if start ≤ i then
      match data[i - start]? with
      | some x => some x
      | none => buf i
    else buf i

/-- The value read at `audio_buffer + p`: `none` when the cell was never
stored or when `p` lies outside the `AUDIO_BUFFER_SIZE` cells allocated. -/
def load {α : Type} (buf : Nat → Option α) (p : Int) : Option α :=
  if 0 ≤ p ∧ p < (AUDIO_BUFFER_SIZE : Int) then buf p.toNat else none

/-- The values `memcpy(out, audio_buffer + p, n*sizeof(double))` copies. -/
def memcpy_from {α : Type} (buf : Nat → Option α) (p : Int) (n : Nat) : List (Option α) :=
  (List.range n).map fun (i : Nat) => load buf (p + (i : Int))

/-- The function `init_audio_buffer(read_samples, in_file)`, the allocation
taken to succeed: the globals and the source after the first read. -/
def init_audio_buffer {σ α : Type} (read_samples : σ → Nat → ReadResult σ α) (in_file : σ) :
    AudioState α × σ :=
  let r := read_samples in_file AUDIO_BUFFER_SIZE
  let len := to_size r.count
  ({ audio_buffer := store (fun _ => none) 0 r.samples,
     audio_buffer_offset := 0,
     audio_buffer_length := len,
     audio_buffer_section := 0,
     audio_eof := if len ≠ AUDIO_BUFFER_SIZE then 1 else 0 }, r.next)

/-- One pass through the body of the `while` loop of `audio_at_offset`. -/
def refill {σ α : Type} (read_samples : σ → Nat → ReadResult σ α) (x : AudioState α × σ) :
    AudioState α × σ :=
  if x.1.audio_buffer_section = 1 then
    let r := read_samples x.2 (AUDIO_BUFFER_SIZE / 2)
    let st : AudioState α :=
      { x.1 with
        audio_buffer := store x.1.audio_buffer (AUDIO_BUFFER_SIZE / 2) r.samples,
        audio_buffer_section := 0,
        audio_buffer_offset := x.1.audio_buffer_offset + AUDIO_BUFFER_SIZE / 2 }
    if r.count < (AUDIO_BUFFER_SIZE / 2 : Nat) then
      ({ st with
         audio_eof := 1,
         audio_buffer_length :=
           to_size ((st.audio_buffer_length : Int) - (((AUDIO_BUFFER_SIZE / 2 : Nat) : Int) - r.count)) },
        r.next)
    else (st, r.next)
  else
    let r := read_samples x.2 (AUDIO_BUFFER_SIZE / 2)
    let st : AudioState α :=
      { x.1 with
        audio_buffer := store x.1.audio_buffer 0 r.samples,
        audio_buffer_offset := x.1.audio_buffer_offset + AUDIO_BUFFER_SIZE / 2,
        audio_buffer_section := 1 }
    if r.count < (AUDIO_BUFFER_SIZE / 2 : Nat) then
      ({ st with
         audio_eof := 1,
         audio_buffer_length :=
           to_size ((st.audio_buffer_length : Int) - (((AUDIO_BUFFER_SIZE / 2 : Nat) : Int) - r.count)) },
        r.next)
    else (st, r.next)

/-- The `while` loop of `audio_at_offset`, run for at most `fuel` passes. -/
def refill_loop {σ α : Type} (read_samples : σ → Nat → ReadResult σ α) (offset length : Nat) :
    Nat → AudioState α × σ → AudioState α × σ
  | 0, x => x
  | fuel + 1, x =>
    if x.1.audio_eof = 0 ∧
        x.1.audio_buffer_offset + x.1.audio_buffer_length < offset + length then
      refill_loop read_samples offset length fuel (refill read_samples x)
    else x

/-- What a call of `audio_at_offset` leaves: the value returned, the cells
`out[0 ..]` it wrote (`none` for a value read from a cell never stored or from
outside the buffer), the globals and the source. -/
structure AtOffset (σ α : Type) where
  ret : Int
  out : List (Option α)
  state : AudioState α
  source : σ

/-- The part of `audio_at_offset` after the loop: the value returned and the
cells of `out` written, by `memcpy` from the buffer and by `memset` to zero. -/
def copy_out {α : Type} [Zero α] (st : AudioState α) (offset length : Nat) :
    Int × List (Option α) :=
  let avail : Nat :=
    to_size ((st.audio_buffer_length : Int) + (st.audio_buffer_offset : Int) - (offset : Int))
  let from_base : Int := (offset : Int) - (st.audio_buffer_offset : Int)
  if st.audio_buffer_section = 0 then
    if avail < length then
      ((avail : Int),
        memcpy_from st.audio_buffer from_base avail ++ List.replicate (length - avail) (some 0))
    else
      ((length : Int), memcpy_from st.audio_buffer from_base length)
  else
    let count : Nat := if avail < length then avail else length
    let d : Nat := to_size from_base
    let copied : List (Option α) :=
      if d < AUDIO_BUFFER_SIZE / 2 then
        if d + count > AUDIO_BUFFER_SIZE / 2 then
          memcpy_from st.audio_buffer (((AUDIO_BUFFER_SIZE / 2 : Nat) : Int) + from_base)
              (AUDIO_BUFFER_SIZE / 2 - d) ++
            memcpy_from st.audio_buffer 0 (count - (AUDIO_BUFFER_SIZE / 2 - d))
        else
          memcpy_from st.audio_buffer (((AUDIO_BUFFER_SIZE / 2 : Nat) : Int) + from_base) count
      else
        memcpy_from st.audio_buffer (from_base - ((AUDIO_BUFFER_SIZE / 2 : Nat) : Int)) count
    ((count : Int), copied ++ List.replicate (length - count) (some 0))

/-- The function `audio_at_offset(read_samples, in_file, out, offset, length)`:
the two guards, the loop, then `copy_out`.  Each pass of the loop moves
`audio_buffer_offset` forward by half a buffer, so `offset + length` passes
are more than the loop can make (`refill_loop_exit`). -/
def audio_at_offset {σ α : Type} [Zero α] (read_samples : σ → Nat → ReadResult σ α)
    (st : AudioState α) (in_file : σ) (offset length : Nat) : AtOffset σ α :=
  if length > AUDIO_BUFFER_SIZE then
    { ret := -1, out := [], state := st, source := in_file }
  else if offset < st.audio_buffer_offset then
    { ret := -1, out := [], state := st, source := in_file }
  else
    let x := refill_loop read_samples offset length (offset + length) (st, in_file)
    { ret := (copy_out x.1 offset length).1,
      out := (copy_out x.1 offset length).2,
      state := x.1, source := x.2 }

/-- The globals and the source when the record loop of `press_record` makes
its call number `k` (calls `audio_at_offset(.., offset = j, length = W)` for
`j = 0, 1, .., k-1` have been made after `init_audio_buffer`). -/
def scan {α : Type} [Zero α] (total : List α) : Nat → AudioState α × List α
  | 0 => init_audio_buffer read_from_file total
  | k + 1 =>
    ((audio_at_offset read_from_file (scan total k).1 (scan total k).2 k DEFAULT_WAVELENGTH).state,
      (audio_at_offset read_from_file (scan total k).1 (scan total k).2 k DEFAULT_WAVELENGTH).source)

/-! ## Record side: the discriminator `process_harmonics` -/

/-- The bound `POWER_SQ_TOTALS_SIZE*DEFAULT_SYMBOL_LENGTH`, the double
`2.0 * 16`, as the number of entries of `power_sq_totals`. -/
def POWER_WINDOW : Nat := 2 * DEFAULT_SYMBOL_LENGTH

/-- The macro `SIGNAL_POWER_RANGE` (the double `16.0`). -/
def SIGNAL_POWER_RANGE : Nat := 16

/-- The bound `(int)(1.5*DEFAULT_SYMBOL_LENGTH)`. -/
def SYMBOL_TIMEOUT : Int := ((3 * DEFAULT_SYMBOL_LENGTH / 2 : Nat) : Int)

/-- The statics `current_symbol`, `sample_count` of `process_harmonics`, the
globals `power_diffs`, `power_diffs_start`, `power_sq_totals`,
`power_sq_totals_pos`, `ave_signal_power_sq`, and the state of `process_bit`
(with the global `framed` and the bytes written).  The type `α` stands for
`double`. -/
structure HarmonicsState (α : Type) where
  current_symbol : Int
  sample_count : Int
  power_diffs : Nat → α
  power_diffs_start : Nat
  power_sq_totals : Nat → α
  power_sq_totals_pos : Nat
  ave_signal_power_sq : α
  bit_state : BitState

/-- The state after `init_history`, with the initial values of the statics
and globals: both arrays cleared, `current_symbol = 1`, everything else 0. -/
def HarmonicsState.init {α : Type} [NatCast α] : HarmonicsState α :=
  { current_symbol := 1, sample_count := 0,
    power_diffs := fun _ => ((0 : Nat) : α), power_diffs_start := 0,
    power_sq_totals := fun _ => ((0 : Nat) : α), power_sq_totals_pos := 0,
    ave_signal_power_sq := ((0 : Nat) : α),
    bit_state := BitState.init }

/-- What a call of `process_harmonics` leaves: the value returned, the bits
it passed to `process_bit`, in order, and the state. -/
structure HarmonicsResult (α : Type) where
  ret : Int
  emitted : List Int
  state : HarmonicsState α

/-- The value stored into `power_sq_totals`: the squared magnitudes of bins 1
and 2 of `harmonics` (pairs `(real, imaginary)`), added. -/
def bin_power {α : Type} [Add α] [Mul α] (harmonics : Nat → α × α) : α :=
  (harmonics 1).1 * (harmonics 1).1 + (harmonics 1).2 * (harmonics 1).2 +
    ((harmonics 2).1 * (harmonics 2).1 + (harmonics 2).2 * (harmonics 2).2)

/-- The value stored into `power_diffs`: the magnitude of bin 1 minus the
magnitude of bin 2. -/
def bin_diff {α : Type} [Add α] [Sub α] [Mul α] (sqrt : α → α) (harmonics : Nat → α × α) : α :=
  sqrt ((harmonics 1).1 * (harmonics 1).1 + (harmonics 1).2 * (harmonics 1).2) -
    sqrt ((harmonics 2).1 * (harmonics 2).1 + (harmonics 2).2 * (harmonics 2).2)

/-- The loop that accumulates `ave_power_total_sq`: from `0.0`, each of the
entries of the window divided by the size of the window, in order. -/
def window_mean {α : Type} [Add α] [Div α] [NatCast α] (power_sq_totals : Nat → α) : α :=
  (List.range POWER_WINDOW).foldl
    (fun acc c => acc + power_sq_totals c / ((POWER_WINDOW : Nat) : α)) ((0 : Nat) : α)

/-- The loop that accumulates `ave_power_diff`, and its division by the
number of entries `DEFAULT_SYMBOL_LENGTH/2`. -/
def diff_mean {α : Type} [Add α] [Div α] [NatCast α] (power_diffs : Nat → α) : α :=
  (List.range (DEFAULT_SYMBOL_LENGTH / 2)).foldl (fun acc c => acc + power_diffs c)
    ((0 : Nat) : α) / ((DEFAULT_SYMBOL_LENGTH / 2 : Nat) : α)

/-- The second part of `process_harmonics`, from the store into `power_diffs`
to `return 0`, entered with the power window already updated in `s`. -/
def symbol_step {α : Type} [Add α] [Sub α] [Mul α] [Div α] [NatCast α] [LT α]
    [DecidableRel (fun a b : α => a < b)] (sqrt : α → α) (harmonics : Nat → α × α)
    (s : HarmonicsState α) : HarmonicsResult α :=
  let power_diffs := Function.update s.power_diffs s.power_diffs_start (bin_diff sqrt harmonics)
  let start := s.power_diffs_start + 1
  let start := if start ≥ DEFAULT_SYMBOL_LENGTH / 2 then 0 else start
  let sample_count := s.sample_count + 1
  let ave_power_diff := diff_mean power_diffs
  let s1 : HarmonicsState α :=
    { s with power_diffs := power_diffs, power_diffs_start := start, sample_count := sample_count }
  if s.current_symbol = 1 ∧ ((0 : Nat) : α) < ave_power_diff then
    { ret := 0, emitted := [0],
      state := { s1 with current_symbol := 0, sample_count := 0,
                         bit_state := process_bit 0 s.bit_state } }
  else if s.current_symbol = 0 ∧ ave_power_diff < ((0 : Nat) : α) then
    { ret := 0, emitted := [1],
      state := { s1 with current_symbol := 1, sample_count := 0,
                         bit_state := process_bit 1 s.bit_state } }
  else if sample_count > SYMBOL_TIMEOUT then
    { ret := 0, emitted := [s.current_symbol],
      state := { s1 with bit_state := process_bit s.current_symbol s.bit_state,
                         sample_count := sample_count - (DEFAULT_SYMBOL_LENGTH : Int) } }
  else
    { ret := 0, emitted := [], state := s1 }

/-- The function `process_harmonics(harmonics, num_harmonics, out_file)`; the
parameter `sqrt` stands for the library function of that name. -/
def process_harmonics {α : Type} [Add α] [Sub α] [Mul α] [Div α] [NatCast α] [LT α]
    [DecidableRel (fun a b : α => a < b)] [DecidableEq α] (sqrt : α → α)
    (harmonics : Nat → α × α) (s : HarmonicsState α) : HarmonicsResult α :=
  let power_sq_totals :=
    Function.update s.power_sq_totals s.power_sq_totals_pos (bin_power harmonics)
  let pos := s.power_sq_totals_pos + 1
  let s1 : HarmonicsState α :=
    { s with power_sq_totals := power_sq_totals, power_sq_totals_pos := pos }
  if pos ≥ POWER_WINDOW then
    let ave_power_total_sq := window_mean power_sq_totals
    if s.bit_state.framed ≠ 0 then
      if s.ave_signal_power_sq = ((0 : Nat) : α) then
        symbol_step sqrt harmonics
          { s1 with ave_signal_power_sq := ave_power_total_sq, power_sq_totals_pos := 0 }
      else if ave_power_total_sq * ((SIGNAL_POWER_RANGE : Nat) : α) *
          ((SIGNAL_POWER_RANGE : Nat) : α) < s.ave_signal_power_sq then
        { ret := 1, emitted := [], state := s1 }
      else
        symbol_step sqrt harmonics { s1 with power_sq_totals_pos := 0 }
    else
      symbol_step sqrt harmonics { s1 with power_sq_totals_pos := 0 }
  else
    symbol_step sqrt harmonics s1

/-- The calls of `process_harmonics` made by the loop of `press_record` on the
successive spectra `probes`: the loop stops at the first call that returns a
non-zero value.  Gives the state left and whether the loop was stopped. -/
def run_harmonics {α : Type} [Add α] [Sub α] [Mul α] [Div α] [NatCast α] [LT α]
    [DecidableRel (fun a b : α => a < b)] [DecidableEq α] (sqrt : α → α) :
    List (Nat → α × α) → HarmonicsState α → HarmonicsState α × Bool
  | [], s => (s, false)
  | h :: rest, s =>
    if (process_harmonics sqrt h s).ret ≠ 0 then ((process_harmonics sqrt h s).state, true)
    else run_harmonics sqrt rest (process_harmonics sqrt h s).state

/-! ## Record side: the microphone source `read_from_mic` -/

/-- The macro `MAX_WAIT`. -/
def MAX_WAIT : Nat := 30

/-- What the call `snd_pcm_readi(device, short_samples, count)` does: the
value it returns (negative for a failure) and the interleaved 16-bit samples
it leaves in `short_samples`. -/
structure PcmRead where
  err : Int
  short_samples : Nat → Int

/-- What a call of `read_from_mic` leaves: the value returned, the cells
`samples[0 ..]` it wrote, and the static `total_read`. -/
structure MicResult (α : Type) where
  ret : Int
  samples : List α
  total_read : Nat

/-- The function `read_from_mic(device, samples, count)`, entered with the
static `total_read` and the global `framed` as given; `pcm` is what
`snd_pcm_readi` does when it is called.  The sum `total_read += count` is
taken exactly. -/
def read_from_mic {α : Type} [IntCast α] (framed : Int) (pcm : PcmRead) (count : Nat)
    (total_read : Nat) : MicResult α :=
  if count > AUDIO_BUFFER_SIZE then
    { ret := -1, samples := [], total_read := total_read }
  else if pcm.err < 0 then
    { ret := 0, samples := [], total_read := total_read }
  else
    let samples := (List.range count).map fun c => ((pcm.short_samples (c * 2) : Int) : α)
    let total_read := total_read + count
    if total_read > DEFAULT_SAMPLE_RATE * MAX_WAIT ∧ framed = 0 then
      { ret := -2, samples := samples, total_read := total_read }
    else
      { ret := (count : Int), samples := samples, total_read := total_read }

/-! ## Record side: the file source and the session `press_record` -/

/-- The fields of `SF_INFO` that `init_file_input` looks at, as `sf_open`
leaves them. -/
structure SF_INFO where
  samplerate : Int
  channels : Int
  deriving DecidableEq, Repr

/-- What `sf_open(wave_filename, SFM_READ, &file_info)` finds: the header
fields, and the items that `sf_read_double` then delivers, in order. -/
structure WavInput (α : Type) where
  file_info : SF_INFO
  items : List α

/-- The value returned by `init_file_input(&in_file, wave_filename)`; the
handle `in_file` is set by `sf_open` whatever the value returned. -/
def init_file_input (file_info : SF_INFO) : Int :=
  if file_info.samplerate ≠ (DEFAULT_SAMPLE_RATE : Int) then -1
  else if file_info.channels ≠ 1 then -1
  else 0

/-- The table `window` filled by `init_window`:
`window[c] = cos(c/(W-1.0)*PI - PI/2)`, an angle of `c/(W-1)/2 - 1/4` turns;
`cosT t` stands for the cosine of `t` turns. -/
def init_window {α : Type} (cosT : ℚ → α) (c : Nat) : α :=
  cosT ((c : ℚ) / (((DEFAULT_WAVELENGTH : Nat) : ℚ) - 1) / 2 - 1 / 4)

/-- The function `apply_window_func(audio_samples)`. -/
def apply_window_func {α : Type} [Mul α] (window : Nat → α) (audio_samples : Nat → α) :
    Nat → α :=
  fun c => if c < DEFAULT_WAVELENGTH then audio_samples c * window c else audio_samples c

/-- The output of `fftw_execute` on a plan made by
`fftw_plan_dft_r2c_1d(len, x, harmonics, ..)`, as documented by FFTW: the
forward transform `harmonics[k] = sum over j < len of
x[j] * exp (-2 pi i j k / len)`, as pairs `(real, imaginary)`. -/
def dft_r2c {α : Type} [Ring α] (cosT sinT : ℚ → α) (len : Nat) (x : Nat → α) (k : Nat) :
    α × α :=
  (((List.range len).map fun j => x j * cosT (((k * j : Nat) : ℚ) / (len : ℚ))).sum,
    -((List.range len).map fun j => x j * sinT (((k * j : Nat) : ℚ) / (len : ℚ))).sum)

/-- The value of a cell of `audio_samples`; a cell that was never stored has
no determined value and is read as 0 (the calls made by the record loop store
every cell, see `audio_at_offset_spec`). -/
def cell_value {α : Type} [Zero α] : Option α → α
  | some x => x
  | none => 0

/-- How the loop of `press_record` ends: `audio_at_offset` returns a value
that is not positive, or `process_harmonics` returns a non-zero value. -/
inductive RecordEnd where
  | end_of_input
  | end_of_transmission
  deriving DecidableEq, Repr

/-- What the loop of `press_record` leaves: the number of calls of
`process_harmonics` made, how the loop ended, the items of the input that
were never read, and the state of the discriminator and framer. -/
structure RecordLoop (α : Type) where
  probes : Nat
  ended : RecordEnd
  unread : List α
  state : HarmonicsState α

/-- The loop `while ((samples_read = audio_at_offset(.., offset++, W)) > 0)`
of `press_record` on a file input, entered with the local `offset`, and run
for at most `fuel` passes (`none` when the passes run out). -/
def record_loop {α : Type} [Field α] [LT α] [DecidableRel (fun a b : α => a < b)]
    [DecidableEq α] (sqrt : α → α) (cosT sinT : ℚ → α) :
    Nat → Nat → AudioState α × List α → HarmonicsState α → Option (RecordLoop α)
  | 0, _, _, _ => none
  | fuel + 1, offset, x, hs =>
    let r := audio_at_offset read_from_file x.1 x.2 offset DEFAULT_WAVELENGTH
    if r.ret > 0 then
      let audio_samples :=
        apply_window_func (init_window cosT) (fun c => cell_value (r.out.getD c none))
      let harmonics := dft_r2c cosT sinT DEFAULT_WAVELENGTH audio_samples
      let p := process_harmonics sqrt harmonics hs
      if p.ret ≠ 0 then
        some { probes := offset + 1, ended := RecordEnd.end_of_transmission,
               unread := r.source, state := p.state }
      else record_loop sqrt cosT sinT fuel (offset + 1) (r.state, r.source) p.state
    else
      some { probes := offset, ended := RecordEnd.end_of_input, unread := r.source, state := hs }

/-- What a call of `press_record` leaves: the value returned, the value that
`init_file_input` returned, the number of spectral probes made, how the loop
ended, the items of the input never read, and the bytes written to
`out_file`. -/
structure RecordResult (α : Type) where
  ret : Int
  init_result : Int
  probes : Nat
  ended : RecordEnd
  unread : List α
  out : List Nat

/-- The function `press_record(data_filename, wave_filename)` with a WAV file
named, the allocations and the output file taken to succeed, its loop run for
at most `fuel` passes.  The value returned by `init_file_input` is not looked
at; whichever way the loop ends, the function ends in `return 1`. -/
def press_record {α : Type} [Field α] [LT α] [DecidableRel (fun a b : α => a < b)]
    [DecidableEq α] (sqrt : α → α) (cosT sinT : ℚ → α) (fuel : Nat) (wav : WavInput α) :
    Option (RecordResult α) :=
  let init_result := init_file_input wav.file_info
  let x := init_audio_buffer read_from_file wav.items
  match record_loop sqrt cosT sinT fuel 0 x HarmonicsState.init with
  | none => none
  | some l =>
    some { ret := 1, init_result := init_result, probes := l.probes, ended := l.ended,
           unread := l.unread, out := l.state.bit_state.out }

/-! ## Entry point: `main` -/

/-- The branch taken by `main`: `press_record` or `press_play` called with a
data file name and a WAV file name (`none` for `NULL`), or the usage text
printed. -/
inductive Session where
  | record (data_filename wave_filename : Option String)
  | play (data_filename wave_filename : Option String)
  | usage
  deriving DecidableEq, Repr

/-- What `main` does: the branch taken and the value returned. -/
structure MainResult where
  session : Session
  result : Int
  deriving DecidableEq, Repr

/-- The character `s[i]` of a C string: the characters of `s`, then the
terminating zero. -/
def c_char (s : String) (i : Nat) : Char :=
  s.data.getD i (Char.ofNat 0)

/-- The function `main(argc, argv)`, with `argc` the length of `argv`; the
parameters `record_ret` and `play_ret` give the values that `press_record` and
`press_play` return for the arguments they are called with. -/
def main (record_ret play_ret : Option String → Option String → Int) (argv : List String) :
    MainResult :=
  let argc := argv.length
  if (argc ≥ 3 ∧ argc ≤ 5) ∧ argv.getD 1 "" = "press" ∧ argv.getD 2 "" = "record" then
    if argc = 3 ∨ (c_char (argv.getD 3 "") 0 = '-' ∧ c_char (argv.getD 3 "") 1 = Char.ofNat 0) then
      if argc = 5 then
        { session := Session.record none (some (argv.getD 4 "")),
          result := record_ret none (some (argv.getD 4 "")) }
      else
        { session := Session.record none none, result := record_ret none none }
    else if argc = 4 then
      { session := Session.record (some (argv.getD 3 "")) none,
        result := record_ret (some (argv.getD 3 "")) none }
    else
      { session := Session.record (some (argv.getD 3 "")) (some (argv.getD 4 "")),
        result := record_ret (some (argv.getD 3 "")) (some (argv.getD 4 "")) }
  else if (argc ≥ 3 ∧ argc ≤ 5) ∧ argv.getD 1 "" = "press" ∧ argv.getD 2 "" = "play" then
    if argc = 3 ∨ (c_char (argv.getD 3 "") 0 = '-' ∧ c_char (argv.getD 3 "") 1 = Char.ofNat 0) then
      if argc = 5 then
        { session := Session.play none (some (argv.getD 4 "")),
          result := play_ret none (some (argv.getD 4 "")) }
      else
        { session := Session.play none none, result := play_ret none none }
    else if argc = 4 then
      { session := Session.play (some (argv.getD 3 "")) none,
        result := play_ret (some (argv.getD 3 "")) none }
    else
      { session := Session.play (some (argv.getD 3 "")) (some (argv.getD 4 "")),
        result := play_ret (some (argv.getD 3 "")) (some (argv.getD 4 "")) }
  else
    { session := Session.usage, result := 1 }

/-! ## Vocabulary of the properties -/

/-- The unframed state of the framer in which `initzeros = z` and
`initones = o` (nothing accumulated, nothing written). -/
def searching (z o : Nat) : BitState :=
  { framed := 0, val := 0, count := 0, initzeros := z, initones := o, out := [] }

/-- The state of the framer right after the call that sets `framed`. -/
def locked : BitState :=
  { framed := 1, val := 0, count := 0, initzeros := 8, initones := 8, out := [] }

/-- The global `framed` after the first `n` bits of `bits` have been passed to
`process_bit`, starting from the initial state. -/
def framed_after (bits : List Int) (n : Nat) : Int :=
  (feed (bits.take n) BitState.init).framed

/-- Bits `i-15 .. i-8` of `bits` are all 0 and bits `i-7 .. i` are all 1: the
sixteen bits ending at index `i` are eight zeros followed by eight ones. -/
def preambleAt (bits : List Int) (i : Nat) : Prop :=
  15 ≤ i ∧ (bits.drop (i - 15)).take 16 = [0, 0, 0, 0, 0, 0, 0, 0, 1, 1, 1, 1, 1, 1, 1, 1]

/-- The bytes described by the specification for a bit sequence: consecutive
groups of eight bits `b0 .. b7`, each giving the byte `sum b_i * 2^(7-i)`; a
last group of fewer than eight bits gives nothing. -/
def packGroups : List Int → List Nat
  | b0 :: b1 :: b2 :: b3 :: b4 :: b5 :: b6 :: b7 :: rest =>
      (b0 * 2 ^ 7 + b1 * 2 ^ 6 + b2 * 2 ^ 5 + b3 * 2 ^ 4 + b4 * 2 ^ 3 + b5 * 2 ^ 2 + b6 * 2 ^ 1
        + b7 * 2 ^ 0).toNat :: packGroups rest
  | _ => []

/-- The value left in `val` by the framed branch of `process_bit` after the
bits of `l`, starting from `val = 0`. -/
def shift_in (l : List Int) : Int :=
  l.foldl (fun v b => toChar (toChar (v * 2) + b)) 0

/-- The bits of `cur_byte` in the order the inner loop of `press_play` visits
them: 1 where `get_nth_bit(cur_byte, n)` is non-zero, for `n = 7` down to 0. -/
def byte_bits (cur_byte : Int) : List Int :=
  [7, 6, 5, 4, 3, 2, 1, 0].map fun n => if get_nth_bit cur_byte n ≠ 0 then 1 else 0

/-- The bits of the whole input of `press_play`, bytes in input order. -/
def payload_bits (data : List Nat) : List Int :=
  data.flatMap fun b => byte_bits (toChar (b : Int))

/-- The bit a written symbol stands for: 1 for a slice of `one_audio`, 0 for a
slice of `zero_audio`. -/
def symbol_bit (w : Write) : Int :=
  if w.wave = Wave.one_audio then 1 else 0

/-- The slice the specification assigns to a payload bit and a polarity, with
`W = DEFAULT_WAVELENGTH` and `M = DEFAULT_SYMBOL_LENGTH`: `one_wave[0..M)` for
(1, positive), `one_wave[W/4 .. W/4+(W-M))` for (1, negative),
`zero_wave[0..M)` for (0, positive), `zero_wave[M..W)` for (0, negative). -/
def symbol_slice (bit : Int) (positive : Bool) : Write :=
  if bit ≠ 0 then
    if positive then ⟨Wave.one_audio, 0, DEFAULT_SYMBOL_LENGTH⟩
    else ⟨Wave.one_audio, DEFAULT_WAVELENGTH / 4, DEFAULT_WAVELENGTH - DEFAULT_SYMBOL_LENGTH⟩
  else
    if positive then ⟨Wave.zero_audio, 0, DEFAULT_SYMBOL_LENGTH⟩
    else ⟨Wave.zero_audio, DEFAULT_SYMBOL_LENGTH, DEFAULT_WAVELENGTH - DEFAULT_SYMBOL_LENGTH⟩

/-- The polarity after a sequence of bits, by the rule of the specification:
a 0 toggles it, a 1 leaves it. -/
def polarity_after (positive : Bool) (bits : List Int) : Bool :=
  bits.foldl (fun p b => if b = 0 then !p else p) positive

/-- The per-bit encoding of the specification: each bit is written as the
slice for its value and the current polarity; a 0 toggles the polarity. -/
def encode_bits (positive : Bool) : List Int → List Write
  | [] => []
  | b :: rest => symbol_slice b positive :: encode_bits (if b = 0 then !positive else positive) rest

/-- The cell of `audio_buffer` that holds the sample at distance `j` from
`audio_buffer_offset`: when `audio_buffer_section` is 1 the two halves of the
buffer are swapped. -/
def slot (sec j : Nat) : Nat :=
  if sec = 0 then j
  else if j < AUDIO_BUFFER_SIZE / 2 then AUDIO_BUFFER_SIZE / 2 + j
  else j - AUDIO_BUFFER_SIZE / 2

/-- The buffer `st` and the unread rest `src` of a file holding the samples
`total`: the buffer holds the `audio_buffer_length` samples that start at
`audio_buffer_offset`, `src` is what follows them while `audio_eof` is 0, and
nothing follows them once `audio_eof` is set. -/
def BufInv {α : Type} (total : List α) (st : AudioState α) (src : List α) : Prop :=
  (st.audio_buffer_section = 0 ∨ st.audio_buffer_section = 1) ∧
    st.audio_buffer_length ≤ AUDIO_BUFFER_SIZE ∧
    st.audio_buffer_offset + st.audio_buffer_length ≤ total.length ∧
    (st.audio_eof = 0 → st.audio_buffer_length = AUDIO_BUFFER_SIZE ∧
      src = total.drop (st.audio_buffer_offset + AUDIO_BUFFER_SIZE)) ∧
    (st.audio_eof ≠ 0 → st.audio_buffer_offset + st.audio_buffer_length = total.length) ∧
    (∀ j, j < st.audio_buffer_length →
      st.audio_buffer (slot st.audio_buffer_section j) = total[st.audio_buffer_offset + j]?)

/-- The integer square root, the largest `r` with `r * r <= x`: the exact
square root of every perfect square. -/
def int_sqrt (x : Int) : Int :=
  (((List.range (x.toNat + 1)).filter (fun r => r * r ≤ x.toNat)).length : Int) - 1

/-- A spectrum with all its signal in bin 1 (magnitude 8, power 64). -/
def tone_zero : Nat → Int × Int := fun k => if k = 1 then (8, 0) else (0, 0)

/-- A spectrum with all its signal in bin 2 (magnitude 8, power 64). -/
def tone_one : Nat → Int × Int := fun k => if k = 2 then (8, 0) else (0, 0)

/-- The spectrum of silence: every bin zero. -/
def silence : Nat → Int × Int := fun _ => (0, 0)

/-- The condition under which `process_harmonics` executes `return 1`: the
store completes the power window, `framed` is set, the reference is already
non-zero, and the mean of the window times the squared range is below it. -/
def eot_fires {α : Type} [Add α] [Mul α] [Div α] [NatCast α] [LT α] (harmonics : Nat → α × α)
    (s : HarmonicsState α) : Prop :=
  s.power_sq_totals_pos + 1 ≥ POWER_WINDOW ∧ s.bit_state.framed ≠ 0 ∧
    s.ave_signal_power_sq ≠ ((0 : Nat) : α) ∧
    window_mean (Function.update s.power_sq_totals s.power_sq_totals_pos (bin_power harmonics)) *
      ((SIGNAL_POWER_RANGE : Nat) : α) * ((SIGNAL_POWER_RANGE : Nat) : α) < s.ave_signal_power_sq

/-- The condition `eot_fires` can be evaluated. -/
instance eot_fires_decidable {α : Type} [Add α] [Mul α] [Div α] [NatCast α] [LT α]
    [DecidableRel (fun a b : α => a < b)] [DecidableEq α] (harmonics : Nat → α × α)
    (s : HarmonicsState α) : Decidable (eot_fires harmonics s) := by
  unfold eot_fires
  exact inferInstance

/-- The state in which `process_harmonics` goes on to its second part when it
does not return 1: the power window updated, its position advanced or wrapped
to 0, and the reference captured if the window is complete, `framed` is set
and the reference is still zero. -/
def after_power {α : Type} [Add α] [Mul α] [Div α] [NatCast α] [DecidableEq α]
    (harmonics : Nat → α × α) (s : HarmonicsState α) : HarmonicsState α :=
  { s with
    power_sq_totals :=
      Function.update s.power_sq_totals s.power_sq_totals_pos (bin_power harmonics),
    power_sq_totals_pos :=
      if s.power_sq_totals_pos + 1 ≥ POWER_WINDOW then 0 else s.power_sq_totals_pos + 1,
    ave_signal_power_sq :=
      if s.power_sq_totals_pos + 1 ≥ POWER_WINDOW ∧ s.bit_state.framed ≠ 0 ∧
          s.ave_signal_power_sq = ((0 : Nat) : α) then
        window_mean
          (Function.update s.power_sq_totals s.power_sq_totals_pos (bin_power harmonics))
      else s.ave_signal_power_sq }

/-- The unframed state `s` reached after the bits `l`: its counters are the
lengths of the run of zeros and of the run of ones that end `l`. -/
def Search (l : List Int) (s : BitState) : Prop :=
  ∃ (pre : List Int) (z o : Nat), s = searching z o ∧ z ≤ 8 ∧ o < 8 ∧ (o ≠ 0 → z = 8) ∧
    l = pre ++ List.replicate z 0 ++ List.replicate o 1

/-- The mean `ave_power_diff` that a call of `process_harmonics` entered in
state `s` compares with zero: the mean of `power_diffs` after the store of the
difference of the magnitudes of `harmonics`. -/
def smoothed_diff {α : Type} [Add α] [Sub α] [Mul α] [Div α] [NatCast α] (sqrt : α → α)
    (harmonics : Nat → α × α) (s : HarmonicsState α) : α :=
  diff_mean (Function.update s.power_diffs s.power_diffs_start (bin_diff sqrt harmonics))

/-- The smoothed difference has the sign that flips `current_symbol`: it is
positive while the symbol is 1, or negative while the symbol is 0. -/
def sign_flip {α : Type} [Add α] [Sub α] [Mul α] [Div α] [NatCast α] [LT α] (sqrt : α → α)
    (harmonics : Nat → α × α) (s : HarmonicsState α) : Prop :=
  (s.current_symbol = 1 ∧ ((0 : Nat) : α) < smoothed_diff sqrt harmonics s) ∨
    (s.current_symbol = 0 ∧ smoothed_diff sqrt harmonics s < ((0 : Nat) : α))

/-- The condition `sign_flip` can be evaluated. -/
instance sign_flip_decidable {α : Type} [Add α] [Sub α] [Mul α] [Div α] [NatCast α] [LT α]
    [DecidableRel (fun a b : α => a < b)] (sqrt : α → α) (harmonics : Nat → α × α)
    (s : HarmonicsState α) : Decidable (sign_flip sqrt harmonics s) := by
  unfold sign_flip
  exact inferInstance

/-- The bits passed to `process_bit`, in order, by the calls of
`process_harmonics` that the loop of `press_record` makes on the successive
spectra `probes`. -/
def bits_emitted {α : Type} [Add α] [Sub α] [Mul α] [Div α] [NatCast α] [LT α]
    [DecidableRel (fun a b : α => a < b)] [DecidableEq α] (sqrt : α → α) :
    List (Nat → α × α) → HarmonicsState α → List Int
  | [], _ => []
  | h :: rest, s =>
    if (process_harmonics sqrt h s).ret ≠ 0 then (process_harmonics sqrt h s).emitted
    else (process_harmonics sqrt h s).emitted ++
      bits_emitted sqrt rest (process_harmonics sqrt h s).state

/-- What the record loop sees of one call of `process_harmonics`: whether the
smoothed difference had the sign that flips the symbol, the bits emitted and
the value returned. -/
structure ProbeLog where
  flip : Bool
  emitted : List Int
  ret : Int
  deriving DecidableEq, Repr

/-- The log of the calls of `process_harmonics` that the loop of
`press_record` makes on the successive spectra `probes`, up to and including
the first call that returns a non-zero value. -/
def probe_log {α : Type} [Add α] [Sub α] [Mul α] [Div α] [NatCast α] [LT α]
    [DecidableRel (fun a b : α => a < b)] [DecidableEq α] (sqrt : α → α) :
    List (Nat → α × α) → HarmonicsState α → List ProbeLog
  | [], _ => []
  | h :: rest, s =>
    { flip := decide (sign_flip sqrt h s),
      emitted := (process_harmonics sqrt h s).emitted,
      ret := (process_harmonics sqrt h s).ret } ::
      (if (process_harmonics sqrt h s).ret ≠ 0 then []
       else probe_log sqrt rest (process_harmonics sqrt h s).state)

/-- The globals and the source after `init_audio_buffer` and then the calls
`audio_at_offset(.., offset, length)` for the pairs `(offset, length)` of
`requests`, in order. -/
def buffer_after {σ α : Type} [Zero α] (read_samples : σ → Nat → ReadResult σ α) (in_file : σ)
    (requests : List (Nat × Nat)) : AudioState α × σ :=
  requests.foldl
    (fun x r =>
      ((audio_at_offset read_samples x.1 x.2 r.1 r.2).state,
        (audio_at_offset read_samples x.1 x.2 r.1 r.2).source))
    (init_audio_buffer read_samples in_file)

/-- The shape of the globals of the sliding buffer: `audio_buffer_offset` is a
multiple of half the buffer, `audio_buffer_length` is at most the buffer,
`audio_buffer_section` is 0 or 1 and is the parity of the number of half
buffers passed, and the buffer is full while `audio_eof` is 0. -/
def BufShape {α : Type} (st : AudioState α) : Prop :=
  st.audio_buffer_offset % (AUDIO_BUFFER_SIZE / 2) = 0 ∧
    st.audio_buffer_length ≤ AUDIO_BUFFER_SIZE ∧
    (st.audio_buffer_section = 0 ∨ st.audio_buffer_section = 1) ∧
    st.audio_buffer_section = st.audio_buffer_offset / (AUDIO_BUFFER_SIZE / 2) % 2 ∧
    (st.audio_eof = 0 → st.audio_buffer_length = AUDIO_BUFFER_SIZE)

/-- One call of `read_from_mic` in a session: the value of `framed` at the
call, what the device does, and the count asked for. -/
structure MicCall where
  framed : Int
  pcm : PcmRead
  count : Nat

/-- The static `total_read` after the calls `calls`, in order, from its
initial value 0. -/
def mic_total (α : Type) [IntCast α] (calls : List MicCall) : Nat :=
  calls.foldl
    (fun t c => (read_from_mic c.framed c.pcm c.count t : MicResult α).total_read) 0

/-- The samples a call of `read_from_mic` delivers to its caller: `count` when
the call reads the device and the read succeeds, none otherwise. -/
def delivered (c : MicCall) : Nat :=
  if c.count ≤ AUDIO_BUFFER_SIZE ∧ 0 ≤ c.pcm.err then c.count else 0

/-- A command line the specification recognises for the verb `verb`:
`3 <= argc <= 5`, `argv[1]` is "press" and `argv[2]` is the verb. -/
def recognised (verb : String) (argv : List String) : Prop :=
  (3 ≤ argv.length ∧ argv.length ≤ 5) ∧ argv[1]? = some "press" ∧ argv[2]? = some verb

/-- Whether a command line is recognised can be evaluated. -/
instance recognised_decidable (verb : String) (argv : List String) :
    Decidable (recognised verb argv) := by
  unfold recognised
  exact inferInstance

/-- The dispatch as the specification words it: a recognised command runs
record or play with, as data path, the standard stream (`none`) when
`argc = 3` or `argv[3]` is exactly "-", and `argv[3]` otherwise, and as WAV
path `argv[4]` when `argc = 5` and the audio device (`none`) otherwise;
anything else prints the usage and returns 1. -/
def dispatch_spec (record_ret play_ret : Option String → Option String → Int)
    (argv : List String) : MainResult :=
  let data_path : Option String :=
    if argv.length = 3 ∨ argv[3]? = some "-" then none else argv[3]?
  let wav_path : Option String := if argv.length = 5 then argv[4]? else none
  if recognised "record" argv then
    { session := Session.record data_path wav_path, result := record_ret data_path wav_path }
  else if recognised "play" argv then
    { session := Session.play data_path wav_path, result := play_ret data_path wav_path }
  else
    { session := Session.usage, result := 1 }

/-- The double `1 + 3 * 2^-26`. -/
def rounding_amplitude : Binary64 :=
  { mantissa := (2 ^ 26 + 3) * 2 ^ 26, exponent := -52 }

/-- The double `(1 + 3 * 2^-26)^2 = 1 + 6 * 2^-26 + 9 * 2^-52`, the square of
`rounding_amplitude` (the product is exact). -/
def rounding_power : Binary64 :=
  { mantissa := (2 ^ 26 + 3) ^ 2, exponent := -52 }

/-- The double `256 * (rounding_power + 3 * 2^-52)`. -/
def rounding_reference : Binary64 :=
  { mantissa := (2 ^ 26 + 3) ^ 2 + 3, exponent := -44 }

/-- A spectrum of doubles with `rounding_amplitude` as the real part of bin 1
and zero everywhere else: its power is `rounding_power`. -/
def rounding_tone : Nat → Binary64 × Binary64 :=
  fun k =>
    if k = 1 then (rounding_amplitude, { mantissa := 0, exponent := -1074 })
    else ({ mantissa := 0, exponent := -1074 }, { mantissa := 0, exponent := -1074 })

/-- A framed state of doubles whose power window holds `rounding_power` in
every entry and stands at its last position, with the reference set to
`rounding_reference`. -/
def rounding_state : HarmonicsState Binary64 :=
  { current_symbol := 1, sample_count := 0,
    power_diffs := fun _ => { mantissa := 0, exponent := -1074 }, power_diffs_start := 0,
    power_sq_totals := fun _ => rounding_power, power_sq_totals_pos := 31,
    ave_signal_power_sq := rounding_reference, bit_state := locked }

/-- The natural number `m` is the integer nearest to the rational `q`, and
the even one of the two nearest when `q` lies halfway between them. -/
def nearest_even (m : Nat) (q : ℚ) : Prop :=
  (m : ℚ) ≤ q + 1 / 2 ∧ q ≤ (m : ℚ) + 1 / 2 ∧
    ((m : ℚ) = q + 1 / 2 → m % 2 = 0) ∧ (q = (m : ℚ) + 1 / 2 → m % 2 = 0)

/-- The double `2^-5`. -/
def quiet_amplitude : Binary64 :=
  { mantissa := 2 ^ 52, exponent := -57 }

/-- The double `2^-9`. -/
def quiet_level : Binary64 :=
  { mantissa := 2 ^ 52, exponent := -61 }

/-- A spectrum of doubles with `quiet_amplitude` as the real part of bin 1 and
zero everywhere else: its power is `2^-10`. -/
def quiet_tone : Nat → Binary64 × Binary64 :=
  fun k =>
    if k = 1 then (quiet_amplitude, { mantissa := 0, exponent := -1074 })
    else ({ mantissa := 0, exponent := -1074 }, { mantissa := 0, exponent := -1074 })

/-- A framed state of doubles whose power window holds `rounding_power` in
every entry and stands at position 16, with the reference set to 1. -/
def quiet_state : HarmonicsState Binary64 :=
  { current_symbol := 1, sample_count := 0,
    power_diffs := fun _ => { mantissa := 0, exponent := -1074 }, power_diffs_start := 0,
    power_sq_totals := fun _ => rounding_power, power_sq_totals_pos := 16,
    ave_signal_power_sq := { mantissa := 2 ^ 52, exponent := -52 }, bit_state := locked }

/-! ## Properties of the double arithmetic

The operations of `Binary64` round the exact result to the nearest double;
from that: the order of doubles is the order of the rationals they stand for,
and addition, division by 32 and multiplication by 16 are monotone. -/

/-- With fuel enough, `bit_count` gives the number of binary digits: `n` is below
`2^count` and, unless zero, at least `2^(count - 1)`. -/
theorem bit_count_spec (fuel n : Nat) (h : n < 2 ^ fuel) :
    n < 2 ^ bit_count fuel n ∧ (n ≠ 0 → 2 ^ (bit_count fuel n - 1) ≤ n) := by
  induction fuel generalizing n with
  | zero =>
    have : n = 0 := by simpa using h
    subst this
    simp [bit_count]
  | succ fuel ih =>
    unfold bit_count
    by_cases hn : n = 0
    · subst hn
      simp
    · rw [if_neg hn]
      have h2 : n / 2 < 2 ^ fuel := by
        rw [pow_succ] at h
        omega
      obtain ⟨i1, i2⟩ := ih (n / 2) h2
      constructor
      · rw [pow_succ]
        omega
      · intro _
        rw [Nat.add_sub_cancel]
        by_cases hz : n / 2 = 0
        · have hk : bit_count fuel (n / 2) = 0 := by
            rw [hz]
            cases fuel <;> simp [bit_count]
          rw [hk]
          simp
          omega
        · have := i2 hz
          have hk : 1 ≤ bit_count fuel (n / 2) := by
            by_contra hlt
            have : bit_count fuel (n / 2) = 0 := by omega
            rw [this] at i1
            simp at i1
            exact hz i1
          have hp : 2 ^ bit_count fuel (n / 2) = 2 * 2 ^ (bit_count fuel (n / 2) - 1) := by
            rw [← pow_succ']
            congr 1
            omega
          rw [hp]
          omega

/-- The binary digits of `n` are counted right: `2^(k-1) <= n < 2^k`. -/
theorem bit_length_spec (n : Nat) (hn : 0 < n) :
    2 ^ (bit_length n - 1) ≤ n ∧ n < 2 ^ bit_length n ∧ 1 ≤ bit_length n := by
  obtain ⟨h1, h2⟩ := bit_count_spec n n (Nat.lt_two_pow n)
  refine ⟨h2 (by omega), h1, ?_⟩
  by_contra hlt
  have : bit_length n = 0 := by omega
  unfold bit_length at this
  rw [this] at h1
  simp at h1
  omega

/-- Rounding to the nearest integer, ties to even, is monotone. -/
theorem nearest_even_mono (m m' : Nat) (q q' : ℚ) (h : nearest_even m q)
    (h' : nearest_even m' q') (hq : q ≤ q') : m ≤ m' := by
  by_contra hlt
  have hm : m' + 1 ≤ m := by omega
  have hmq : ((m' : ℚ) + 1 ≤ (m : ℚ)) := by exact_mod_cast hm
  obtain ⟨h1, -, h3, -⟩ := h
  obtain ⟨-, h2', -, h4'⟩ := h'
  have e1 : (m : ℚ) = q + 1 / 2 := by linarith
  have e2 : q' = (m' : ℚ) + 1 / 2 := by linarith
  have hmm : (m : ℚ) = (m' : ℚ) + 1 := by linarith
  have hmm' : m = m' + 1 := by exact_mod_cast hmm
  have p1 := h3 e1
  have p2 := h4' e2
  omega

/-- The function `round_half_even` gives the integer nearest to `n / d`, ties
to even. -/
theorem round_half_even_spec (n d : Nat) (hd : 0 < d) :
    nearest_even (round_half_even n d) ((n : ℚ) / (d : ℚ)) := by
  have hdq : (0 : ℚ) < (d : ℚ) := by exact_mod_cast hd
  have hn : (n : ℚ) = (d : ℚ) * ((n / d : Nat) : ℚ) + ((n % d : Nat) : ℚ) := by
    exact_mod_cast (Nat.div_add_mod n d).symm
  have hq : (n : ℚ) / (d : ℚ) = ((n / d : Nat) : ℚ) + ((n % d : Nat) : ℚ) / (d : ℚ) := by
    rw [hn]
    field_simp
    ring
  have hr : n % d < d := Nat.mod_lt n hd
  have hr0 : (0 : ℚ) ≤ ((n % d : Nat) : ℚ) / (d : ℚ) := by positivity
  have hr1 : ((n % d : Nat) : ℚ) / (d : ℚ) < 1 := by
    rw [div_lt_one hdq]
    exact_mod_cast hr
  generalize hf : n / d = f at *
  generalize hrr : n % d = r at *
  unfold round_half_even nearest_even
  rw [hf, hrr, hq]
  by_cases c1 : 2 * r < d
  · have hlt : (r : ℚ) / (d : ℚ) < 1 / 2 := by
      rw [div_lt_iff₀ hdq]
      have : ((2 * r : Nat) : ℚ) < (d : ℚ) := by exact_mod_cast c1
      push_cast at this
      linarith
    rw [if_pos c1]
    refine ⟨by linarith, by linarith, fun h => ?_, fun h => ?_⟩ <;> exfalso <;> linarith
  · rw [if_neg c1]
    by_cases c2 : d < 2 * r
    · have hgt : 1 / 2 < (r : ℚ) / (d : ℚ) := by
        rw [lt_div_iff₀ hdq]
        have : (d : ℚ) < ((2 * r : Nat) : ℚ) := by exact_mod_cast c2
        push_cast at this
        linarith
      rw [if_pos c2]
      push_cast
      refine ⟨by linarith, by linarith, fun h => ?_, fun h => ?_⟩ <;> exfalso <;> linarith
    · rw [if_neg c2]
      have heq : 2 * r = d := by omega
      have hhalf : (r : ℚ) / (d : ℚ) = 1 / 2 := by
        rw [div_eq_iff (ne_of_gt hdq)]
        have : ((2 * r : Nat) : ℚ) = (d : ℚ) := by exact_mod_cast heq
        push_cast at this
        linarith
      by_cases c3 : f % 2 = 0
      · rw [if_pos c3]
        refine ⟨by linarith, by linarith, fun h => ?_, fun _ => c3⟩
        exfalso
        linarith
      · rw [if_neg c3]
        push_cast
        refine ⟨by linarith, by linarith, fun _ => by omega, fun h => ?_⟩
        exfalso
        linarith

/-- Powers of two are positive. -/
theorem two_zpow_pos (k : Int) : (0 : ℚ) < (2 : ℚ) ^ k := zpow_pos (by norm_num) k

/-- Powers of two turn sums of exponents into products. -/
theorem two_zpow_add (j k : Int) : (2 : ℚ) ^ (j + k) = (2 : ℚ) ^ j * (2 : ℚ) ^ k :=
  zpow_add₀ (by norm_num) j k

/-- A natural power of two, as a rational. -/
theorem two_zpow_toNat (k : Int) (hk : 0 ≤ k) : ((2 ^ k.toNat : Nat) : ℚ) = (2 : ℚ) ^ k := by
  have : ((k.toNat : Nat) : Int) = k := Int.toNat_of_nonneg hk
  rw [Nat.cast_pow, Nat.cast_ofNat, ← zpow_natCast, this]

/-- Powers of two grow with the exponent. -/
theorem two_zpow_le (j k : Int) (h : j ≤ k) : (2 : ℚ) ^ j ≤ (2 : ℚ) ^ k :=
  zpow_le_zpow_right₀ (by norm_num) h

/-- A positive `n` lies between `2^(bit_length n - 1)` and `2^(bit_length n)`. -/
theorem bit_length_rat (n : Nat) (hn : 0 < n) :
    (2 : ℚ) ^ ((bit_length n : Int) - 1) ≤ (n : ℚ) ∧ (n : ℚ) < (2 : ℚ) ^ (bit_length n : Int) := by
  obtain ⟨h1, h2, h3⟩ := bit_length_spec n hn
  constructor
  · have : ((bit_length n : Int) - 1) = ((bit_length n - 1 : Nat) : Int) := by omega
    rw [this, zpow_natCast]
    exact_mod_cast h1
  · rw [zpow_natCast]
    exact_mod_cast h2

/-- The integer part of the binary logarithm is computed right. -/
theorem floor_log2_spec (num den : Nat) (hn : 0 < num) (hd : 0 < den) :
    (2 : ℚ) ^ floor_log2 num den ≤ (num : ℚ) / (den : ℚ) ∧
      (num : ℚ) / (den : ℚ) < (2 : ℚ) ^ (floor_log2 num den + 1) := by
  have hdq : (0 : ℚ) < (den : ℚ) := by exact_mod_cast hd
  obtain ⟨hA1, hA2⟩ := bit_length_rat num hn
  obtain ⟨hB1, hB2⟩ := bit_length_rat den hd
  unfold floor_log2
  generalize (bit_length num : Int) = A at *
  generalize (bit_length den : Int) = B at *
  -- the two outcomes of the comparison
  have hyes : (den : ℚ) * (2 : ℚ) ^ (A - B) ≤ (num : ℚ) →
      (2 : ℚ) ^ (A - B) ≤ (num : ℚ) / (den : ℚ) ∧
        (num : ℚ) / (den : ℚ) < (2 : ℚ) ^ (A - B + 1) := by
    intro hc
    constructor
    · rw [le_div_iff₀ hdq]
      linarith
    · rw [div_lt_iff₀ hdq]
      have h2 : (2 : ℚ) ^ A = (2 : ℚ) ^ (A - B + 1) * (2 : ℚ) ^ (B - 1) := by
        rw [← two_zpow_add]
        congr 1
        ring
      have hp := two_zpow_pos (A - B + 1)
      calc (num : ℚ) < (2 : ℚ) ^ A := hA2
        _ = (2 : ℚ) ^ (A - B + 1) * (2 : ℚ) ^ (B - 1) := h2
        _ ≤ (2 : ℚ) ^ (A - B + 1) * (den : ℚ) := by
            apply mul_le_mul_of_nonneg_left hB1 (le_of_lt hp)
  have hno : (num : ℚ) < (den : ℚ) * (2 : ℚ) ^ (A - B) →
      (2 : ℚ) ^ (A - B - 1) ≤ (num : ℚ) / (den : ℚ) ∧
        (num : ℚ) / (den : ℚ) < (2 : ℚ) ^ (A - B - 1 + 1) := by
    intro hc
    constructor
    · rw [le_div_iff₀ hdq]
      have h2 : (2 : ℚ) ^ (A - 1) = (2 : ℚ) ^ (A - B - 1) * (2 : ℚ) ^ B := by
        rw [← two_zpow_add]
        congr 1
        ring
      have hp := two_zpow_pos (A - B - 1)
      calc (2 : ℚ) ^ (A - B - 1) * (den : ℚ) ≤ (2 : ℚ) ^ (A - B - 1) * (2 : ℚ) ^ B := by
            apply mul_le_mul_of_nonneg_left (le_of_lt hB2) (le_of_lt hp)
        _ = (2 : ℚ) ^ (A - 1) := h2.symm
        _ ≤ (num : ℚ) := hA1
    · rw [div_lt_iff₀ hdq]
      have : A - B - 1 + 1 = A - B := by ring
      rw [this]
      linarith
  by_cases h0 : 0 ≤ A - B
  · rw [if_pos h0]
    have hcast : (den * 2 ^ (A - B).toNat ≤ num) ↔
        (den : ℚ) * (2 : ℚ) ^ (A - B) ≤ (num : ℚ) := by
      rw [← two_zpow_toNat (A - B) h0]
      exact_mod_cast Iff.rfl
    by_cases hc : den * 2 ^ (A - B).toNat ≤ num
    · rw [if_pos hc]
      exact hyes (hcast.1 hc)
    · rw [if_neg hc]
      exact hno (lt_of_not_le (fun h => hc (hcast.2 h)))
  · rw [if_neg h0]
    have h0' : 0 ≤ B - A := by omega
    have hinv : (2 : ℚ) ^ (A - B) * (2 : ℚ) ^ (B - A) = 1 := by
      rw [← two_zpow_add]
      have : A - B + (B - A) = 0 := by ring
      rw [this, zpow_zero]
    have hcast : (den ≤ num * 2 ^ (B - A).toNat) ↔
        (den : ℚ) * (2 : ℚ) ^ (A - B) ≤ (num : ℚ) := by
      have h1 : (den ≤ num * 2 ^ (B - A).toNat) ↔
          (den : ℚ) ≤ (num : ℚ) * (2 : ℚ) ^ (B - A) := by
        rw [← two_zpow_toNat (B - A) h0']
        exact_mod_cast Iff.rfl
      rw [h1]
      have hp := two_zpow_pos (A - B)
      constructor
      · intro h
        have := mul_le_mul_of_nonneg_right h (le_of_lt hp)
        rw [mul_assoc, mul_comm ((2 : ℚ) ^ (B - A)), hinv, mul_one] at this
        exact this
      · intro h
        have := mul_le_mul_of_nonneg_right h (le_of_lt (two_zpow_pos (B - A)))
        rw [mul_assoc, hinv, mul_one] at this
        exact this
    by_cases hc : den ≤ num * 2 ^ (B - A).toNat
    · rw [if_pos hc]
      exact hyes (hcast.1 hc)
    · rw [if_neg hc]
      exact hno (lt_of_not_le (fun h => hc (hcast.2 h)))

/-- The rounding exponent is at least -1074, the rational is below `2^(e + 53)`,
and at least `2^(e + 52)` when the exponent is above -1074. -/
theorem round_exponent_spec (num den : Nat) (x : Int) (hn : 0 < num) (hd : 0 < den) :
    -1074 ≤ round_exponent num den x ∧
      (num : ℚ) / (den : ℚ) * (2 : ℚ) ^ x < (2 : ℚ) ^ (round_exponent num den x + 53) ∧
      (-1074 < round_exponent num den x →
        (2 : ℚ) ^ (round_exponent num den x + 52) ≤ (num : ℚ) / (den : ℚ) * (2 : ℚ) ^ x) := by
  obtain ⟨h1, h2⟩ := floor_log2_spec num den hn hd
  have hx := two_zpow_pos x
  unfold round_exponent
  generalize floor_log2 num den = l at *
  refine ⟨le_max_left _ _, ?_, ?_⟩
  · have hle : l + 1 + x ≤ max (-1074) (l + x - 52) + 53 := by
      have := le_max_right (-1074 : Int) (l + x - 52)
      omega
    calc (num : ℚ) / (den : ℚ) * (2 : ℚ) ^ x < (2 : ℚ) ^ (l + 1) * (2 : ℚ) ^ x :=
          mul_lt_mul_of_pos_right h2 hx
      _ = (2 : ℚ) ^ (l + 1 + x) := (two_zpow_add _ _).symm
      _ ≤ (2 : ℚ) ^ (max (-1074) (l + x - 52) + 53) := two_zpow_le _ _ hle
  · intro hlt
    have he : max (-1074 : Int) (l + x - 52) = l + x - 52 := by
      rcases max_choice (-1074 : Int) (l + x - 52) with h | h
      · rw [h] at hlt
        exact absurd hlt (lt_irrefl _)
      · exact h
    rw [he]
    have : l + x - 52 + 52 = l + x := by ring
    rw [this, two_zpow_add]
    exact mul_le_mul_of_nonneg_right h1 (le_of_lt hx)

/-- The rounded mantissa is the integer nearest, ties to even, to the rational
divided by two to the rounding exponent. -/
theorem round_mantissa_spec (num den : Nat) (x : Int) (hd : 0 < den) :
    nearest_even (round_mantissa num den x)
      ((num : ℚ) / (den : ℚ) * (2 : ℚ) ^ x * (2 : ℚ) ^ (-round_exponent num den x)) := by
  have hdq : (den : ℚ) ≠ 0 := by
    have : (0 : ℚ) < (den : ℚ) := by exact_mod_cast hd
    exact ne_of_gt this
  unfold round_mantissa
  generalize round_exponent num den x = e
  by_cases h0 : 0 ≤ x - e
  · rw [if_pos h0]
    have := round_half_even_spec (num * 2 ^ (x - e).toNat) den hd
    have hv : (((num * 2 ^ (x - e).toNat : Nat) : ℚ)) / (den : ℚ) =
        (num : ℚ) / (den : ℚ) * (2 : ℚ) ^ x * (2 : ℚ) ^ (-e) := by
      rw [Nat.cast_mul, two_zpow_toNat (x - e) h0, mul_assoc, ← two_zpow_add]
      have : x + -e = x - e := by ring
      rw [this]
      ring
    rw [hv] at this
    exact this
  · rw [if_neg h0]
    have h0' : 0 ≤ e - x := by omega
    have hpos : 0 < den * 2 ^ (e - x).toNat := Nat.mul_pos hd (Nat.pow_pos (by norm_num))
    have := round_half_even_spec num (den * 2 ^ (e - x).toNat) hpos
    have hv : (num : ℚ) / ((den * 2 ^ (e - x).toNat : Nat) : ℚ) =
        (num : ℚ) / (den : ℚ) * (2 : ℚ) ^ x * (2 : ℚ) ^ (-e) := by
      rw [Nat.cast_mul, two_zpow_toNat (e - x) h0', mul_assoc, ← two_zpow_add]
      have h1 : (2 : ℚ) ^ (e - x) * (2 : ℚ) ^ (x + -e) = 1 := by
        rw [← two_zpow_add]
        have : e - x + (x + -e) = 0 := by ring
        rw [this, zpow_zero]
      have hp := ne_of_gt (two_zpow_pos (e - x))
      field_simp
      have hr : (num : ℚ) * (2 : ℚ) ^ (x + -e) * ((den : ℚ) * (2 : ℚ) ^ (e - x)) =
          (num : ℚ) * (den : ℚ) * ((2 : ℚ) ^ (e - x) * (2 : ℚ) ^ (x + -e)) := by ring
      rw [hr, h1, mul_one]
    rw [hv] at this
    exact this

/-- Zero rounds to zero. -/
theorem nearest_even_zero (m : Nat) (h : nearest_even m 0) : m = 0 := by
  obtain ⟨h1, -⟩ := h
  by_contra hne
  have : (1 : ℚ) ≤ (m : ℚ) := by exact_mod_cast Nat.one_le_iff_ne_zero.2 hne
  linarith

/-- The quotient of a positive rational by two to its rounding exponent is
below `2^53`, and at least `2^52` unless the exponent is the least one. -/
theorem round_quotient_spec (num den : Nat) (x : Int) (hn : 0 < num) (hd : 0 < den) :
    (num : ℚ) / (den : ℚ) * (2 : ℚ) ^ x * (2 : ℚ) ^ (-round_exponent num den x) < 2 ^ 53 ∧
      (-1074 < round_exponent num den x →
        (2 : ℚ) ^ 52 ≤
          (num : ℚ) / (den : ℚ) * (2 : ℚ) ^ x * (2 : ℚ) ^ (-round_exponent num den x)) := by
  obtain ⟨-, h2, h3⟩ := round_exponent_spec num den x hn hd
  generalize round_exponent num den x = e at *
  have hp := two_zpow_pos (-e)
  have hcancel : ∀ k : Int, (2 : ℚ) ^ (e + k) * (2 : ℚ) ^ (-e) = (2 : ℚ) ^ k := by
    intro k
    rw [← two_zpow_add]
    congr 1
    ring
  constructor
  · have := mul_lt_mul_of_pos_right h2 hp
    rw [hcancel] at this
    exact_mod_cast this
  · intro hlt
    have := mul_le_mul_of_nonneg_right (h3 hlt) (le_of_lt hp)
    rw [hcancel] at this
    exact_mod_cast this

/-- The value of a rounded double: the rounded mantissa at the rounding
exponent, with the sign asked for. -/
theorem round_toRat (neg : Bool) (num den : Nat) (x : Int) (hd : 0 < den) :
    (Binary64.round neg num den x).toRat =
      (if neg then -1 else 1) *
        ((round_mantissa num den x : ℚ) * (2 : ℚ) ^ round_exponent num den x) := by
  have hm := round_mantissa_spec num den x hd
  unfold Binary64.round
  by_cases hn : num = 0
  · rw [if_pos hn]
    subst hn
    simp only [Nat.cast_zero, zero_div, zero_mul] at hm
    rw [nearest_even_zero _ hm]
    simp [Binary64.toRat]
  · rw [if_neg hn]
    have hnpos : 0 < num := Nat.pos_of_ne_zero hn
    obtain ⟨hq, -⟩ := round_quotient_spec num den x hnpos hd
    by_cases hz : round_mantissa num den x = 0
    · rw [if_pos hz, hz]
      simp [Binary64.toRat]
    · rw [if_neg hz]
      by_cases hbig : 2 ^ 53 ≤ round_mantissa num den x
      · rw [if_pos hbig]
        have hle : round_mantissa num den x ≤ 2 ^ 53 := by
          have h1 := hm.1
          have : (round_mantissa num den x : ℚ) < 2 ^ 53 + 1 := by linarith
          have h2 : round_mantissa num den x < 2 ^ 53 + 1 := by exact_mod_cast this
          omega
        have heq : round_mantissa num den x = 2 ^ 53 := le_antisymm hle hbig
        rw [heq]
        unfold Binary64.toRat
        simp only
        rw [two_zpow_add]
        cases neg <;> simp <;> ring
      · rw [if_neg hbig]
        unfold Binary64.toRat
        cases neg <;> simp

/-- A double rounded from a non-negative rational is not negative. -/
theorem round_toRat_nonneg (num den : Nat) (x : Int) (hd : 0 < den) :
    0 ≤ (Binary64.round false num den x).toRat := by
  rw [round_toRat false num den x hd]
  have := two_zpow_pos (round_exponent num den x)
  simp only [Bool.false_eq_true, if_false, one_mul]
  positivity

/-- Rounding is monotone: of two non-negative rationals, the larger one
rounds to the larger double. -/
theorem round_mono (num den : Nat) (x : Int) (num' den' : Nat) (x' : Int) (hd : 0 < den)
    (hd' : 0 < den')
    (hv : (num : ℚ) / (den : ℚ) * (2 : ℚ) ^ x ≤ (num' : ℚ) / (den' : ℚ) * (2 : ℚ) ^ x') :
    (Binary64.round false num den x).toRat ≤ (Binary64.round false num' den' x').toRat := by
  have hdq : (0 : ℚ) < (den : ℚ) := by exact_mod_cast hd
  have hdq' : (0 : ℚ) < (den' : ℚ) := by exact_mod_cast hd'
  by_cases hn : num = 0
  · have : (Binary64.round false num den x).toRat = 0 := by
      unfold Binary64.round
      rw [if_pos hn]
      simp [Binary64.toRat]
    rw [this]
    exact round_toRat_nonneg num' den' x' hd'
  have hnpos : 0 < num := Nat.pos_of_ne_zero hn
  have hvpos : (0 : ℚ) < (num : ℚ) / (den : ℚ) * (2 : ℚ) ^ x := by
    have : (0 : ℚ) < (num : ℚ) := by exact_mod_cast hnpos
    have := two_zpow_pos x
    positivity
  have hn' : 0 < num' := by
    by_contra h0
    have : num' = 0 := by omega
    rw [this] at hv
    simp at hv
    linarith
  rw [round_toRat false num den x hd, round_toRat false num' den' x' hd']
  simp only [Bool.false_eq_true, if_false, one_mul]
  have hm := round_mantissa_spec num den x hd
  have hm' := round_mantissa_spec num' den' x' hd'
  obtain ⟨hq, hqlow⟩ := round_quotient_spec num den x hnpos hd
  obtain ⟨hq', hqlow'⟩ := round_quotient_spec num' den' x' hn' hd'
  obtain ⟨he0, he1, he2⟩ := round_exponent_spec num den x hnpos hd
  obtain ⟨he0', he1', he2'⟩ := round_exponent_spec num' den' x' hn' hd'
  generalize round_mantissa num den x = m at *
  generalize round_mantissa num' den' x' = m' at *
  generalize round_exponent num den x = e at *
  generalize round_exponent num' den' x' = e' at *
  generalize (num : ℚ) / (den : ℚ) * (2 : ℚ) ^ x = v at *
  generalize (num' : ℚ) / (den' : ℚ) * (2 : ℚ) ^ x' = v' at *
  rcases lt_trichotomy e e' with hlt | heq | hgt
  · -- the smaller value rounds to at most 2^(e+53), the larger to at least 2^(e'+52)
    have h1 : (m : ℚ) ≤ 2 ^ 53 := by
      have : (m : ℚ) < 2 ^ 53 + 1 := by linarith [hm.1]
      have h2 : m < 2 ^ 53 + 1 := by exact_mod_cast this
      have h3 : m ≤ 2 ^ 53 := by omega
      exact_mod_cast h3
    have h2 : (2 : ℚ) ^ 52 ≤ (m' : ℚ) := by
      have hlow := hqlow' (by omega)
      have : (2 : ℚ) ^ 52 - 1 < (m' : ℚ) := by linarith [hm'.2.1]
      have h3 : 2 ^ 52 - 1 < m' := by
        have : ((2 ^ 52 - 1 : Nat) : ℚ) < (m' : ℚ) := by
          push_cast
          linarith
        exact_mod_cast this
      have h4 : 2 ^ 52 ≤ m' := by omega
      exact_mod_cast h4
    have hpe := two_zpow_pos e
    have hpe' := two_zpow_pos e'
    calc (m : ℚ) * (2 : ℚ) ^ e ≤ 2 ^ 53 * (2 : ℚ) ^ e :=
          mul_le_mul_of_nonneg_right h1 (le_of_lt hpe)
      _ = (2 : ℚ) ^ (e + 53) := by
          rw [two_zpow_add]
          norm_num
          ring
      _ ≤ (2 : ℚ) ^ (e' + 52) := two_zpow_le _ _ (by omega)
      _ = 2 ^ 52 * (2 : ℚ) ^ e' := by
          rw [two_zpow_add]
          norm_num
          ring
      _ ≤ (m' : ℚ) * (2 : ℚ) ^ e' := mul_le_mul_of_nonneg_right h2 (le_of_lt hpe')
  · subst heq
    have hp := two_zpow_pos (-e)
    have hmm : m ≤ m' :=
      nearest_even_mono m m' _ _ hm hm' (mul_le_mul_of_nonneg_right hv (le_of_lt hp))
    have : (m : ℚ) ≤ (m' : ℚ) := by exact_mod_cast hmm
    exact mul_le_mul_of_nonneg_right this (le_of_lt (two_zpow_pos e))
  · exfalso
    have h1 := he2 (by omega)
    have h2 : (2 : ℚ) ^ (e' + 53) ≤ (2 : ℚ) ^ (e + 52) := two_zpow_le _ _ (by omega)
    linarith

/-- The mantissa of a double at a lower exponent stands for the same rational. -/
theorem at_exponent_toRat (c : Binary64) (e : Int) (h : c.mantissa = 0 ∨ e ≤ c.exponent) :
    ((c.at_exponent e : Int) : ℚ) * (2 : ℚ) ^ e = c.toRat := by
  unfold Binary64.at_exponent Binary64.toRat
  rcases h with h | h
  · rw [h]
    simp
  · rw [Int.cast_mul, Int.cast_natCast, two_zpow_toNat _ (by omega), mul_assoc, ← two_zpow_add]
    congr 2
    ring

/-- The common exponent of two doubles is not above the exponent of either,
unless that one is zero. -/
theorem common_le (a b : Binary64) :
    (a.mantissa = 0 ∨ a.common b ≤ a.exponent) ∧ (b.mantissa = 0 ∨ a.common b ≤ b.exponent) := by
  unfold Binary64.common
  by_cases ha : a.mantissa = 0
  · rw [if_pos ha]
    exact ⟨Or.inl ha, Or.inr (le_refl _)⟩
  · rw [if_neg ha]
    by_cases hb : b.mantissa = 0
    · rw [if_pos hb]
      exact ⟨Or.inr (le_refl _), Or.inl hb⟩
    · rw [if_neg hb]
      exact ⟨Or.inr (min_le_left _ _), Or.inr (min_le_right _ _)⟩

/-- The order of doubles is the order of the rationals they stand for. -/
theorem le_iff_toRat (a b : Binary64) : a ≤ b ↔ a.toRat ≤ b.toRat := by
  obtain ⟨ha, hb⟩ := common_le a b
  rw [← at_exponent_toRat a _ ha, ← at_exponent_toRat b _ hb]
  have hp := two_zpow_pos (a.common b)
  show a.at_exponent (a.common b) ≤ b.at_exponent (a.common b) ↔ _
  rw [mul_le_mul_right hp]
  exact Int.cast_le.symm

/-- The strict order of doubles is the strict order of the rationals they
stand for. -/
theorem lt_iff_toRat (a b : Binary64) : a < b ↔ a.toRat < b.toRat := by
  obtain ⟨ha, hb⟩ := common_le a b
  rw [← at_exponent_toRat a _ ha, ← at_exponent_toRat b _ hb]
  have hp := two_zpow_pos (a.common b)
  show a.at_exponent (a.common b) < b.at_exponent (a.common b) ↔ _
  rw [mul_lt_mul_right hp]
  exact Int.cast_lt.symm

/-- Rounding is monotone on signed rationals `± num / den * 2^x`. -/
theorem round_signed_mono (neg neg' : Bool) (num den : Nat) (x : Int) (num' den' : Nat)
    (x' : Int) (hd : 0 < den) (hd' : 0 < den')
    (hv : (if neg then -1 else 1) * ((num : ℚ) / (den : ℚ) * (2 : ℚ) ^ x) ≤
      (if neg' then -1 else 1) * ((num' : ℚ) / (den' : ℚ) * (2 : ℚ) ^ x')) :
    (Binary64.round neg num den x).toRat ≤ (Binary64.round neg' num' den' x').toRat := by
  have hdq : (0 : ℚ) < (den : ℚ) := by exact_mod_cast hd
  have hdq' : (0 : ℚ) < (den' : ℚ) := by exact_mod_cast hd'
  have hs : ∀ (s : Bool) (n d : Nat) (y : Int), 0 < d →
      (Binary64.round s n d y).toRat =
        (if s then -1 else 1) * (Binary64.round false n d y).toRat := by
    intro s n d y hdd
    rw [round_toRat s n d y hdd, round_toRat false n d y hdd]
    simp
  have hv0 : (0 : ℚ) ≤ (num : ℚ) / (den : ℚ) * (2 : ℚ) ^ x := by
    have := two_zpow_pos x
    positivity
  have hv0' : (0 : ℚ) ≤ (num' : ℚ) / (den' : ℚ) * (2 : ℚ) ^ x' := by
    have := two_zpow_pos x'
    positivity
  have hR := round_toRat_nonneg num den x hd
  have hR' := round_toRat_nonneg num' den' x' hd'
  rw [hs neg num den x hd, hs neg' num' den' x' hd']
  cases neg <;> cases neg'
  · simp only [Bool.false_eq_true, if_false, one_mul] at hv ⊢
    exact round_mono num den x num' den' x' hd hd' hv
  · simp only [Bool.false_eq_true, if_false, if_true, one_mul] at hv ⊢
    have hz : (num : ℚ) / (den : ℚ) * (2 : ℚ) ^ x = 0 := by linarith
    have hz' : (num' : ℚ) / (den' : ℚ) * (2 : ℚ) ^ x' = 0 := by linarith
    have h1 := round_mono num den x 0 1 0 hd (by norm_num) (by rw [hz]; simp)
    have h2 := round_mono num' den' x' 0 1 0 hd' (by norm_num) (by rw [hz']; simp)
    have h0 : (Binary64.round false 0 1 0).toRat = 0 := by
      simp [Binary64.round, Binary64.toRat]
    rw [h0] at h1 h2
    linarith
  · simp only [Bool.false_eq_true, if_false, if_true, one_mul]
    linarith
  · simp only [if_true] at hv ⊢
    have := round_mono num' den' x' num den x hd' hd (by linarith)
    linarith

/-- The double nearest to an integer multiple of a power of two is monotone
in that multiple. -/
theorem round_int_mono (s s' : Int) (e e' : Int)
    (h : (s : ℚ) * (2 : ℚ) ^ e ≤ (s' : ℚ) * (2 : ℚ) ^ e') :
    (Binary64.round (decide (s < 0)) s.natAbs 1 e).toRat ≤
      (Binary64.round (decide (s' < 0)) s'.natAbs 1 e').toRat := by
  have hval : ∀ (t : Int) (y : Int),
      (if decide (t < 0) = true then (-1 : ℚ) else 1) *
        ((t.natAbs : ℚ) / ((1 : Nat) : ℚ) * (2 : ℚ) ^ y) = (t : ℚ) * (2 : ℚ) ^ y := by
    intro t y
    have habs : ((t.natAbs : Nat) : ℚ) = |(t : ℚ)| := by
      rw [Nat.cast_natAbs, Int.cast_abs]
    by_cases ht : t < 0
    · have : (t : ℚ) < 0 := by exact_mod_cast ht
      simp [ht, habs, abs_of_neg this]
    · have : (0 : ℚ) ≤ (t : ℚ) := by exact_mod_cast (not_lt.1 ht)
      simp [ht, habs, abs_of_nonneg this]
  apply round_signed_mono _ _ _ _ _ _ _ _ (by norm_num) (by norm_num)
  rw [hval, hval]
  exact h

/-- The order of doubles is reflexive. -/
theorem binary64_le_refl (a : Binary64) : a ≤ a :=
  (le_iff_toRat a a).2 (le_refl _)

/-- On doubles, `a <= b` and `b < c` give `a < c`. -/
theorem binary64_lt_of_le_of_lt (a b c : Binary64) (h1 : a ≤ b) (h2 : b < c) : a < c :=
  (lt_iff_toRat a c).2 (lt_of_le_of_lt ((le_iff_toRat a b).1 h1) ((lt_iff_toRat b c).1 h2))

/-- Addition of doubles is monotone. -/
theorem binary64_add_mono (a b c d : Binary64) (h1 : a ≤ b) (h2 : c ≤ d) : a + c ≤ b + d := by
  rw [le_iff_toRat] at h1 h2 ⊢
  have hsum : ∀ u v : Binary64,
      (((u.at_exponent (u.common v) + v.at_exponent (u.common v) : Int) : ℚ)) *
        (2 : ℚ) ^ (u.common v) = u.toRat + v.toRat := by
    intro u v
    obtain ⟨hu, hv⟩ := common_le u v
    rw [Int.cast_add, add_mul, at_exponent_toRat u _ hu, at_exponent_toRat v _ hv]
  show (Binary64.round (decide (a.at_exponent (a.common c) + c.at_exponent (a.common c) < 0))
      (a.at_exponent (a.common c) + c.at_exponent (a.common c)).natAbs 1 (a.common c)).toRat ≤
    (Binary64.round (decide (b.at_exponent (b.common d) + d.at_exponent (b.common d) < 0))
      (b.at_exponent (b.common d) + d.at_exponent (b.common d)).natAbs 1 (b.common d)).toRat
  apply round_int_mono
  rw [hsum, hsum]
  linarith

set_option maxRecDepth 100000 in
/-- The double 32. -/
theorem binary64_cast_32 :
    ((32 : Nat) : Binary64) = { mantissa := 2 ^ 52, exponent := -47 } := by
  decide

set_option maxRecDepth 100000 in
/-- The double 16. -/
theorem binary64_cast_16 :
    ((16 : Nat) : Binary64) = { mantissa := 2 ^ 52, exponent := -48 } := by
  decide

/-- Division of doubles by 32 is monotone. -/
theorem binary64_div_mono (a b : Binary64) (h : a ≤ b) :
    a / ((32 : Nat) : Binary64) ≤ b / ((32 : Nat) : Binary64) := by
  rw [le_iff_toRat] at h ⊢
  rw [binary64_cast_32]
  have hval : ∀ u : Binary64,
      (if (decide (u.mantissa < 0) != decide ((2 ^ 52 : Int) < 0)) = true then (-1 : ℚ) else 1) *
        ((u.mantissa.natAbs : ℚ) / (((2 ^ 52 : Int).natAbs : Nat) : ℚ) *
          (2 : ℚ) ^ (u.exponent - (-47))) = u.toRat / 32 := by
    intro u
    have habs : ((u.mantissa.natAbs : Nat) : ℚ) = |(u.mantissa : ℚ)| := by
      rw [Nat.cast_natAbs, Int.cast_abs]
    have h52 : (((2 ^ 52 : Int).natAbs : Nat) : ℚ) = 2 ^ 52 := by norm_num
    have hx : (2 : ℚ) ^ (u.exponent - (-47)) = (2 : ℚ) ^ u.exponent * 2 ^ 47 := by
      have : u.exponent - (-47) = u.exponent + 47 := by ring
      rw [this, two_zpow_add]
      norm_num
    have hneg : decide ((2 ^ 52 : Int) < 0) = false := by decide
    rw [h52, hx, hneg, habs]
    unfold Binary64.toRat
    by_cases ht : u.mantissa < 0
    · have : (u.mantissa : ℚ) < 0 := by exact_mod_cast ht
      simp [ht, abs_of_neg this]
      ring
    · have : (0 : ℚ) ≤ (u.mantissa : ℚ) := by exact_mod_cast (not_lt.1 ht)
      simp [ht, abs_of_nonneg this]
      ring
  show (Binary64.round (decide (a.mantissa < 0) != decide ((2 ^ 52 : Int) < 0)) a.mantissa.natAbs
      (2 ^ 52 : Int).natAbs (a.exponent - (-47))).toRat ≤
    (Binary64.round (decide (b.mantissa < 0) != decide ((2 ^ 52 : Int) < 0)) b.mantissa.natAbs
      (2 ^ 52 : Int).natAbs (b.exponent - (-47))).toRat
  apply round_signed_mono _ _ _ _ _ _ _ _ (by decide) (by decide)
  rw [hval, hval]
  linarith

/-- Multiplication of doubles by 16 is monotone. -/
theorem binary64_mul_mono (a b : Binary64) (h : a ≤ b) :
    a * ((16 : Nat) : Binary64) ≤ b * ((16 : Nat) : Binary64) := by
  rw [le_iff_toRat] at h ⊢
  rw [binary64_cast_16]
  have hval : ∀ u : Binary64,
      (((u.mantissa * (2 ^ 52 : Int) : Int) : ℚ)) * (2 : ℚ) ^ (u.exponent + (-48)) =
        u.toRat * 16 := by
    intro u
    have hx : (2 : ℚ) ^ (u.exponent + (-48)) = (2 : ℚ) ^ u.exponent * (2 : ℚ) ^ (-48 : Int) :=
      two_zpow_add _ _
    rw [hx]
    unfold Binary64.toRat
    push_cast
    have h48 : (2 : ℚ) ^ (-48 : Int) = 1 / 2 ^ 48 := by
      rw [zpow_neg]
      norm_num
    rw [h48]
    ring
  show (Binary64.round (decide (a.mantissa * (2 ^ 52 : Int) < 0))
      (a.mantissa * (2 ^ 52 : Int)).natAbs 1 (a.exponent + (-48))).toRat ≤
    (Binary64.round (decide (b.mantissa * (2 ^ 52 : Int) < 0))
      (b.mantissa * (2 ^ 52 : Int)).natAbs 1 (b.exponent + (-48))).toRat
  apply round_int_mono
  rw [hval, hval]
  linarith

/-! ## Properties of the framer -/

theorem feed_nil (s : BitState) : feed [] s = s := rfl

theorem feed_cons (b : Int) (l : List Int) (s : BitState) :
    feed (b :: l) s = feed l (process_bit b s) := rfl

theorem feed_append (l₁ l₂ : List Int) (s : BitState) :
    feed (l₁ ++ l₂) s = feed l₂ (feed l₁ s) := by
  simp [feed, List.foldl_append]

theorem init_eq_searching : BitState.init = searching 0 0 := rfl

theorem searching_zero_lt (z : Nat) (hz : z < 8) :
    process_bit 0 (searching z 0) = searching (z + 1) 0 := by
  have h : ((z : Int) < 8) := by omega
  simp [process_bit, searching, h]

theorem searching_one_lt (z : Nat) (hz : z < 8) :
    process_bit 1 (searching z 0) = searching 0 0 := by
  have h : ((z : Int) < 8) := by omega
  simp [process_bit, searching, h]

theorem searching_zero_full : process_bit 0 (searching 8 0) = searching 8 0 := by
  decide

theorem searching_one_full (o : Nat) (ho : o < 7) :
    process_bit 1 (searching 8 o) = searching 8 (o + 1) := by
  have h : ¬ ((o : Int) + 1 = 8) := by omega
  simp [process_bit, searching, h]

theorem searching_one_lock : process_bit 1 (searching 8 7) = locked := by
  decide

theorem searching_zero_reset (o : Nat) (ho : 0 < o) :
    process_bit 0 (searching 8 o) = searching 1 0 := by
  have h : (0 : Int) < (o : Int) := by omega
  simp [process_bit, searching, h]

/-- Once `framed` is set, `process_bit` never clears it. -/
theorem process_bit_framed (b : Int) (s : BitState) (h : s.framed ≠ 0) :
    (process_bit b s).framed = s.framed := by
  unfold process_bit
  simp only [h, ne_eq, not_false_eq_true, if_true]
  split <;> rfl

theorem feed_framed (l : List Int) (s : BitState) (h : s.framed ≠ 0) :
    (feed l s).framed = s.framed := by
  induction l generalizing s with
  | nil => rfl
  | cons b l ih =>
    rw [feed_cons, ih _ (by rw [process_bit_framed b s h]; exact h), process_bit_framed b s h]

theorem Search.framed_eq {l : List Int} {s : BitState} (h : Search l s) : s.framed = 0 := by
  obtain ⟨pre, z, o, rfl, -⟩ := h
  rfl

theorem Search.out_eq {l : List Int} {s : BitState} (h : Search l s) : s.out = [] := by
  obtain ⟨pre, z, o, rfl, -⟩ := h
  rfl

/-- One call of `process_bit` from a searching state either keeps searching or
locks, and it locks exactly on the eighth one after eight zeros. -/
theorem search_step (l : List Int) (s : BitState) (b : Int) (h : Search l s)
    (hb : b = 0 ∨ b = 1) :
    Search (l ++ [b]) (process_bit b s) ∨
      (process_bit b s = locked ∧
        ∃ pre, l ++ [b] = pre ++ List.replicate 8 0 ++ List.replicate 8 1) := by
  obtain ⟨pre, z, o, rfl, hz, ho, hzo, rfl⟩ := h
  rcases hb with rfl | rfl
  · left
    rcases Nat.eq_zero_or_pos o with rfl | hopos
    · rcases Nat.lt_or_ge z 8 with hz8 | hz8
      · exact ⟨pre, z + 1, 0, searching_zero_lt z hz8, hz8, by omega, by simp,
          by simp [List.replicate_succ']⟩
      · obtain rfl : z = 8 := by omega
        refine ⟨pre ++ [0], 8, 0, searching_zero_full, le_refl _, by omega, by simp, ?_⟩
        simp [List.replicate]
    · obtain rfl : z = 8 := hzo (by omega)
      exact ⟨pre ++ List.replicate 8 0 ++ List.replicate o 1, 1, 0, searching_zero_reset o hopos,
        by omega, by omega, by simp, by simp⟩
  · rcases Nat.lt_or_ge z 8 with hz8 | hz8
    · left
      obtain rfl : o = 0 := by
        by_contra hne
        have := hzo hne
        omega
      exact ⟨pre ++ List.replicate z 0 ++ [1], 0, 0, searching_one_lt z hz8, by omega, by omega,
        by simp, by simp⟩
    · obtain rfl : z = 8 := by omega
      rcases Nat.lt_or_ge o 7 with ho7 | ho7
      · left
        exact ⟨pre, 8, o + 1, searching_one_full o ho7, le_refl _, by omega, by simp,
          by simp [List.replicate_succ']⟩
      · right
        obtain rfl : o = 7 := by omega
        exact ⟨searching_one_lock, pre, by simp [List.replicate]⟩

/-- After any sequence of bits the framer is either still searching, with its
counters describing the end of the sequence, or framed. -/
theorem search_or_framed (l : List Int) (hl : ∀ b ∈ l, b = 0 ∨ b = 1) :
    Search l (feed l BitState.init) ∨ (feed l BitState.init).framed ≠ 0 := by
  induction l using List.reverseRecOn with
  | nil => exact Or.inl ⟨[], 0, 0, rfl, by omega, by omega, by simp, by simp⟩
  | append_singleton l b ih =>
    have hl1 : ∀ c ∈ l, c = 0 ∨ c = 1 := fun c hc => hl c (by simp [hc])
    have hb : b = 0 ∨ b = 1 := hl b (by simp)
    rw [feed_append, feed_cons, feed_nil]
    rcases ih hl1 with hs | hf
    · rcases search_step l _ b hs hb with h | ⟨h, -⟩
      · exact Or.inl h
      · right
        rw [h]
        decide
    · right
      rw [process_bit_framed b _ hf]
      exact hf

/-- The call that sets `framed` leaves the framer in the state `locked`, and
the bits passed so far end with eight zeros followed by eight ones. -/
theorem framing_call (bits : List Int) (hbits : ∀ b ∈ bits, b = 0 ∨ b = 1) (i : Nat)
    (h0 : framed_after bits i = 0) (h1 : framed_after bits (i + 1) ≠ 0) :
    i < bits.length ∧ feed (bits.take (i + 1)) BitState.init = locked ∧
      ∃ pre, bits.take (i + 1) = pre ++ List.replicate 8 0 ++ List.replicate 8 1 := by
  have hi : i < bits.length := by
    by_contra hge
    have hge : bits.length ≤ i := by omega
    unfold framed_after at h0 h1
    rw [List.take_of_length_le hge] at h0
    rw [List.take_of_length_le (by omega)] at h1
    exact h1 h0
  have htake : bits.take (i + 1) = bits.take i ++ [bits[i]] := by
    rw [List.take_succ, List.getElem?_eq_getElem hi]
    rfl
  have hb : bits[i] = 0 ∨ bits[i] = 1 := hbits _ (List.getElem_mem hi)
  have hpre : ∀ b ∈ bits.take i, b = 0 ∨ b = 1 := fun b hb => hbits b (List.mem_of_mem_take hb)
  unfold framed_after at h0 h1
  rw [htake, feed_append, feed_cons, feed_nil] at h1
  rw [htake, feed_append, feed_cons, feed_nil]
  refine ⟨hi, ?_⟩
  rcases search_or_framed _ hpre with hs | hf
  · rcases search_step _ _ _ hs hb with h | ⟨h, hp⟩
    · exact absurd h.framed_eq h1
    · exact ⟨h, hp⟩
  · exact absurd h0 hf

theorem preambleAt_iff (bits : List Int) (i : Nat) :
    preambleAt bits i ↔
      i < bits.length ∧ ∃ pre, bits.take (i + 1) = pre ++ List.replicate 8 0 ++ List.replicate 8 1 := by
  constructor
  · rintro ⟨h15, hs⟩
    have hlen : i < bits.length := by
      have := congrArg List.length hs
      simp at this
      omega
    refine ⟨hlen, bits.take (i - 15), ?_⟩
    have : i + 1 = (i - 15) + 16 := by omega
    rw [this, List.take_add, hs]
    simp [List.replicate]
  · rintro ⟨hlen, pre, hp⟩
    have hl := congrArg List.length hp
    simp at hl
    have hpl : pre.length = i - 15 := by omega
    refine ⟨by omega, ?_⟩
    have h16 : (bits.drop (i - 15)).take 16 = (bits.take (i + 1)).drop (i - 15) := by
      rw [List.drop_take]
      congr 1
      omega
    rw [h16, hp, ← hpl, List.append_assoc, List.drop_left]
    rfl

/-- Eight zeros followed by eight ones set `framed`, whatever came before. -/
theorem framed_of_preamble (pre : List Int) (hpre : ∀ b ∈ pre, b = 0 ∨ b = 1) :
    (feed (pre ++ List.replicate 8 0 ++ List.replicate 8 1) BitState.init).framed ≠ 0 := by
  rw [feed_append, feed_append]
  rcases search_or_framed pre hpre with hs | hf
  · obtain ⟨p, z, o, hs, hz, ho, hzo, -⟩ := hs
    rw [hs]
    interval_cases z <;> interval_cases o <;> simp at hzo <;> decide
  · rw [feed_framed _ _ (by rw [feed_framed _ _ hf]; exact hf), feed_framed _ _ hf]
    exact hf

theorem framed_after_mono (bits : List Int) (n m : Nat) (hnm : n ≤ m)
    (h : framed_after bits n ≠ 0) : framed_after bits m ≠ 0 := by
  unfold framed_after at *
  obtain ⟨d, rfl⟩ : ∃ d, m = n + d := ⟨m - n, by omega⟩
  rw [List.take_add, feed_append, feed_framed _ _ h]
  exact h

theorem first_framing (bits : List Int) (n : Nat) (h : framed_after bits n ≠ 0) :
    ∃ i, i < n ∧ framed_after bits i = 0 ∧ framed_after bits (i + 1) ≠ 0 := by
  induction n with
  | zero => exact absurd rfl h
  | succ n ih =>
    by_cases hn : framed_after bits n = 0
    · exact ⟨n, by omega, hn, h⟩
    · obtain ⟨i, hi, h0, h1⟩ := ih hn
      exact ⟨i, by omega, h0, h1⟩

theorem framed_after_of_preambleAt (bits : List Int) (hbits : ∀ b ∈ bits, b = 0 ∨ b = 1)
    (i : Nat) (h : preambleAt bits i) : framed_after bits (i + 1) ≠ 0 := by
  obtain ⟨-, pre, hp⟩ := (preambleAt_iff bits i).1 h
  have hpre : ∀ b ∈ pre, b = 0 ∨ b = 1 := by
    intro b hb
    apply hbits b
    apply List.mem_of_mem_take (n := i + 1)
    rw [hp]
    simp [hb]
  unfold framed_after
  rw [hp]
  exact framed_of_preamble pre hpre

theorem feed_zeros (k z : Nat) (hz : z ≤ 8) :
    feed (List.replicate k 0) (searching z 0) = searching (min (z + k) 8) 0 := by
  induction k generalizing z with
  | zero => simp [feed_nil, hz]
  | succ k ih =>
    rw [List.replicate_succ, feed_cons]
    rcases Nat.lt_or_ge z 8 with h | h
    · rw [searching_zero_lt z h, ih (z + 1) (by omega)]
      congr 1
      omega
    · obtain rfl : z = 8 := by omega
      rw [searching_zero_full, ih 8 (le_refl _)]
      congr 1
      omega

/-- C3. Preamble detection is exact: for every sequence of bits passed to
`process_bit` from the initial state, `framed` goes from 0 to non-zero on bit
index `i` if and only if `i` is the least index whose sixteen last bits are
eight zeros followed by eight ones; a sequence without that pattern, and in
particular every all-zero sequence, never sets `framed`. -/
theorem preamble_detection_exact (bits : List Int) (hbits : ∀ b ∈ bits, b = 0 ∨ b = 1) :
    (∀ i, (framed_after bits i = 0 ∧ framed_after bits (i + 1) ≠ 0) ↔
        (preambleAt bits i ∧ ∀ k, k < i → ¬ preambleAt bits k)) ∧
      ((∀ i, ¬ preambleAt bits i) → ∀ n, framed_after bits n = 0) ∧
      (∀ n m, framed_after (List.replicate n 0) m = 0) := by
  have hfwd : ∀ i, framed_after bits i = 0 → framed_after bits (i + 1) ≠ 0 →
      preambleAt bits i := by
    intro i h0 h1
    obtain ⟨hi, -, hp⟩ := framing_call bits hbits i h0 h1
    exact (preambleAt_iff bits i).2 ⟨hi, hp⟩
  refine ⟨fun i => ⟨?_, ?_⟩, ?_, ?_⟩
  · rintro ⟨h0, h1⟩
    refine ⟨hfwd i h0 h1, fun k hk hpk => ?_⟩
    exact framed_after_mono bits (k + 1) i (by omega)
      (framed_after_of_preambleAt bits hbits k hpk) h0
  · rintro ⟨hp, hleast⟩
    refine ⟨?_, framed_after_of_preambleAt bits hbits i hp⟩
    by_contra hne
    obtain ⟨m, hm, h0, h1⟩ := first_framing bits i hne
    exact hleast m hm (hfwd m h0 h1)
  · intro hno n
    by_contra hne
    obtain ⟨m, -, h0, h1⟩ := first_framing bits n hne
    exact hno m (hfwd m h0 h1)
  · intro n m
    unfold framed_after
    rw [List.take_replicate, init_eq_searching, feed_zeros _ 0 (by omega)]
    rfl

theorem preamble_detection_exact_witness :
    (∀ b ∈ [0, 0, 0, 0, 0, 0, 0, 0, 1, 1, 1, 1, 1, 1, 1, 1, (0 : Int)], b = 0 ∨ b = 1) ∧
    (∀ i, (framed_after [0, 0, 0, 0, 0, 0, 0, 0, 1, 1, 1, 1, 1, 1, 1, 1, 0] i = 0 ∧
          framed_after [0, 0, 0, 0, 0, 0, 0, 0, 1, 1, 1, 1, 1, 1, 1, 1, 0] (i + 1) ≠ 0) ↔
        (preambleAt [0, 0, 0, 0, 0, 0, 0, 0, 1, 1, 1, 1, 1, 1, 1, 1, 0] i ∧
          ∀ k, k < i → ¬ preambleAt [0, 0, 0, 0, 0, 0, 0, 0, 1, 1, 1, 1, 1, 1, 1, 1, 0] k)) ∧
      ((∀ i, ¬ preambleAt [0, 0, 0, 0, 0, 0, 0, 0, 1, 1, 1, 1, 1, 1, 1, 1, 0] i) →
        ∀ n, framed_after [0, 0, 0, 0, 0, 0, 0, 0, 1, 1, 1, 1, 1, 1, 1, 1, 0] n = 0) ∧
      (∀ n m, framed_after (List.replicate n 0) m = 0) :=
  ⟨by decide,
    preamble_detection_exact [0, 0, 0, 0, 0, 0, 0, 0, 1, 1, 1, 1, 1, 1, 1, 1, 0] (by decide)⟩

theorem feed_ones_short (m z : Nat) (hz : z < 8) :
    feed (List.replicate (m + 1) 1) (searching z 0) = searching 0 0 := by
  induction m generalizing z with
  | zero => exact searching_one_lt z hz
  | succ m ih =>
    rw [List.replicate_succ, feed_cons, searching_one_lt z hz]
    exact ih 0 (by omega)

theorem feed_eight_ones : feed (List.replicate 8 1) (searching 8 0) = locked := by
  decide

theorem feed_seven_ones_zero :
    feed (List.replicate 7 1 ++ [0]) (searching 8 0) = searching 1 0 := by
  decide

theorem feed_zeros_init (k : Nat) (hk : 8 ≤ k) :
    feed (List.replicate k 0) BitState.init = searching 8 0 := by
  rw [init_eq_searching, feed_zeros k 0 (by omega)]
  congr 1
  omega

/-- C4, as stated, fails: after eight zeros, seven ones and a zero, eight ones
that follow immediately leave `framed` at 0. -/
theorem false_start_counterexample :
    (feed (List.replicate 8 0 ++ List.replicate 7 1 ++ [0]) BitState.init).framed = 0 ∧
      (feed (List.replicate 8 0 ++ List.replicate 7 1 ++ [0] ++ List.replicate 8 1)
        BitState.init).framed = 0 := by
  decide

/-- C4, amended. For every `k >= 8`, after the bits `0^k 1^7 0` the framer
has not declared framing; any number of ones following immediately still does
not frame (the zero that broke the run restarts the count of zeros at one);
framing is declared once at least seven more zeros and then eight or more
ones follow. -/
theorem false_start_recovery (k : Nat) (hk : 8 ≤ k) :
    (feed (List.replicate k 0 ++ List.replicate 7 1 ++ [0]) BitState.init).framed = 0 ∧
      (∀ m, (feed (List.replicate k 0 ++ List.replicate 7 1 ++ [0] ++ List.replicate m 1)
        BitState.init).framed = 0) ∧
      (∀ j m, 7 ≤ j → 8 ≤ m →
        (feed (List.replicate k 0 ++ List.replicate 7 1 ++ [0] ++ List.replicate j 0 ++
          List.replicate m 1) BitState.init).framed ≠ 0) := by
  have h1 : feed (List.replicate k 0 ++ List.replicate 7 1 ++ [0]) BitState.init =
      searching 1 0 := by
    rw [List.append_assoc, feed_append, feed_zeros_init k hk, feed_seven_ones_zero]
  refine ⟨by rw [h1]; rfl, ?_, ?_⟩
  · intro m
    rw [feed_append, h1]
    cases m with
    | zero => rfl
    | succ m => rw [feed_ones_short m 1 (by omega)]; rfl
  · intro j m hj hm
    obtain ⟨d, rfl⟩ : ∃ d, m = 8 + d := ⟨m - 8, by omega⟩
    rw [feed_append, feed_append, h1, feed_zeros j 1 (by omega)]
    have h8 : min (1 + j) 8 = 8 := by omega
    rw [h8, List.replicate_add, feed_append, feed_eight_ones,
      feed_framed _ _ (by decide)]
    decide

theorem false_start_recovery_witness :
    8 ≤ 9 ∧
    (feed (List.replicate 9 0 ++ List.replicate 7 1 ++ [0]) BitState.init).framed = 0 ∧
      (∀ m, (feed (List.replicate 9 0 ++ List.replicate 7 1 ++ [0] ++ List.replicate m 1)
        BitState.init).framed = 0) ∧
      (∀ j m, 7 ≤ j → 8 ≤ m →
        (feed (List.replicate 9 0 ++ List.replicate 7 1 ++ [0] ++ List.replicate j 0 ++
          List.replicate m 1) BitState.init).framed ≠ 0) :=
  ⟨by decide, false_start_recovery 9 (by decide)⟩

theorem feed_eight (s : BitState) (hf : s.framed ≠ 0) (hc : s.count = 0) (hv : s.val = 0)
    (b0 b1 b2 b3 b4 b5 b6 b7 : Int) :
    feed [b0, b1, b2, b3, b4, b5, b6, b7] s =
      { s with out := s.out ++ [charByte (shift_in [b0, b1, b2, b3, b4, b5, b6, b7])] } := by
  obtain ⟨f, v, c, z, o, out⟩ := s
  simp only at hf hc hv
  subst hc hv
  simp [feed, process_bit, hf, shift_in]

theorem feed_short (l : List Int) (s : BitState) (hf : s.framed ≠ 0) (hc : 0 ≤ s.count)
    (hl : s.count + l.length < 8) : (feed l s).out = s.out := by
  induction l generalizing s with
  | nil => rfl
  | cons b l ih =>
    rw [feed_cons]
    simp only [List.length_cons, Nat.cast_add, Nat.cast_one] at hl
    have hne : ¬ (s.count + 1 = 8) := by omega
    have hstep : process_bit b s =
        { s with count := s.count + 1, val := toChar (toChar (s.val * 2) + b) } := by
      simp [process_bit, hf, hne]
    rw [hstep]
    exact ih _ hf (show (0 : Int) ≤ s.count + 1 by omega)
      (show s.count + 1 + (l.length : Int) < 8 by omega)

theorem charByte_shift_in (b0 b1 b2 b3 b4 b5 b6 b7 : Int)
    (h0 : b0 = 0 ∨ b0 = 1) (h1 : b1 = 0 ∨ b1 = 1) (h2 : b2 = 0 ∨ b2 = 1) (h3 : b3 = 0 ∨ b3 = 1)
    (h4 : b4 = 0 ∨ b4 = 1) (h5 : b5 = 0 ∨ b5 = 1) (h6 : b6 = 0 ∨ b6 = 1) (h7 : b7 = 0 ∨ b7 = 1) :
    charByte (shift_in [b0, b1, b2, b3, b4, b5, b6, b7]) =
      (b0 * 2 ^ 7 + b1 * 2 ^ 6 + b2 * 2 ^ 5 + b3 * 2 ^ 4 + b4 * 2 ^ 3 + b5 * 2 ^ 2 + b6 * 2 ^ 1
        + b7 * 2 ^ 0).toNat := by
  rcases h0 with rfl | rfl <;> rcases h1 with rfl | rfl <;> rcases h2 with rfl | rfl <;>
    rcases h3 with rfl | rfl <;> rcases h4 with rfl | rfl <;> rcases h5 with rfl | rfl <;>
    rcases h6 with rfl | rfl <;> rcases h7 with rfl | rfl <;> decide


theorem packGroups_short (t : List Int)
    (h : ∀ (b0 b1 b2 b3 b4 b5 b6 b7 : Int) (rest : List Int),
      t = b0 :: b1 :: b2 :: b3 :: b4 :: b5 :: b6 :: b7 :: rest → False) :
    packGroups t = [] ∧ t.length < 8 := by
  rcases t with _ | ⟨b0, _ | ⟨b1, _ | ⟨b2, _ | ⟨b3, _ | ⟨b4, _ | ⟨b5, _ | ⟨b6, _ | ⟨b7, r⟩⟩⟩⟩⟩⟩⟩⟩
  case cons.cons.cons.cons.cons.cons.cons.cons => exact absurd rfl (h _ _ _ _ _ _ _ _ _)
  all_goals exact ⟨rfl, by simp⟩

/-- In the framed state, from a byte boundary, the bytes written are the
groups of eight bits, most significant bit first. -/
theorem feed_groups (l : List Int) (hl : ∀ b ∈ l, b = 0 ∨ b = 1) (s : BitState)
    (hf : s.framed ≠ 0) (hc : s.count = 0) (hv : s.val = 0) :
    (feed l s).out = s.out ++ packGroups l := by
  induction l using packGroups.induct generalizing s with
  | case1 b0 b1 b2 b3 b4 b5 b6 b7 rest ih =>
    have hsplit : feed (b0 :: b1 :: b2 :: b3 :: b4 :: b5 :: b6 :: b7 :: rest) s =
        feed rest (feed [b0, b1, b2, b3, b4, b5, b6, b7] s) := rfl
    rw [hsplit, feed_eight s hf hc hv,
      ih (fun b hb => hl b (by simp [hb]))
        { s with out := s.out ++ [charByte (shift_in [b0, b1, b2, b3, b4, b5, b6, b7])] }
        hf hc hv,
      charByte_shift_in b0 b1 b2 b3 b4 b5 b6 b7 (hl _ (by simp)) (hl _ (by simp))
        (hl _ (by simp)) (hl _ (by simp)) (hl _ (by simp)) (hl _ (by simp)) (hl _ (by simp))
        (hl _ (by simp))]
    simp [packGroups]
  | case2 t ht =>
    obtain ⟨hp, hlen⟩ := packGroups_short t ht
    rw [hp, List.append_nil]
    exact feed_short t s hf (by omega) (by omega)

/-- C5. Deframer packing: for every bit sequence passed to `process_bit`
from the initial state, the bytes written are exactly the bits that come
strictly after the bit that completed framing (index `i`), in consecutive
groups of eight, each group `b0 .. b7` written as the byte
`sum b_i * 2^(7-i)`; a trailing group of fewer than eight bits writes nothing,
and nothing is written while `framed` is still 0. -/
theorem deframer_packing (bits : List Int) (hbits : ∀ b ∈ bits, b = 0 ∨ b = 1) :
    (∀ i, framed_after bits i = 0 → framed_after bits (i + 1) ≠ 0 →
        (feed bits BitState.init).out = packGroups (bits.drop (i + 1))) ∧
      (∀ n, framed_after bits n = 0 → (feed (bits.take n) BitState.init).out = []) := by
  constructor
  · intro i h0 h1
    obtain ⟨-, hlock, -⟩ := framing_call bits hbits i h0 h1
    have hsplit : feed bits BitState.init =
        feed (bits.drop (i + 1)) (feed (bits.take (i + 1)) BitState.init) := by
      rw [← feed_append, List.take_append_drop]
    rw [hsplit, hlock,
      feed_groups _ (fun b hb => hbits b (List.mem_of_mem_drop hb)) locked (by decide) rfl rfl]
    rfl
  · intro n h0
    rcases search_or_framed (bits.take n) (fun b hb => hbits b (List.mem_of_mem_take hb)) with
      hs | hf
    · exact hs.out_eq
    · exact absurd h0 hf

theorem deframer_packing_witness :
    (∀ b ∈ [0, 0, 0, 0, 0, 0, 0, 0, 1, 1, 1, 1, 1, 1, 1, 1, 1, 0, 1, 0, 0, 1, 0, 1, 1, (1 : Int)],
        b = 0 ∨ b = 1) ∧
      (feed [0, 0, 0, 0, 0, 0, 0, 0, 1, 1, 1, 1, 1, 1, 1, 1, 1, 0, 1, 0, 0, 1, 0, 1, 1, 1]
        BitState.init).out = [165] :=
  ⟨by decide,
    (deframer_packing [0, 0, 0, 0, 0, 0, 0, 0, 1, 1, 1, 1, 1, 1, 1, 1, 1, 0, 1, 0, 0, 1, 0, 1, 1, 1]
      (by decide)).1 15 (by decide) (by decide)⟩

set_option maxRecDepth 100000 in
theorem byte_bits_pack_fin :
    ∀ b : Fin 256, charByte (shift_in (byte_bits (toChar (b.val : Int)))) = b.val := by
  decide

theorem feed_byte (b : Nat) (hb : b < 256) (s : BitState) (hf : s.framed ≠ 0)
    (hc : s.count = 0) (hv : s.val = 0) :
    feed (byte_bits (toChar (b : Int))) s = { s with out := s.out ++ [b] } := by
  have h := byte_bits_pack_fin ⟨b, hb⟩
  unfold byte_bits at h ⊢
  simp only [List.map] at h ⊢
  rw [feed_eight s hf hc hv, h]

theorem feed_payload (data : List Nat) (hdata : ∀ b ∈ data, b < 256) (s : BitState)
    (hf : s.framed ≠ 0) (hc : s.count = 0) (hv : s.val = 0) :
    feed (payload_bits data) s = { s with out := s.out ++ data } := by
  induction data generalizing s with
  | nil => simp [payload_bits, feed_nil]
  | cons b data ih =>
    have hsplit : payload_bits (b :: data) = byte_bits (toChar (b : Int)) ++ payload_bits data := by
      simp [payload_bits]
    rw [hsplit, feed_append, feed_byte b (hdata b (by simp)) s hf hc hv,
      ih (fun c hc => hdata c (by simp [hc])) { s with out := s.out ++ [b] } hf hc hv]
    simp

/-- C2. Bit-level round trip: for every byte sequence `data` (bytes `0..255`,
those from 128 on being negative once read into a `char`) and every `k >= 8`,
passing to `process_bit`, from its initial state, `k` zero bits, eight one
bits and then the bits of `data` in the order `press_play` visits them
(`get_nth_bit` for `n = 7` down to 0 of each byte, bytes in input order)
writes exactly the bytes of `data`, in order, and nothing else. -/
theorem bit_round_trip (data : List Nat) (hdata : ∀ b ∈ data, b < 256) (k : Nat) (hk : 8 ≤ k) :
    (feed (List.replicate k 0 ++ List.replicate 8 1 ++ payload_bits data) BitState.init).out =
      data := by
  rw [feed_append, feed_append, feed_zeros_init k hk, feed_eight_ones,
    feed_payload data hdata locked (by decide) rfl rfl]
  rfl

theorem bit_round_trip_witness :
    (∀ b ∈ [0, 128, 255, 1, 90], b < 256) ∧ 8 ≤ 11 ∧
      (feed (List.replicate 11 0 ++ List.replicate 8 1 ++ payload_bits [0, 128, 255, 1, 90])
        BitState.init).out = [0, 128, 255, 1, 90] :=
  ⟨by decide, by decide, bit_round_trip [0, 128, 255, 1, 90] (by decide) 11 (by decide)⟩

/-! ## Properties of the modulator -/

theorem lnot_ne_zero (x : Int) : decide (lnot x ≠ 0) = !decide (x ≠ 0) := by
  unfold lnot
  by_cases h : x = 0 <;> simp [h]

/-- The inner loop body writes the slice for the visited bit and the current
polarity, and toggles `is_pos` exactly on a zero bit. -/
theorem play_bit_eq (cur_byte : Int) (s : PlayState) (n : Nat) :
    (play_bit cur_byte s n).writes = s.writes ++
        [symbol_slice (if get_nth_bit cur_byte n ≠ 0 then 1 else 0) (decide (s.is_pos ≠ 0))] ∧
      decide ((play_bit cur_byte s n).is_pos ≠ 0) =
        (if get_nth_bit cur_byte n ≠ 0 then decide (s.is_pos ≠ 0) else !decide (s.is_pos ≠ 0)) := by
  unfold play_bit symbol_slice
  by_cases hb : get_nth_bit cur_byte n = 0 <;> by_cases hp : s.is_pos = 0 <;>
    simp [hb, hp, lnot] <;> decide

theorem play_bits_fold (cur_byte : Int) (ns : List Nat) (s : PlayState) :
    (ns.foldl (play_bit cur_byte) s).writes = s.writes ++
        encode_bits (decide (s.is_pos ≠ 0))
          (ns.map fun n => if get_nth_bit cur_byte n ≠ 0 then 1 else 0) ∧
      decide ((ns.foldl (play_bit cur_byte) s).is_pos ≠ 0) =
        polarity_after (decide (s.is_pos ≠ 0))
          (ns.map fun n => if get_nth_bit cur_byte n ≠ 0 then 1 else 0) := by
  induction ns generalizing s with
  | nil => simp [encode_bits, polarity_after]
  | cons n ns ih =>
    obtain ⟨hw, hp⟩ := play_bit_eq cur_byte s n
    obtain ⟨ihw, ihp⟩ := ih (play_bit cur_byte s n)
    simp only [List.foldl_cons, List.map_cons, encode_bits, polarity_after]
    rw [ihw, ihp, hw, hp]
    by_cases hb : get_nth_bit cur_byte n = 0 <;> simp [hb, polarity_after]

theorem play_byte_eq (s : PlayState) (cur_byte : Int) :
    (play_byte s cur_byte).writes = s.writes ++
        encode_bits (decide (s.is_pos ≠ 0)) (byte_bits cur_byte) ∧
      decide ((play_byte s cur_byte).is_pos ≠ 0) =
        polarity_after (decide (s.is_pos ≠ 0)) (byte_bits cur_byte) :=
  play_bits_fold cur_byte [7, 6, 5, 4, 3, 2, 1, 0] s

theorem polarity_after_append (p : Bool) (a b : List Int) :
    polarity_after p (a ++ b) = polarity_after (polarity_after p a) b := by
  simp [polarity_after, List.foldl_append]

theorem encode_bits_append (p : Bool) (a b : List Int) :
    encode_bits p (a ++ b) = encode_bits p a ++ encode_bits (polarity_after p a) b := by
  induction a generalizing p with
  | nil => rfl
  | cons x a ih =>
    have hp : polarity_after p (x :: a) = polarity_after (if x = 0 then !p else p) a := rfl
    rw [List.cons_append, encode_bits, encode_bits, ih, hp]
    rfl

theorem play_data_eq (s : PlayState) (data : List Nat) :
    (play_data s data).writes = s.writes ++
        encode_bits (decide (s.is_pos ≠ 0)) (payload_bits data) ∧
      decide ((play_data s data).is_pos ≠ 0) =
        polarity_after (decide (s.is_pos ≠ 0)) (payload_bits data) := by
  induction data generalizing s with
  | nil => simp [play_data, payload_bits, encode_bits, polarity_after]
  | cons b data ih =>
    have hsplit : payload_bits (b :: data) = byte_bits (toChar (b : Int)) ++ payload_bits data := by
      simp [payload_bits]
    have hstep : play_data s (b :: data) = play_data (play_byte s (toChar (b : Int))) data := rfl
    obtain ⟨hw, hp⟩ := play_byte_eq s (toChar (b : Int))
    obtain ⟨ihw, ihp⟩ := ih (play_byte s (toChar (b : Int)))
    rw [hstep, hsplit, ihw, ihp, hw, hp, encode_bits_append, polarity_after_append]
    simp

theorem play_pad_eq (s : PlayState) :
    (play_pad s).writes = s.writes ++ [symbol_slice 0 (decide (s.is_pos ≠ 0))] := by
  unfold play_pad symbol_slice
  by_cases hp : s.is_pos = 0 <;> simp [hp] <;> decide

/-- The calls made by `press_play`: the lead, the per-bit encoding of the
payload bits from positive polarity, and the pad for the polarity left. -/
theorem press_play_eq (data : List Nat) :
    press_play data = play_lead ++ encode_bits true (payload_bits data) ++
      [symbol_slice 0 (polarity_after true (payload_bits data))] := by
  unfold press_play
  rw [play_pad_eq]
  obtain ⟨hw, hp⟩ := play_data_eq { is_pos := 1, writes := play_lead } data
  rw [hw, hp]
  simp

set_option maxRecDepth 100000 in
theorem get_nth_bit_testBit_fin :
    ∀ b : Fin 256, ∀ n : Fin 8,
      (get_nth_bit (toChar (b.val : Int)) n.val ≠ 0 ↔ b.val.testBit n.val = true) := by
  decide

theorem symbol_bit_slice (b : Int) (p : Bool) :
    symbol_bit (symbol_slice b p) = if b ≠ 0 then 1 else 0 := by
  unfold symbol_bit symbol_slice
  by_cases hb : b = 0 <;> cases p <;> simp [hb]

theorem encode_bits_symbol_bit (p : Bool) (bits : List Int) :
    (encode_bits p bits).map symbol_bit = bits.map fun b => if b ≠ 0 then 1 else 0 := by
  induction bits generalizing p with
  | nil => rfl
  | cons b bits ih => simp only [encode_bits, List.map_cons, ih, symbol_bit_slice]

theorem encode_bits_length (p : Bool) (bits : List Int) :
    (encode_bits p bits).length = bits.length := by
  induction bits generalizing p with
  | nil => rfl
  | cons b bits ih => simp only [encode_bits, List.length_cons, ih]

/-- C6. Modulator bit order: for every byte value `b` in `0..255`, read into
the `char` `cur_byte`, the eight symbols `play_byte` appends are bits
7, 6, ..., 0 of `b` in that order, a symbol being a slice of `one_audio`
exactly when `get_nth_bit(cur_byte, n)` is non-zero, which holds exactly when
bit `n` of `b` is set. -/
theorem modulator_bit_order (b : Nat) (hb : b < 256) (s : PlayState) :
    (play_byte s (toChar (b : Int))).writes.take s.writes.length = s.writes ∧
      ((play_byte s (toChar (b : Int))).writes.drop s.writes.length).map symbol_bit =
        [7, 6, 5, 4, 3, 2, 1, 0].map (fun n => if b.testBit n = true then 1 else 0) ∧
      (∀ n, n < 8 → (get_nth_bit (toChar (b : Int)) n ≠ 0 ↔ b.testBit n = true)) := by
  have hbit : ∀ n, n < 8 → (get_nth_bit (toChar (b : Int)) n ≠ 0 ↔ b.testBit n = true) :=
    fun n hn => get_nth_bit_testBit_fin ⟨b, hb⟩ ⟨n, hn⟩
  obtain ⟨hw, -⟩ := play_byte_eq s (toChar (b : Int))
  refine ⟨by rw [hw, List.take_left], ?_, hbit⟩
  rw [hw, List.drop_left, encode_bits_symbol_bit]
  unfold byte_bits
  rw [List.map_map]
  apply List.map_congr_left
  intro n hn
  have hn8 : n < 8 := by
    simp only [List.mem_cons, List.mem_singleton, List.not_mem_nil, or_false] at hn
    omega
  have h := hbit n hn8
  by_cases c : b.testBit n = true
  · simp [c, h.2 c]
  · have hz : get_nth_bit (toChar (b : Int)) n = 0 := by
      by_contra hne
      exact c (h.1 hne)
    simp [c, hz]

theorem modulator_bit_order_witness :
    128 < 256 ∧ 1 < 256 ∧
      ((play_byte { is_pos := 1, writes := [] } (toChar 128)).writes.drop 0).map symbol_bit =
        [1, 0, 0, 0, 0, 0, 0, 0] ∧
      ((play_byte { is_pos := 1, writes := [] } (toChar 1)).writes.drop 0).map symbol_bit =
        [0, 0, 0, 0, 0, 0, 0, 1] :=
  ⟨by decide, by decide, (modulator_bit_order 128 (by decide) { is_pos := 1, writes := [] }).2.1,
    (modulator_bit_order 1 (by decide) { is_pos := 1, writes := [] }).2.1⟩

theorem write_samples_length {α : Type} (z o : Nat → α) (w : Write) :
    (write_samples z o w).length = w.count := by
  simp [write_samples]

theorem samples_length {α : Type} (z o : Nat → α) (ws : List Write) :
    (ws.flatMap (write_samples z o)).length = (ws.map Write.count).sum := by
  induction ws with
  | nil => rfl
  | cons w ws ih => simp [List.flatMap_cons, write_samples_length, ih]

theorem symbol_slice_count (b : Int) (p : Bool) :
    (symbol_slice b p).count = DEFAULT_SYMBOL_LENGTH := by
  unfold symbol_slice
  by_cases hb : b = 0 <;> cases p <;> simp [hb] <;> decide

theorem encode_bits_count (p : Bool) (bits : List Int) :
    ((encode_bits p bits).map Write.count).sum = bits.length * DEFAULT_SYMBOL_LENGTH := by
  induction bits generalizing p with
  | nil => simp [encode_bits]
  | cons b bits ih =>
    simp only [encode_bits, List.map_cons, List.sum_cons, ih, symbol_slice_count,
      List.length_cons]
    ring

theorem byte_bits_length (c : Int) : (byte_bits c).length = 8 := rfl

theorem payload_bits_length (data : List Nat) : (payload_bits data).length = 8 * data.length := by
  induction data with
  | nil => rfl
  | cons b data ih =>
    have hsplit : payload_bits (b :: data) = byte_bits (toChar (b : Int)) ++ payload_bits data := by
      simp [payload_bits]
    rw [hsplit, List.length_append, ih, byte_bits_length, List.length_cons]
    ring

theorem play_lead_count :
    (play_lead.map Write.count).sum =
      DEFAULT_SAMPLE_RATE * 5 / DEFAULT_WAVELENGTH * DEFAULT_WAVELENGTH +
        8 * DEFAULT_SYMBOL_LENGTH := by
  simp [play_lead, List.map_replicate, List.sum_replicate]
  decide

theorem mem_encode_bits (p : Bool) (bits : List Int) (w : Write)
    (hw : w ∈ encode_bits p bits) : ∃ b q, w = symbol_slice b q := by
  induction bits generalizing p with
  | nil => simp [encode_bits] at hw
  | cons b bits ih =>
    simp only [encode_bits, List.mem_cons] at hw
    rcases hw with rfl | hw
    · exact ⟨b, p, rfl⟩
    · exact ih _ hw

theorem mem_payload_writes (data : List Nat) (w : Write)
    (hw : w ∈ (press_play data).drop play_lead.length) : ∃ b q, w = symbol_slice b q := by
  rw [press_play_eq, List.append_assoc, List.drop_left, List.mem_append] at hw
  rcases hw with hw | hw
  · exact mem_encode_bits _ _ w hw
  · exact ⟨0, _, List.mem_singleton.1 hw⟩

/-- C7. Modulated length: `W = 32` and `M = 16`, and for every payload of `n`
bytes `press_play` writes `floor(5*S/W)*W + 8*M + 8*n*M + M` samples, that is
`220480 + 128 + 128*n + 16`; every symbol written after the lead has exactly
`M` samples; for the single byte `0x00` the length is that of the lead plus
`8*M + M`. -/
theorem modulated_length {α : Type} (zero_audio one_audio : Nat → α) (data : List Nat) :
    DEFAULT_WAVELENGTH = 32 ∧ DEFAULT_SYMBOL_LENGTH = 16 ∧
      (press_play_samples zero_audio one_audio data).length =
        DEFAULT_SAMPLE_RATE * 5 / DEFAULT_WAVELENGTH * DEFAULT_WAVELENGTH +
          8 * DEFAULT_SYMBOL_LENGTH + 8 * data.length * DEFAULT_SYMBOL_LENGTH +
          DEFAULT_SYMBOL_LENGTH ∧
      (press_play_samples zero_audio one_audio data).length =
        220480 + 128 + 128 * data.length + 16 ∧
      (∀ w ∈ (press_play data).drop play_lead.length, w.count = DEFAULT_SYMBOL_LENGTH) ∧
      (press_play_samples zero_audio one_audio [0]).length =
        (play_lead.flatMap (write_samples zero_audio one_audio)).length +
          8 * DEFAULT_SYMBOL_LENGTH + DEFAULT_SYMBOL_LENGTH := by
  have hlen0 : ∀ d : List Nat, (press_play_samples zero_audio one_audio d).length =
      DEFAULT_SAMPLE_RATE * 5 / DEFAULT_WAVELENGTH * DEFAULT_WAVELENGTH +
          8 * DEFAULT_SYMBOL_LENGTH + 8 * d.length * DEFAULT_SYMBOL_LENGTH +
          DEFAULT_SYMBOL_LENGTH := by
    intro d
    unfold press_play_samples
    rw [samples_length, press_play_eq, List.map_append, List.map_append, List.sum_append,
      List.sum_append, play_lead_count, encode_bits_count, payload_bits_length]
    simp [symbol_slice_count]
  have hlen := hlen0 data
  refine ⟨by decide, by decide, hlen, ?_, ?_, ?_⟩
  · rw [hlen]
    have h1 : DEFAULT_SAMPLE_RATE * 5 / DEFAULT_WAVELENGTH * DEFAULT_WAVELENGTH = 220480 := by
      decide
    have h2 : DEFAULT_SYMBOL_LENGTH = 16 := by decide
    rw [h1, h2]
    omega
  · intro w hw
    obtain ⟨b, q, rfl⟩ := mem_payload_writes data w hw
    exact symbol_slice_count b q
  · rw [hlen0 [0], samples_length, play_lead_count]
    simp


theorem symbol_slice_bound (b : Int) (q : Bool) :
    (symbol_slice b q).start + (symbol_slice b q).count ≤ DEFAULT_WAVELENGTH := by
  unfold symbol_slice
  by_cases hb : b = 0 <;> cases q <;> simp [hb] <;> decide

/-- C8. Symbol slices: for every payload bit and polarity the inner loop of
`press_play` writes exactly the slice `symbol_slice` gives for them (so does
the pad, for bit 0), and every index `start + c` read by any call of
`press_play` lies inside the table of `W` samples. -/
theorem symbol_slices (cur_byte : Int) (n : Nat) (s : PlayState) :
    (play_bit cur_byte s n).writes = s.writes ++
        [symbol_slice (if get_nth_bit cur_byte n ≠ 0 then 1 else 0) (decide (s.is_pos ≠ 0))] ∧
      (play_pad s).writes = s.writes ++ [symbol_slice 0 (decide (s.is_pos ≠ 0))] ∧
      (∀ data w, w ∈ press_play data → ∀ c, c < w.count → w.start + c < DEFAULT_WAVELENGTH) := by
  refine ⟨(play_bit_eq cur_byte s n).1, play_pad_eq s, ?_⟩
  intro data w hw c hc
  rw [press_play_eq, List.append_assoc, List.mem_append] at hw
  rcases hw with hw | hw
  · unfold play_lead at hw
    rw [List.mem_append] at hw
    rcases hw with hw | hw
    · obtain rfl := (List.mem_replicate.1 hw).2
      simp only at hc ⊢
      omega
    · obtain rfl := (List.mem_replicate.1 hw).2
      have h16 : DEFAULT_WAVELENGTH / 2 ≤ DEFAULT_WAVELENGTH := by decide
      simp only at hc ⊢
      omega
  · have hs : ∃ b q, w = symbol_slice b q := by
      rw [List.mem_append] at hw
      rcases hw with hw | hw
      · exact mem_encode_bits _ _ w hw
      · exact ⟨0, _, List.mem_singleton.1 hw⟩
    obtain ⟨b, q, rfl⟩ := hs
    have := symbol_slice_bound b q
    omega

theorem polarity_after_count (p : Bool) (bits : List Int) :
    polarity_after p bits = if bits.count 0 % 2 = 0 then p else !p := by
  induction bits generalizing p with
  | nil => simp [polarity_after]
  | cons b bits ih =>
    have hp : polarity_after p (b :: bits) = polarity_after (if b = 0 then !p else p) bits := rfl
    rw [hp, ih, List.count_cons]
    by_cases hb : b = 0
    · subst hb
      simp only [if_true, beq_self_eq_true]
      by_cases hc : List.count 0 bits % 2 = 0
      · have : ¬ ((List.count 0 bits + 1) % 2 = 0) := by omega
        simp [hc, this]
      · have : (List.count 0 bits + 1) % 2 = 0 := by omega
        simp [hc, this]
    · have hbeq : (b == 0) = false := by simpa using hb
      simp [hb, hbeq]

theorem encode_bits_range (p : Bool) (bits : List Int) :
    encode_bits p bits = (List.range bits.length).map fun j =>
      symbol_slice (bits.getD j 0) (polarity_after p (bits.take j)) := by
  induction bits generalizing p with
  | nil => rfl
  | cons b bits ih =>
    rw [encode_bits, ih, List.length_cons, List.range_succ_eq_map, List.map_cons, List.map_map]
    rfl

theorem play_bit_is_pos (cur_byte : Int) (s : PlayState) (n : Nat) :
    (get_nth_bit cur_byte n ≠ 0 → (play_bit cur_byte s n).is_pos = s.is_pos) ∧
      (get_nth_bit cur_byte n = 0 → (play_bit cur_byte s n).is_pos = lnot s.is_pos) := by
  unfold play_bit
  constructor
  · intro h
    by_cases hp : s.is_pos = 0 <;> simp [h, hp]
  · intro h
    by_cases hp : s.is_pos = 0 <;> simp [h, hp]

/-- C9. Modulator polarity: a 1 bit never changes `is_pos` and a 0 bit always
toggles it; the `j`-th payload symbol is the slice for its bit and for the
polarity that is positive iff the number of 0 bits among the first `j` payload
bits is even (positive before the first bit), and the pad is the 0-symbol
slice for the polarity left after the last payload bit. -/
theorem modulator_polarity (data : List Nat) :
    (∀ cur_byte s n,
        (get_nth_bit cur_byte n ≠ 0 → (play_bit cur_byte s n).is_pos = s.is_pos) ∧
        (get_nth_bit cur_byte n = 0 → (play_bit cur_byte s n).is_pos = lnot s.is_pos)) ∧
      press_play data =
        play_lead ++
          ((List.range (payload_bits data).length).map fun j =>
            symbol_slice ((payload_bits data).getD j 0)
              (decide (((payload_bits data).take j).count 0 % 2 = 0))) ++
          [symbol_slice 0 (decide ((payload_bits data).count 0 % 2 = 0))] ∧
      decide ((play_data { is_pos := 1, writes := play_lead } data).is_pos ≠ 0) =
        decide ((payload_bits data).count 0 % 2 = 0) := by
  refine ⟨play_bit_is_pos, ?_, ?_⟩
  · rw [press_play_eq, encode_bits_range, polarity_after_count]
    congr 2
    · apply List.map_congr_left
      intro j _
      rw [polarity_after_count]
      simp
  · rw [(play_data_eq _ data).2, polarity_after_count]
    simp

/-! ## Properties of the waveform tables -/

/-- With exact real cosine and sine, `zero_audio` is one cycle of a sine of
amplitude 1 over the wavelength. -/
theorem zero_audio_eq (j : Nat) :
    (make_output_audio (fun t : ℚ => Real.cos (2 * Real.pi * (t : ℝ)))
      (fun t : ℚ => Real.sin (2 * Real.pi * (t : ℝ))) DEFAULT_WAVELENGTH).1 j =
      Real.sin (2 * Real.pi * (j : ℝ) / 32) := by
  have hW : DEFAULT_WAVELENGTH = 32 := by decide
  rw [hW]
  simp only [make_output_audio, dft_c2r]
  simp [List.range_succ, hermitian, set_im]
  have h31 : 2 * Real.pi * (31 * (j : ℝ) / 32) =
      (j : ℝ) * (2 * Real.pi) - 2 * Real.pi * (j : ℝ) / 32 := by ring
  have h1 : 2 * Real.pi * ((j : ℝ) / 32) = 2 * Real.pi * (j : ℝ) / 32 := by ring
  rw [h31, h1, Real.sin_nat_mul_two_pi_sub]
  ring

/-- With exact real cosine and sine, `one_audio` is two cycles of a sine of
amplitude 1 over the wavelength. -/
theorem one_audio_eq (j : Nat) :
    (make_output_audio (fun t : ℚ => Real.cos (2 * Real.pi * (t : ℝ)))
      (fun t : ℚ => Real.sin (2 * Real.pi * (t : ℝ))) DEFAULT_WAVELENGTH).2 j =
      Real.sin (2 * Real.pi * (2 * (j : ℝ)) / 32) := by
  have hW : DEFAULT_WAVELENGTH = 32 := by decide
  rw [hW]
  simp only [make_output_audio, dft_c2r]
  simp [List.range_succ, hermitian, set_im]
  have h30 : 2 * Real.pi * (30 * (j : ℝ) / 32) =
      (j : ℝ) * (2 * Real.pi) - 2 * Real.pi * (2 * (j : ℝ)) / 32 := by ring
  have h2 : 2 * Real.pi * (2 * (j : ℝ) / 32) = 2 * Real.pi * (2 * (j : ℝ)) / 32 := by ring
  rw [h30, h2, Real.sin_nat_mul_two_pi_sub]
  ring

/-- C10, as stated, fails: sample 8 of `zero_audio`, which `press_play` writes
in its lead, is 1 and so lies outside `[-0.5, 0.5]`. -/
theorem waveform_peak_counterexample :
    (make_output_audio (fun t : ℚ => Real.cos (2 * Real.pi * (t : ℝ)))
        (fun t : ℚ => Real.sin (2 * Real.pi * (t : ℝ))) DEFAULT_WAVELENGTH).1 8 = 1 ∧
      (make_output_audio (fun t : ℚ => Real.cos (2 * Real.pi * (t : ℝ)))
        (fun t : ℚ => Real.sin (2 * Real.pi * (t : ℝ))) DEFAULT_WAVELENGTH).1 8 ∈
        press_play_samples
          (make_output_audio (fun t : ℚ => Real.cos (2 * Real.pi * (t : ℝ)))
            (fun t : ℚ => Real.sin (2 * Real.pi * (t : ℝ))) DEFAULT_WAVELENGTH).1
          (make_output_audio (fun t : ℚ => Real.cos (2 * Real.pi * (t : ℝ)))
            (fun t : ℚ => Real.sin (2 * Real.pi * (t : ℝ))) DEFAULT_WAVELENGTH).2 [] ∧
      ¬ ((make_output_audio (fun t : ℚ => Real.cos (2 * Real.pi * (t : ℝ)))
        (fun t : ℚ => Real.sin (2 * Real.pi * (t : ℝ))) DEFAULT_WAVELENGTH).1 8 ≤ 1 / 2) := by
  have h8 : (make_output_audio (fun t : ℚ => Real.cos (2 * Real.pi * (t : ℝ)))
        (fun t : ℚ => Real.sin (2 * Real.pi * (t : ℝ))) DEFAULT_WAVELENGTH).1 8 = 1 := by
    rw [zero_audio_eq]
    have : 2 * Real.pi * ((8 : ℕ) : ℝ) / 32 = Real.pi / 2 := by
      push_cast
      ring
    rw [this, Real.sin_pi_div_two]
  refine ⟨h8, ?_, by rw [h8]; norm_num⟩
  unfold press_play_samples
  rw [List.mem_flatMap]
  refine ⟨⟨Wave.zero_audio, 0, DEFAULT_WAVELENGTH⟩, ?_, ?_⟩
  · rw [press_play_eq]
    simp [play_lead]
    left
    decide
  · simp only [write_samples, List.mem_map, List.mem_range]
    exact ⟨8, by decide, by simp⟩

/-- C10, amended. Taking the inverse real transform in exact real arithmetic,
`make_output_audio` gives `zero_audio[j] = sin (2 pi j / W)`, one full cycle
of a sine with peak values 1 and -1 (reached at `j = 8` and `j = 24`), and
`one_audio[j] = sin (2 pi 2 j / W)`, two full cycles with peak values 1 and -1
(reached at `j = 4` and `j = 12`), for `W = 32`; so every sample `press_play`
emits lies in `[-1, 1]`. -/
theorem waveform_tables (j : Nat) :
    (make_output_audio (fun t : ℚ => Real.cos (2 * Real.pi * (t : ℝ)))
        (fun t : ℚ => Real.sin (2 * Real.pi * (t : ℝ))) DEFAULT_WAVELENGTH).1 j =
        Real.sin (2 * Real.pi * (j : ℝ) / 32) ∧
      (make_output_audio (fun t : ℚ => Real.cos (2 * Real.pi * (t : ℝ)))
        (fun t : ℚ => Real.sin (2 * Real.pi * (t : ℝ))) DEFAULT_WAVELENGTH).2 j =
        Real.sin (2 * Real.pi * (2 * (j : ℝ)) / 32) ∧
      (∀ data x,
        x ∈ press_play_samples
          (make_output_audio (fun t : ℚ => Real.cos (2 * Real.pi * (t : ℝ)))
            (fun t : ℚ => Real.sin (2 * Real.pi * (t : ℝ))) DEFAULT_WAVELENGTH).1
          (make_output_audio (fun t : ℚ => Real.cos (2 * Real.pi * (t : ℝ)))
            (fun t : ℚ => Real.sin (2 * Real.pi * (t : ℝ))) DEFAULT_WAVELENGTH).2 data →
        -1 ≤ x ∧ x ≤ 1) ∧
      (make_output_audio (fun t : ℚ => Real.cos (2 * Real.pi * (t : ℝ)))
        (fun t : ℚ => Real.sin (2 * Real.pi * (t : ℝ))) DEFAULT_WAVELENGTH).1 8 = 1 ∧
      (make_output_audio (fun t : ℚ => Real.cos (2 * Real.pi * (t : ℝ)))
        (fun t : ℚ => Real.sin (2 * Real.pi * (t : ℝ))) DEFAULT_WAVELENGTH).1 24 = -1 ∧
      (make_output_audio (fun t : ℚ => Real.cos (2 * Real.pi * (t : ℝ)))
        (fun t : ℚ => Real.sin (2 * Real.pi * (t : ℝ))) DEFAULT_WAVELENGTH).2 4 = 1 ∧
      (make_output_audio (fun t : ℚ => Real.cos (2 * Real.pi * (t : ℝ)))
        (fun t : ℚ => Real.sin (2 * Real.pi * (t : ℝ))) DEFAULT_WAVELENGTH).2 12 = -1 := by
  have h8 : 2 * Real.pi * ((8 : ℕ) : ℝ) / 32 = Real.pi / 2 := by
    push_cast
    ring
  have h24 : 2 * Real.pi * ((24 : ℕ) : ℝ) / 32 = Real.pi / 2 + Real.pi := by
    push_cast
    ring
  have h4 : 2 * Real.pi * (2 * ((4 : ℕ) : ℝ)) / 32 = Real.pi / 2 := by
    push_cast
    ring
  have h12 : 2 * Real.pi * (2 * ((12 : ℕ) : ℝ)) / 32 = Real.pi / 2 + Real.pi := by
    push_cast
    ring
  refine ⟨zero_audio_eq j, one_audio_eq j, ?_, ?_, ?_, ?_, ?_⟩
  rotate_left
  · rw [zero_audio_eq, h8, Real.sin_pi_div_two]
  · rw [zero_audio_eq, h24, Real.sin_add_pi, Real.sin_pi_div_two]
  · rw [one_audio_eq, h4, Real.sin_pi_div_two]
  · rw [one_audio_eq, h12, Real.sin_add_pi, Real.sin_pi_div_two]
  intro data x hx
  unfold press_play_samples at hx
  rw [List.mem_flatMap] at hx
  obtain ⟨w, -, hx⟩ := hx
  simp only [write_samples, List.mem_map, List.mem_range] at hx
  obtain ⟨c, -, rfl⟩ := hx
  rcases hw : w.wave with _ | _
  · simp only
    rw [zero_audio_eq]
    exact ⟨Real.neg_one_le_sin _, Real.sin_le_one _⟩
  · simp only
    rw [one_audio_eq]
    exact ⟨Real.neg_one_le_sin _, Real.sin_le_one _⟩

/-! ## Properties of the sliding audio buffer -/

theorem to_size_of_nat (a : Nat) (h : a < 18446744073709551616) : to_size (a : Int) = a := by
  unfold to_size
  omega

theorem store_lt {α : Type} (buf : Nat → Option α) (start : Nat) (data : List α) (i : Nat)
    (h : i < start) : store buf start data i = buf i := by
  unfold store
  rw [if_neg (by omega)]

theorem store_mem {α : Type} (buf : Nat → Option α) (start : Nat) (data : List α) (i : Nat)
    (h1 : start ≤ i) (h2 : i - start < data.length) :
    store buf start data i = data[i - start]? := by
  unfold store
  rw [if_pos h1, List.getElem?_eq_getElem h2]

theorem store_ge {α : Type} (buf : Nat → Option α) (start : Nat) (data : List α) (i : Nat)
    (h1 : start ≤ i) (h2 : data.length ≤ i - start) :
    store buf start data i = buf i := by
  unfold store
  rw [if_pos h1, List.getElem?_eq_none h2]

/-- A pass of the loop moves the buffer forward by half its size; it either
sets `audio_eof` or leaves `audio_eof` and `audio_buffer_length` as they were. -/
theorem refill_offset {σ α : Type} (read_samples : σ → Nat → ReadResult σ α)
    (x : AudioState α × σ) :
    (refill read_samples x).1.audio_buffer_offset = x.1.audio_buffer_offset + 2048 ∧
      ((refill read_samples x).1.audio_eof = 1 ∨
        ((refill read_samples x).1.audio_eof = x.1.audio_eof ∧
          (refill read_samples x).1.audio_buffer_length = x.1.audio_buffer_length)) := by
  have h2048 : AUDIO_BUFFER_SIZE / 2 = 2048 := by decide
  by_cases hs : x.1.audio_buffer_section = 1 <;>
    by_cases hc : (read_samples x.2 2048).count < 2048 <;>
    simp [refill, hs, hc, h2048]

/-- The loop of `audio_at_offset` ends because its condition fails, not
because the passes allowed to `refill_loop` run out. -/
theorem refill_loop_exit {σ α : Type} (read_samples : σ → Nat → ReadResult σ α)
    (offset length fuel : Nat) (x : AudioState α × σ)
    (h : x.1.audio_eof ≠ 0 ∨
      offset + length ≤ x.1.audio_buffer_offset + x.1.audio_buffer_length + 2048 * fuel) :
    (refill_loop read_samples offset length fuel x).1.audio_eof ≠ 0 ∨
      offset + length ≤ (refill_loop read_samples offset length fuel x).1.audio_buffer_offset +
        (refill_loop read_samples offset length fuel x).1.audio_buffer_length := by
  induction fuel generalizing x with
  | zero => simpa [refill_loop] using h
  | succ fuel ih =>
    unfold refill_loop
    split
    · rename_i hc
      apply ih
      obtain ⟨he, hlt⟩ := hc
      have h' : offset + length ≤
          x.1.audio_buffer_offset + x.1.audio_buffer_length + 2048 * (fuel + 1) := by
        rcases h with h | h
        · exact absurd he h
        · exact h
      obtain ⟨ho, he1 | ⟨he1, hl1⟩⟩ := refill_offset read_samples x
      · left
        rw [he1]
        decide
      · right
        rw [ho, hl1]
        omega
    · rename_i hc
      by_cases he : x.1.audio_eof = 0
      · right
        have := not_and.1 hc he
        omega
      · exact Or.inl he

theorem slot_zero (j : Nat) : slot 0 j = j := by simp [slot]

theorem slot_one_lt (j : Nat) (h : j < 2048) : slot 1 j = 2048 + j := by
  have h2048 : AUDIO_BUFFER_SIZE / 2 = 2048 := by decide
  simp [slot, h2048, h]

theorem slot_one_ge (j : Nat) (h : 2048 ≤ j) : slot 1 j = j - 2048 := by
  have h2048 : AUDIO_BUFFER_SIZE / 2 = 2048 := by decide
  have : ¬ j < 2048 := by omega
  simp [slot, h2048, this]

theorem bufinv_init {α : Type} (total : List α) :
    BufInv total (init_audio_buffer read_from_file total).1
      (init_audio_buffer read_from_file total).2 := by
  have hB : AUDIO_BUFFER_SIZE = 4096 := rfl
  have hlen : to_size (((total.take 4096).length : Nat) : Int) = min 4096 total.length := by
    rw [to_size_of_nat _ (by rw [List.length_take]; omega), List.length_take]
  simp only [BufInv, init_audio_buffer, read_from_file, hB, hlen]
  refine ⟨Or.inl trivial, by omega, by omega, ?_, ?_, ?_⟩
  · intro he
    have : min 4096 total.length = 4096 := by
      by_contra hne
      simp [hne] at he
    exact ⟨this, by simp⟩
  · intro he
    have : min 4096 total.length ≠ 4096 := by
      intro heq
      simp [heq] at he
    omega
  · intro j hj
    rw [slot_zero, store_mem _ _ _ _ (by omega) (by rw [List.length_take]; omega)]
    simp only [Nat.sub_zero, Nat.zero_add]
    rw [List.getElem?_take, if_pos (by omega)]


/-- One pass of the loop, written out. -/
theorem refill_eq {σ α : Type} (read_samples : σ → Nat → ReadResult σ α)
    (x : AudioState α × σ) :
    refill read_samples x =
      ({ audio_buffer := store x.1.audio_buffer
            (if x.1.audio_buffer_section = 1 then 2048 else 0) (read_samples x.2 2048).samples,
         audio_buffer_offset := x.1.audio_buffer_offset + 2048,
         audio_buffer_length :=
           if (read_samples x.2 2048).count < 2048 then
             to_size ((x.1.audio_buffer_length : Int) - (2048 - (read_samples x.2 2048).count))
           else x.1.audio_buffer_length,
         audio_buffer_section := if x.1.audio_buffer_section = 1 then 0 else 1,
         audio_eof := if (read_samples x.2 2048).count < 2048 then 1 else x.1.audio_eof },
        (read_samples x.2 2048).next) := by
  have h2048 : AUDIO_BUFFER_SIZE / 2 = 2048 := by decide
  by_cases hs : x.1.audio_buffer_section = 1 <;>
    by_cases hc : (read_samples x.2 2048).count < 2048 <;>
    simp [refill, hs, hc, h2048]

theorem getElem?_idx {α : Type} (l : List α) {a b : Nat} (h : a = b) : l[a]? = l[b]? := by
  rw [h]

theorem bufinv_refill {α : Type} (total : List α) (x : AudioState α × List α)
    (h : BufInv total x.1 x.2) (he : x.1.audio_eof = 0) :
    BufInv total (refill read_from_file x).1 (refill read_from_file x).2 := by
  have hB : AUDIO_BUFFER_SIZE = 4096 := rfl
  obtain ⟨hsec, hle, hn, h0, -, hbuf⟩ := h
  obtain ⟨hlen, hsrc⟩ := h0 he
  rw [hB] at hlen hsrc hle
  rw [hlen] at hn hbuf
  have hcnt : (x.2.take 2048).length = min 2048 (total.length - (x.1.audio_buffer_offset + 4096)) := by
    rw [List.length_take, hsrc, List.length_drop]
  have hget : ∀ i, i < (x.2.take 2048).length →
      (x.2.take 2048)[i]? = total[x.1.audio_buffer_offset + 4096 + i]? := by
    intro i hi
    rw [List.getElem?_take, if_pos (by omega), hsrc, List.getElem?_drop]
  have hcle : (x.2.take 2048).length ≤ 2048 := by rw [List.length_take]; omega
  have hsize : to_size ((4096 : Int) - (2048 - ((x.2.take 2048).length : Int))) =
      2048 + (x.2.take 2048).length := by
    unfold to_size
    omega
  have hdrop : List.drop 2048 x.2 = List.drop (x.1.audio_buffer_offset + 2048 + 4096) total := by
    rw [hsrc, List.drop_drop]
  rw [refill_eq]
  simp only [BufInv, read_from_file, hB, hlen, he, Nat.cast_ofNat]
  generalize hc : (x.2.take 2048).length = c at *
  have hlen' : (if (c : Int) < 2048 then to_size ((4096 : Int) - (2048 - (c : Int))) else 4096) =
      if c < 2048 then 2048 + c else 4096 := by
    by_cases h1 : c < 2048
    · rw [if_pos h1, if_pos (by omega), hsize]
    · rw [if_neg h1, if_neg (by omega)]
  have heof : (if (c : Int) < 2048 then (1 : Int) else 0) = if c < 2048 then 1 else 0 := by
    by_cases h1 : c < 2048
    · rw [if_pos h1, if_pos (by omega)]
    · rw [if_neg h1, if_neg (by omega)]
  rw [hlen', heof]
  refine ⟨?_, ?_, ?_, ?_, ?_, ?_⟩
  · rcases hsec with hs | hs <;> simp [hs]
  · split <;> omega
  · split <;> omega
  · intro h1
    have hc2 : ¬ c < 2048 := by
      intro hlt
      simp [hlt] at h1
    exact ⟨by rw [if_neg hc2], hdrop⟩
  · intro h1
    have hc2 : c < 2048 := by
      by_contra hge
      simp [hge] at h1
    rw [if_pos hc2]
    omega
  · intro j hj
    have hj' : j < 2048 + c := by
      split at hj <;> omega
    rcases hsec with hs | hs
    · simp only [hs, Nat.zero_ne_one, if_false]
      rcases Nat.lt_or_ge j 2048 with hlt | hge
      · rw [slot_one_lt j hlt, store_ge _ _ _ _ (by omega) (by rw [hc]; omega)]
        have := hbuf (2048 + j) (by omega)
        rw [hs, slot_zero] at this
        rw [this]
        exact getElem?_idx _ (by omega)
      · rw [slot_one_ge j hge, store_mem _ _ _ _ (by omega) (by rw [hc]; omega),
          Nat.sub_zero, hget _ (by omega)]
        exact getElem?_idx _ (by omega)
    · simp only [hs, if_true]
      rcases Nat.lt_or_ge j 2048 with hlt | hge
      · rw [slot_zero, store_lt _ _ _ _ hlt]
        have := hbuf (2048 + j) (by omega)
        rw [hs, slot_one_ge _ (by omega)] at this
        have h3 : 2048 + j - 2048 = j := by omega
        rw [h3] at this
        rw [this]
        exact getElem?_idx _ (by omega)
      · rw [slot_zero, store_mem _ _ _ _ hge (by rw [hc]; omega), hget _ (by omega)]
        exact getElem?_idx _ (by omega)


theorem refill_loop_inv {α : Type} (total : List α) (offset length fuel : Nat)
    (x : AudioState α × List α) (h : BufInv total x.1 x.2)
    (hb : x.1.audio_buffer_offset ≤ offset) (hL : length ≤ 2048) :
    BufInv total (refill_loop read_from_file offset length fuel x).1
        (refill_loop read_from_file offset length fuel x).2 ∧
      (refill_loop read_from_file offset length fuel x).1.audio_buffer_offset ≤ offset := by
  induction fuel generalizing x with
  | zero => exact ⟨h, hb⟩
  | succ fuel ih =>
    unfold refill_loop
    split
    · rename_i hc
      obtain ⟨he, hlt⟩ := hc
      have hlen : x.1.audio_buffer_length = 4096 := (h.2.2.2.1 he).1
      apply ih _ (bufinv_refill total x h he)
      rw [(refill_offset read_from_file x).1]
      omega
    · exact ⟨h, hb⟩

theorem map_range_split {β : Type} (g : Nat → β) (a n : Nat) (h : a ≤ n) :
    (List.range n).map g =
      (List.range a).map g ++ (List.range (n - a)).map (fun j => g (a + j)) := by
  obtain ⟨b, rfl⟩ : ∃ b, n = a + b := ⟨n - a, by omega⟩
  rw [List.range_add, List.map_append, List.map_map, Nat.add_sub_cancel_left]
  rfl

theorem memcpy_from_eq {α : Type} (buf : Nat → Option α) (p : Int) (n : Nat)
    (f : Nat → Option α) (h : ∀ i, i < n → load buf (p + (i : Int)) = f i) :
    memcpy_from buf p n = (List.range n).map f := by
  unfold memcpy_from
  apply List.map_congr_left
  intro i hi
  exact h i (List.mem_range.1 hi)

theorem replicate_eq_map_range {β : Type} (z : β) (n : Nat) :
    List.replicate n z = (List.range n).map (fun _ => z) := by
  induction n with
  | zero => rfl
  | succ n ih => rw [List.replicate_succ', List.range_succ, List.map_append, ih]; rfl


theorem copy_out_eq {α : Type} [Zero α] (st : AudioState α) (off L : Nat)
    (hsec : st.audio_buffer_section = 0 ∨ st.audio_buffer_section = 1)
    (hlen : st.audio_buffer_length ≤ 4096) (hb : st.audio_buffer_offset ≤ off)
    (hoff : off ≤ st.audio_buffer_offset + st.audio_buffer_length) :
    copy_out st off L =
      (((min (st.audio_buffer_offset + st.audio_buffer_length - off) L : Nat) : Int),
        (List.range (min (st.audio_buffer_offset + st.audio_buffer_length - off) L)).map
            (fun i => load st.audio_buffer
              ((slot st.audio_buffer_section (off - st.audio_buffer_offset + i) : Nat) : Int)) ++
          List.replicate (L - min (st.audio_buffer_offset + st.audio_buffer_length - off) L)
            (some 0)) := by
  have h2048 : AUDIO_BUFFER_SIZE / 2 = 2048 := by decide
  have havail : to_size ((st.audio_buffer_length : Int) + (st.audio_buffer_offset : Int) -
      (off : Int)) = st.audio_buffer_offset + st.audio_buffer_length - off := by
    unfold to_size
    omega
  have hd : to_size ((off : Int) - (st.audio_buffer_offset : Int)) =
      off - st.audio_buffer_offset := by
    unfold to_size
    omega
  unfold copy_out
  simp only [havail, hd, h2048]
  generalize ha : st.audio_buffer_offset + st.audio_buffer_length - off = a
  generalize hdd : off - st.audio_buffer_offset = d
  have hda : d + a = st.audio_buffer_length := by omega
  have hfb : (off : Int) - (st.audio_buffer_offset : Int) = (d : Int) := by omega
  rw [hfb]
  rcases hsec with hs | hs
  · rw [if_pos hs, hs]
    by_cases hlt : a < L
    · rw [if_pos hlt, Nat.min_eq_left (by omega)]
      congr 2
    · rw [if_neg hlt, Nat.min_eq_right (by omega), Nat.sub_self, List.replicate_zero,
        List.append_nil]
      congr 1
  · have hs0 : ¬ st.audio_buffer_section = 0 := by omega
    rw [if_neg hs0, hs]
    have hcnt : (if a < L then a else L) = min a L := by
      by_cases hlt : a < L
      · rw [if_pos hlt, Nat.min_eq_left (by omega)]
      · rw [if_neg hlt, Nat.min_eq_right (by omega)]
    rw [hcnt]
    generalize hc : min a L = c
    have hca : c ≤ a := by omega
    congr 2
    by_cases hd1 : d < 2048
    · rw [if_pos hd1]
      by_cases hw : d + c > 2048
      · rw [if_pos hw, map_range_split _ (2048 - d) c (by omega)]
        refine congrArg₂ HAppend.hAppend ?_ ?_
        · apply memcpy_from_eq
          intro i hi
          rw [slot_one_lt _ (by omega)]
          refine congrArg (load st.audio_buffer) ?_
          push_cast
          omega
        · apply memcpy_from_eq
          intro i hi
          rw [slot_one_ge _ (by omega)]
          refine congrArg (load st.audio_buffer) ?_
          omega
      · rw [if_neg hw]
        apply memcpy_from_eq
        intro i hi
        rw [slot_one_lt _ (by omega)]
        refine congrArg (load st.audio_buffer) ?_
        push_cast
        omega
    · rw [if_neg hd1]
      apply memcpy_from_eq
      intro i hi
      rw [slot_one_ge _ (by omega)]
      refine congrArg (load st.audio_buffer) ?_
      omega


/-- From a buffer that holds the samples of `total` around `off`, `copy_out`
returns the number of real samples in `[off, off + L)` and writes them,
followed by zeros. -/
theorem copy_out_spec {α : Type} [Zero α] (total : List α) (st : AudioState α) (src : List α)
    (h : BufInv total st src) (off L : Nat) (hb : st.audio_buffer_offset ≤ off)
    (hoff : off ≤ st.audio_buffer_offset + st.audio_buffer_length)
    (hex : st.audio_eof ≠ 0 ∨ off + L ≤ st.audio_buffer_offset + st.audio_buffer_length) :
    copy_out st off L =
      (((min L (total.length - off) : Nat) : Int),
        (List.range L).map fun i => some (total.getD (off + i) 0)) := by
  obtain ⟨hsec, hle, hn, h0, h1, hbuf⟩ := h
  have hB : AUDIO_BUFFER_SIZE = 4096 := rfl
  rw [hB] at hle
  rw [copy_out_eq st off L hsec hle hb hoff]
  have hmin : min (st.audio_buffer_offset + st.audio_buffer_length - off) L =
      min L (total.length - off) := by
    rcases hex with he | he
    · have := h1 he
      omega
    · omega
  rw [hmin]
  generalize hc : min L (total.length - off) = c
  have hcL : c ≤ L := by omega
  have hcn : off + c ≤ st.audio_buffer_offset + st.audio_buffer_length := by omega
  refine Prod.ext rfl ?_
  simp only
  rw [map_range_split (fun i => some (total.getD (off + i) 0)) c L hcL, replicate_eq_map_range]
  refine congrArg₂ HAppend.hAppend ?_ ?_
  · apply List.map_congr_left
    intro i hi
    have hi := List.mem_range.1 hi
    have hslot : slot st.audio_buffer_section (off - st.audio_buffer_offset + i) < 4096 := by
      rcases hsec with hs | hs
      · rw [hs, slot_zero]
        omega
      · rw [hs]
        rcases Nat.lt_or_ge (off - st.audio_buffer_offset + i) 2048 with h2 | h2
        · rw [slot_one_lt _ h2]
          omega
        · rw [slot_one_ge _ h2]
          omega
    have hload : load st.audio_buffer
        ((slot st.audio_buffer_section (off - st.audio_buffer_offset + i) : Nat) : Int) =
        st.audio_buffer (slot st.audio_buffer_section (off - st.audio_buffer_offset + i)) := by
      unfold load
      rw [if_pos ⟨by omega, by rw [hB]; omega⟩, Int.toNat_ofNat]
    rw [hload, hbuf _ (by omega)]
    have hidx : st.audio_buffer_offset + (off - st.audio_buffer_offset + i) = off + i := by omega
    rw [hidx, List.getD_eq_getElem?_getD, List.getElem?_eq_getElem (by omega)]
    rfl
  · apply List.map_congr_left
    intro j hj
    have hj := List.mem_range.1 hj
    by_cases hLn : L ≤ total.length - off
    · omega
    · have hge : total.length ≤ off + (c + j) := by omega
      rw [List.getD_eq_getElem?_getD, List.getElem?_eq_none hge]
      rfl


theorem refill_loop_done {σ α : Type} (read_samples : σ → Nat → ReadResult σ α)
    (offset length fuel : Nat) (x : AudioState α × σ)
    (h : ¬ (x.1.audio_eof = 0 ∧
      x.1.audio_buffer_offset + x.1.audio_buffer_length < offset + length)) :
    refill_loop read_samples offset length fuel x = x := by
  cases fuel with
  | zero => rfl
  | succ fuel => rw [refill_loop, if_neg h]

theorem refill_loop_step {σ α : Type} (read_samples : σ → Nat → ReadResult σ α)
    (offset length fuel : Nat) (x : AudioState α × σ)
    (h : x.1.audio_eof = 0 ∧
      x.1.audio_buffer_offset + x.1.audio_buffer_length < offset + length) :
    refill_loop read_samples offset length (fuel + 1) x =
      refill_loop read_samples offset length fuel (refill read_samples x) := by
  rw [refill_loop, if_pos h]

theorem memcpy_from_head {α : Type} (buf : Nat → Option α) (p : Int) (n : Nat) (h : 0 < n) :
    (memcpy_from buf p n).head? = some (load buf p) := by
  unfold memcpy_from
  obtain ⟨m, rfl⟩ : ∃ m, n = m + 1 := ⟨n - 1, by omega⟩
  rw [List.range_succ_eq_map]
  simp

theorem init_fields {α : Type} (total : List α) (hn : 4096 ≤ total.length) :
    (init_audio_buffer read_from_file total).1.audio_buffer_offset = 0 ∧
      (init_audio_buffer read_from_file total).1.audio_buffer_length = 4096 ∧
      (init_audio_buffer read_from_file total).1.audio_buffer_section = 0 ∧
      (init_audio_buffer read_from_file total).1.audio_eof = 0 ∧
      (init_audio_buffer read_from_file total).2 = total.drop 4096 := by
  have hB : AUDIO_BUFFER_SIZE = 4096 := rfl
  have hlen : to_size (((total.take 4096).length : Nat) : Int) = 4096 := by
    rw [to_size_of_nat _ (by rw [List.length_take]; omega), List.length_take]
    omega
  simp only [init_audio_buffer, read_from_file, hB, hlen]
  simp

/-- C11 fails on a request longer than half the buffer: on a file of at least
4097 samples the first call `audio_at_offset(.., offset = 1, length = 4096)`
after `init_audio_buffer` moves `audio_buffer_offset` to 2048, past `offset`,
and copies from `audio_buffer + (1 - 2048 - 2048)`: it returns 4096 but
`out[0]` is read outside the buffer instead of being sample 1 of the file. -/
theorem audio_at_offset_wide_request {α : Type} [Zero α] (total : List α) (hn : 4097 ≤ total.length) :
    (audio_at_offset read_from_file (init_audio_buffer read_from_file total).1
        (init_audio_buffer read_from_file total).2 1 4096).ret = 4096 ∧
      (audio_at_offset read_from_file (init_audio_buffer read_from_file total).1
        (init_audio_buffer read_from_file total).2 1 4096).out.head? = some none := by
  have hB : AUDIO_BUFFER_SIZE = 4096 := rfl
  have h2048 : AUDIO_BUFFER_SIZE / 2 = 2048 := by decide
  obtain ⟨ho, hl, hs, he, hsrc⟩ := init_fields total (by omega)
  generalize init_audio_buffer read_from_file total = x at *
  unfold audio_at_offset
  rw [if_neg (by rw [hB]; omega), if_neg (by omega)]
  simp only
  rw [show (1 + 4096 : Nat) = 4096 + 1 from rfl,
    refill_loop_step _ _ _ _ _ ⟨he, by omega⟩]
  have hy := refill_eq read_from_file x
  generalize refill read_from_file x = y at *
  have hcnt : (read_from_file x.2 2048).count = ((min 2048 (total.length - 4096) : Nat) : Int) := by
    simp only [read_from_file, hsrc, List.length_take, List.length_drop]
  have hyo : y.1.audio_buffer_offset = 2048 := by rw [hy, ho]
  have hys : y.1.audio_buffer_section = 1 := by rw [hy, hs]; rfl
  have hyl : 2049 ≤ y.1.audio_buffer_length ∧ y.1.audio_buffer_length ≤ 4096 ∧
      (y.1.audio_eof ≠ 0 ∨ y.1.audio_buffer_length = 4096) := by
    rw [hy]
    simp only [hcnt, hl]
    by_cases hc : ((min 2048 (total.length - 4096) : Nat) : Int) < 2048
    · rw [if_pos hc, if_pos hc]
      refine ⟨?_, ?_, Or.inl (by decide)⟩ <;> (unfold to_size; omega)
    · rw [if_neg hc]
      exact ⟨by omega, by omega, Or.inr rfl⟩
  rw [refill_loop_done _ _ _ _ _ (by
    rintro ⟨h1, h2⟩
    rcases hyl.2.2 with h3 | h3
    · exact h3 h1
    · omega)]
  have havail : ¬ to_size ((y.1.audio_buffer_length : Int) + (y.1.audio_buffer_offset : Int) -
      ((1 : Nat) : Int)) < 4096 := by
    unfold to_size
    omega
  have hd : ¬ to_size (((1 : Nat) : Int) - (y.1.audio_buffer_offset : Int)) < 2048 := by
    rw [hyo]
    decide
  unfold copy_out
  simp only [hys, h2048, if_neg havail, if_neg hd, one_ne_zero, if_false, Nat.sub_self,
    List.replicate_zero, List.append_nil]
  refine ⟨rfl, ?_⟩
  rw [memcpy_from_head _ _ _ (by omega)]
  unfold load
  rw [if_neg (by rw [hyo]; omega)]

theorem audio_at_offset_wide_request_witness :
    4097 ≤ (List.replicate 4097 (1 : Int)).length ∧
    (audio_at_offset read_from_file
        (init_audio_buffer read_from_file (List.replicate 4097 (1 : Int))).1
        (init_audio_buffer read_from_file (List.replicate 4097 (1 : Int))).2 1 4096).ret = 4096 ∧
    (audio_at_offset read_from_file
        (init_audio_buffer read_from_file (List.replicate 4097 (1 : Int))).1
        (init_audio_buffer read_from_file (List.replicate 4097 (1 : Int))).2 1 4096).out.head? =
      some none :=
  ⟨by rw [List.length_replicate], audio_at_offset_wide_request _ (by rw [List.length_replicate])⟩


/-- A request of at most half a buffer, at or after `audio_buffer_offset` and
not beyond the end of the file, is served: the call returns the number of
real samples in the window and writes them followed by zeros. -/
theorem audio_at_offset_spec {α : Type} [Zero α] (total : List α) (st : AudioState α)
    (src : List α) (h : BufInv total st src) (off L : Nat)
    (hb : st.audio_buffer_offset ≤ off) (hL : L ≤ 2048) (hoff : off ≤ total.length) :
    (audio_at_offset read_from_file st src off L).ret = ((min L (total.length - off) : Nat) : Int) ∧
      (audio_at_offset read_from_file st src off L).out =
        (List.range L).map (fun i => some (total.getD (off + i) 0)) ∧
      BufInv total (audio_at_offset read_from_file st src off L).state
        (audio_at_offset read_from_file st src off L).source ∧
      (audio_at_offset read_from_file st src off L).state.audio_buffer_offset ≤ off := by
  have hB : AUDIO_BUFFER_SIZE = 4096 := rfl
  unfold audio_at_offset
  rw [if_neg (by rw [hB]; omega), if_neg (by omega)]
  simp only
  obtain ⟨hinv, hbase⟩ := refill_loop_inv total off L (off + L) (st, src) h hb hL
  have hexit := refill_loop_exit read_from_file off L (off + L) (st, src) (Or.inr (by
    show off + L ≤ st.audio_buffer_offset + st.audio_buffer_length + 2048 * (off + L)
    omega))
  generalize refill_loop read_from_file off L (off + L) (st, src) = y at *
  have hoff' : off ≤ y.1.audio_buffer_offset + y.1.audio_buffer_length := by
    rcases hexit with he | he
    · have := hinv.2.2.2.2.1 he
      omega
    · omega
  rw [copy_out_spec total y.1 y.2 hinv off L hbase hoff' hexit]
  exact ⟨rfl, rfl, hinv, hbase⟩

theorem scan_inv {α : Type} [Zero α] (total : List α) (k : Nat) (hk : k ≤ total.length) :
    BufInv total (scan total k).1 (scan total k).2 ∧
      (scan total k).1.audio_buffer_offset ≤ k := by
  induction k with
  | zero =>
    refine ⟨bufinv_init total, ?_⟩
    simp [scan, init_audio_buffer]
  | succ k ih =>
    obtain ⟨hinv, hb⟩ := ih (by omega)
    have hW : DEFAULT_WAVELENGTH = 32 := by decide
    have := audio_at_offset_spec total (scan total k).1 (scan total k).2 hinv k
      DEFAULT_WAVELENGTH hb (by rw [hW]; omega) (by omega)
    simp only [scan]
    exact ⟨this.2.2.1, by omega⟩

/-- C14. Record-loop scan: for a file of `n` samples, the successive calls
`audio_at_offset(.., offset = k, length = W = 32)` for `k = 0, 1, 2, ..` made
after `init_audio_buffer` return `min(32, n - k)` for every `k <= n`, with
`out` equal to samples `k .. k+32` of the file padded with zeros, wherever the
window lies in the two halves of the buffer; so the value returned is positive
exactly for `k < n` and is 0, not an error, at `k = n`, where the loop of
`press_record` ends. -/
theorem record_loop_scan {α : Type} [Zero α] (total : List α) (k : Nat)
    (hk : k ≤ total.length) :
    (audio_at_offset read_from_file (scan total k).1 (scan total k).2 k DEFAULT_WAVELENGTH).ret =
        ((min 32 (total.length - k) : Nat) : Int) ∧
      (audio_at_offset read_from_file (scan total k).1 (scan total k).2 k DEFAULT_WAVELENGTH).out =
        (List.range 32).map (fun i => some (total.getD (k + i) 0)) ∧
      (0 < (audio_at_offset read_from_file (scan total k).1 (scan total k).2 k
          DEFAULT_WAVELENGTH).ret ↔ k < total.length) := by
  obtain ⟨hinv, hb⟩ := scan_inv total k hk
  have hW : DEFAULT_WAVELENGTH = 32 := by decide
  obtain ⟨h1, h2, -, -⟩ := audio_at_offset_spec total (scan total k).1 (scan total k).2 hinv k
    DEFAULT_WAVELENGTH hb (by rw [hW]; omega) hk
  rw [hW] at h1 h2 ⊢
  refine ⟨h1, h2, ?_⟩
  rw [h1]
  omega

theorem record_loop_scan_witness :
    3 ≤ ([5, 6, 7, 8] : List Int).length ∧
      (audio_at_offset read_from_file (scan ([5, 6, 7, 8] : List Int) 3).1
        (scan ([5, 6, 7, 8] : List Int) 3).2 3 DEFAULT_WAVELENGTH).ret = 1 ∧
      (audio_at_offset read_from_file (scan ([5, 6, 7, 8] : List Int) 3).1
        (scan ([5, 6, 7, 8] : List Int) 3).2 3 DEFAULT_WAVELENGTH).out =
        some 8 :: List.replicate 31 (some 0) :=
  ⟨by decide, (record_loop_scan ([5, 6, 7, 8] : List Int) 3 (by decide)).1,
    (record_loop_scan ([5, 6, 7, 8] : List Int) 3 (by decide)).2.1⟩

/-- C13. Misuse: `audio_at_offset` returns -1 if `length > AUDIO_BUFFER_SIZE`
(4096) or `offset < audio_buffer_offset`; it then reads nothing from the
source, writes nothing to `out` and leaves every global unchanged. -/
theorem audio_at_offset_misuse {σ α : Type} [Zero α]
    (read_samples : σ → Nat → ReadResult σ α) (st : AudioState α) (in_file : σ)
    (offset length : Nat) (h : length > AUDIO_BUFFER_SIZE ∨ offset < st.audio_buffer_offset) :
    AUDIO_BUFFER_SIZE = 4096 ∧
      audio_at_offset read_samples st in_file offset length =
        { ret := -1, out := [], state := st, source := in_file } := by
  refine ⟨rfl, ?_⟩
  unfold audio_at_offset
  by_cases h1 : length > AUDIO_BUFFER_SIZE
  · rw [if_pos h1]
  · rw [if_neg h1, if_pos (h.resolve_left h1)]


theorem init_fields_short {α : Type} (total : List α) (hn : total.length < 4096) :
    (init_audio_buffer read_from_file total).1.audio_buffer_offset = 0 ∧
      (init_audio_buffer read_from_file total).1.audio_buffer_length = total.length ∧
      (init_audio_buffer read_from_file total).1.audio_buffer_section = 0 ∧
      (init_audio_buffer read_from_file total).1.audio_eof = 1 ∧
      (init_audio_buffer read_from_file total).1.audio_buffer =
        store (fun _ => none) 0 (total.take 4096) := by
  have hB : AUDIO_BUFFER_SIZE = 4096 := rfl
  have hlen : to_size (((total.take 4096).length : Nat) : Int) = total.length := by
    rw [to_size_of_nat _ (by rw [List.length_take]; omega), List.length_take]
    omega
  simp only [init_audio_buffer, read_from_file, hB, hlen]
  refine ⟨trivial, trivial, trivial, ?_, trivial⟩
  rw [if_pos (by omega)]

/-- C12 fails on a request that starts beyond the end of the file: on a file
of fewer than 4096 samples (exhausted by `init_audio_buffer`) a call with
`offset` greater than the number of samples returns `length`, not 0, and
`out[0]` is read from a cell never stored, not set to zero: the difference
`audio_buffer_length + audio_buffer_offset - offset` wraps as a `size_t`. -/
theorem audio_at_offset_beyond_end {α : Type} [Zero α] (total : List α) (hn : total.length < 4096)
    (off L : Nat) (hoff : total.length < off) (hmax : off ≤ 4294967296) (hL0 : 0 < L)
    (hL : L ≤ 4096) :
    (audio_at_offset read_from_file (init_audio_buffer read_from_file total).1
        (init_audio_buffer read_from_file total).2 off L).ret = (L : Int) ∧
      (audio_at_offset read_from_file (init_audio_buffer read_from_file total).1
        (init_audio_buffer read_from_file total).2 off L).out.head? = some none := by
  have hB : AUDIO_BUFFER_SIZE = 4096 := rfl
  obtain ⟨ho, hl, hs, he, hbuf⟩ := init_fields_short total hn
  generalize init_audio_buffer read_from_file total = x at *
  unfold audio_at_offset
  rw [if_neg (by rw [hB]; omega), if_neg (by omega)]
  simp only
  rw [refill_loop_done _ _ _ _ _ (by
    rintro ⟨h1, -⟩
    rw [he] at h1
    exact absurd h1 (by decide))]
  have havail : ¬ to_size ((x.1.audio_buffer_length : Int) + (x.1.audio_buffer_offset : Int) -
      (off : Int)) < L := by
    unfold to_size
    omega
  unfold copy_out
  simp only [hs, if_true, if_neg havail]
  refine ⟨trivial, ?_⟩
  rw [memcpy_from_head _ _ _ hL0]
  unfold load
  split
  · rename_i hin
    rw [ho, hbuf] at *
    have hoff' : ((off : Int) - ((0 : Nat) : Int)).toNat = off := by omega
    rw [hoff', store_ge _ _ _ _ (by omega) (by rw [List.length_take]; omega)]
  · rfl

theorem audio_at_offset_beyond_end_witness :
    ([1, 2, 3, 4, 5, 6, 7, 8, 9, 10] : List Int).length < 4096 ∧
      ([1, 2, 3, 4, 5, 6, 7, 8, 9, 10] : List Int).length < 20 ∧
      (audio_at_offset read_from_file
        (init_audio_buffer read_from_file ([1, 2, 3, 4, 5, 6, 7, 8, 9, 10] : List Int)).1
        (init_audio_buffer read_from_file ([1, 2, 3, 4, 5, 6, 7, 8, 9, 10] : List Int)).2
        20 32).ret = 32 ∧
      (audio_at_offset read_from_file
        (init_audio_buffer read_from_file ([1, 2, 3, 4, 5, 6, 7, 8, 9, 10] : List Int)).1
        (init_audio_buffer read_from_file ([1, 2, 3, 4, 5, 6, 7, 8, 9, 10] : List Int)).2
        20 32).out.head? = some none :=
  ⟨by decide, by decide,
    audio_at_offset_beyond_end ([1, 2, 3, 4, 5, 6, 7, 8, 9, 10] : List Int) (by decide) 20 32 (by decide)
      (by decide) (by decide) (by decide)⟩

theorem audio_at_offset_misuse_witness :
    ((4097 > AUDIO_BUFFER_SIZE ∨
        0 < (init_audio_buffer read_from_file ([1, 2, 3] : List Int)).1.audio_buffer_offset) ∧
      (audio_at_offset read_from_file (init_audio_buffer read_from_file ([1, 2, 3] : List Int)).1
        (init_audio_buffer read_from_file ([1, 2, 3] : List Int)).2 0 4097).ret = -1) :=
  ⟨Or.inl (by decide),
    congrArg AtOffset.ret (audio_at_offset_misuse read_from_file
      (init_audio_buffer read_from_file ([1, 2, 3] : List Int)).1
      (init_audio_buffer read_from_file ([1, 2, 3] : List Int)).2 0 4097 (Or.inl (by decide))).2⟩

/-! ## Properties of the discriminator and of the end-of-transmission detector -/

theorem process_harmonics_eot {α : Type} [Add α] [Sub α] [Mul α] [Div α] [NatCast α] [LT α]
    [DecidableRel (fun a b : α => a < b)] [DecidableEq α] (sqrt : α → α)
    (harmonics : Nat → α × α) (s : HarmonicsState α) (h : eot_fires harmonics s) :
    process_harmonics sqrt harmonics s =
      { ret := 1, emitted := [],
        state := { s with
          power_sq_totals :=
            Function.update s.power_sq_totals s.power_sq_totals_pos (bin_power harmonics),
          power_sq_totals_pos := s.power_sq_totals_pos + 1 } } := by
  obtain ⟨h1, h2, h3, h4⟩ := h
  unfold process_harmonics
  simp only [h1, h2, h3, h4, if_true, if_false, ne_eq, not_false_eq_true]

theorem process_harmonics_cont {α : Type} [Add α] [Sub α] [Mul α] [Div α] [NatCast α] [LT α]
    [DecidableRel (fun a b : α => a < b)] [DecidableEq α] (sqrt : α → α)
    (harmonics : Nat → α × α) (s : HarmonicsState α) (h : ¬ eot_fires harmonics s) :
    process_harmonics sqrt harmonics s = symbol_step sqrt harmonics (after_power harmonics s) := by
  unfold eot_fires at h
  unfold process_harmonics after_power
  by_cases h1 : s.power_sq_totals_pos + 1 ≥ POWER_WINDOW
  · by_cases h2 : s.bit_state.framed = 0
    · simp [h1, h2]
    · by_cases h3 : s.ave_signal_power_sq = ((0 : Nat) : α)
      · simp [h1, h2, h3]
      · have h4 := fun hh => h ⟨h1, h2, h3, hh⟩
        simp [h1, h2, h3]
        intro hh
        exact (h4 hh).elim
  · simp [h1]


/-- The second part of `process_harmonics` always returns 0; it leaves the
power window, its position and the reference alone, advances the position in
`power_diffs` cyclically, and applies the first of its four rules that fits
the symbol, the mean difference and the incremented counter. -/
theorem symbol_step_spec {α : Type} [Add α] [Sub α] [Mul α] [Div α] [NatCast α] [LT α]
    [DecidableRel (fun a b : α => a < b)] (sqrt : α → α) (harmonics : Nat → α × α)
    (s : HarmonicsState α) :
    (symbol_step sqrt harmonics s).ret = 0 ∧
      (symbol_step sqrt harmonics s).state.power_sq_totals = s.power_sq_totals ∧
      (symbol_step sqrt harmonics s).state.power_sq_totals_pos = s.power_sq_totals_pos ∧
      (symbol_step sqrt harmonics s).state.ave_signal_power_sq = s.ave_signal_power_sq ∧
      (symbol_step sqrt harmonics s).state.power_diffs_start =
        (if s.power_diffs_start + 1 ≥ 8 then 0 else s.power_diffs_start + 1) ∧
      (symbol_step sqrt harmonics s).state.power_diffs =
        Function.update s.power_diffs s.power_diffs_start (bin_diff sqrt harmonics) ∧
      (symbol_step sqrt harmonics s).state.bit_state =
        (symbol_step sqrt harmonics s).emitted.foldl (fun st b => process_bit b st) s.bit_state ∧
      ((s.current_symbol = 1 ∧ ((0 : Nat) : α) <
            diff_mean (Function.update s.power_diffs s.power_diffs_start
              (bin_diff sqrt harmonics)) →
          (symbol_step sqrt harmonics s).emitted = [0] ∧
          (symbol_step sqrt harmonics s).state.current_symbol = 0 ∧
          (symbol_step sqrt harmonics s).state.sample_count = 0) ∧
        (¬ (s.current_symbol = 1 ∧ ((0 : Nat) : α) <
            diff_mean (Function.update s.power_diffs s.power_diffs_start
              (bin_diff sqrt harmonics))) →
          (s.current_symbol = 0 ∧
            diff_mean (Function.update s.power_diffs s.power_diffs_start
              (bin_diff sqrt harmonics)) < ((0 : Nat) : α) →
            (symbol_step sqrt harmonics s).emitted = [1] ∧
            (symbol_step sqrt harmonics s).state.current_symbol = 1 ∧
            (symbol_step sqrt harmonics s).state.sample_count = 0) ∧
          (¬ (s.current_symbol = 0 ∧
            diff_mean (Function.update s.power_diffs s.power_diffs_start
              (bin_diff sqrt harmonics)) < ((0 : Nat) : α)) →
            (s.sample_count + 1 > 24 →
              (symbol_step sqrt harmonics s).emitted = [s.current_symbol] ∧
              (symbol_step sqrt harmonics s).state.current_symbol = s.current_symbol ∧
              (symbol_step sqrt harmonics s).state.sample_count = s.sample_count + 1 - 16) ∧
            (¬ s.sample_count + 1 > 24 →
              (symbol_step sqrt harmonics s).emitted = [] ∧
              (symbol_step sqrt harmonics s).state.current_symbol = s.current_symbol ∧
              (symbol_step sqrt harmonics s).state.sample_count = s.sample_count + 1)))) := by
  have hT : SYMBOL_TIMEOUT = 24 := by decide
  have hM : DEFAULT_SYMBOL_LENGTH = 16 := by decide
  have hM2 : DEFAULT_SYMBOL_LENGTH / 2 = 8 := by decide
  unfold symbol_step
  simp only [hT, hM2, hM]
  by_cases c1 : s.current_symbol = 1 ∧ ((0 : Nat) : α) <
      diff_mean (Function.update s.power_diffs s.power_diffs_start (bin_diff sqrt harmonics))
  · simp [c1]
  · by_cases c2 : s.current_symbol = 0 ∧
        diff_mean (Function.update s.power_diffs s.power_diffs_start (bin_diff sqrt harmonics)) <
          ((0 : Nat) : α)
    · simp [c1, c2]
    · by_cases c3 : s.sample_count + 1 > 24
      · simp [c1, c2, c3]
      · simp [c1, c2, c3]


/-- What a call of `process_harmonics` does to the symbol and to the counter,
rule by rule. -/
theorem process_harmonics_rules {α : Type} [Add α] [Sub α] [Mul α] [Div α] [NatCast α] [LT α]
    [DecidableRel (fun a b : α => a < b)] [DecidableEq α] (sqrt : α → α)
    (harmonics : Nat → α × α) (s : HarmonicsState α) :
    (eot_fires harmonics s →
        (process_harmonics sqrt harmonics s).ret = 1 ∧
        (process_harmonics sqrt harmonics s).emitted = [] ∧
        (process_harmonics sqrt harmonics s).state.current_symbol = s.current_symbol ∧
        (process_harmonics sqrt harmonics s).state.sample_count = s.sample_count) ∧
      (¬ eot_fires harmonics s →
        (process_harmonics sqrt harmonics s).ret = 0 ∧
        (s.current_symbol = 1 ∧ ((0 : Nat) : α) <
            diff_mean (Function.update s.power_diffs s.power_diffs_start
              (bin_diff sqrt harmonics)) →
          (process_harmonics sqrt harmonics s).emitted = [0] ∧
          (process_harmonics sqrt harmonics s).state.current_symbol = 0 ∧
          (process_harmonics sqrt harmonics s).state.sample_count = 0) ∧
        (¬ (s.current_symbol = 1 ∧ ((0 : Nat) : α) <
            diff_mean (Function.update s.power_diffs s.power_diffs_start
              (bin_diff sqrt harmonics))) →
          (s.current_symbol = 0 ∧
            diff_mean (Function.update s.power_diffs s.power_diffs_start
              (bin_diff sqrt harmonics)) < ((0 : Nat) : α) →
            (process_harmonics sqrt harmonics s).emitted = [1] ∧
            (process_harmonics sqrt harmonics s).state.current_symbol = 1 ∧
            (process_harmonics sqrt harmonics s).state.sample_count = 0) ∧
          (¬ (s.current_symbol = 0 ∧
            diff_mean (Function.update s.power_diffs s.power_diffs_start
              (bin_diff sqrt harmonics)) < ((0 : Nat) : α)) →
            (s.sample_count + 1 > 24 →
              (process_harmonics sqrt harmonics s).emitted = [s.current_symbol] ∧
              (process_harmonics sqrt harmonics s).state.current_symbol = s.current_symbol ∧
              (process_harmonics sqrt harmonics s).state.sample_count =
                s.sample_count + 1 - 16) ∧
            (¬ s.sample_count + 1 > 24 →
              (process_harmonics sqrt harmonics s).emitted = [] ∧
              (process_harmonics sqrt harmonics s).state.current_symbol = s.current_symbol ∧
              (process_harmonics sqrt harmonics s).state.sample_count =
                s.sample_count + 1)))) := by
  constructor
  · intro h
    rw [process_harmonics_eot sqrt harmonics s h]
    exact ⟨rfl, rfl, rfl, rfl⟩
  · intro h
    rw [process_harmonics_cont sqrt harmonics s h]
    have hs := symbol_step_spec sqrt harmonics (after_power harmonics s)
    exact ⟨hs.1, hs.2.2.2.2.2.2.2⟩

/-- C15, amended. On a probe that reports the end of transmission nothing is
emitted and symbol and counter are left alone.  On every other probe
`process_harmonics` returns 0 and applies the first rule that fits, on the
mean `avg_d` of `power_diffs` after the store and on the counter incremented
by one: (symbol 1 and `avg_d > 0`) emits 0, sets the symbol to 0, counter 0;
else (symbol 0 and `avg_d < 0`) emits 1, sets the symbol to 1, counter 0; else
if the entry value of the counter plus one exceeds 24 it emits the symbol and
leaves the counter at entry value + 1 - 16; else it emits nothing and leaves
the counter at entry value + 1. -/
theorem discriminator_step {α : Type} [Add α] [Sub α] [Mul α] [Div α] [NatCast α] [LT α]
    [DecidableRel (fun a b : α => a < b)] [DecidableEq α] (sqrt : α → α)
    (harmonics : Nat → α × α) (s : HarmonicsState α) :
    (eot_fires harmonics s →
        (process_harmonics sqrt harmonics s).ret = 1 ∧
        (process_harmonics sqrt harmonics s).emitted = [] ∧
        (process_harmonics sqrt harmonics s).state.current_symbol = s.current_symbol ∧
        (process_harmonics sqrt harmonics s).state.sample_count = s.sample_count) ∧
      (¬ eot_fires harmonics s →
        (process_harmonics sqrt harmonics s).ret = 0 ∧
        (s.current_symbol = 1 ∧ ((0 : Nat) : α) <
            diff_mean (Function.update s.power_diffs s.power_diffs_start
              (bin_diff sqrt harmonics)) →
          (process_harmonics sqrt harmonics s).emitted = [0] ∧
          (process_harmonics sqrt harmonics s).state.current_symbol = 0 ∧
          (process_harmonics sqrt harmonics s).state.sample_count = 0) ∧
        (¬ (s.current_symbol = 1 ∧ ((0 : Nat) : α) <
            diff_mean (Function.update s.power_diffs s.power_diffs_start
              (bin_diff sqrt harmonics))) →
          (s.current_symbol = 0 ∧
            diff_mean (Function.update s.power_diffs s.power_diffs_start
              (bin_diff sqrt harmonics)) < ((0 : Nat) : α) →
            (process_harmonics sqrt harmonics s).emitted = [1] ∧
            (process_harmonics sqrt harmonics s).state.current_symbol = 1 ∧
            (process_harmonics sqrt harmonics s).state.sample_count = 0) ∧
          (¬ (s.current_symbol = 0 ∧
            diff_mean (Function.update s.power_diffs s.power_diffs_start
              (bin_diff sqrt harmonics)) < ((0 : Nat) : α)) →
            (s.sample_count + 1 > 24 →
              (process_harmonics sqrt harmonics s).emitted = [s.current_symbol] ∧
              (process_harmonics sqrt harmonics s).state.current_symbol = s.current_symbol ∧
              (process_harmonics sqrt harmonics s).state.sample_count =
                s.sample_count + 1 - 16) ∧
            (¬ s.sample_count + 1 > 24 →
              (process_harmonics sqrt harmonics s).emitted = [] ∧
              (process_harmonics sqrt harmonics s).state.current_symbol = s.current_symbol ∧
              (process_harmonics sqrt harmonics s).state.sample_count =
                s.sample_count + 1)))) :=
  process_harmonics_rules sqrt harmonics s

set_option maxRecDepth 1000000 in
/-- C15, as stated, fails: after 24 probes of silence the counter stands at
24, which is not greater than 24, yet the next probe emits the current symbol
and leaves the counter at 9 (the program increments before it compares). -/
theorem discriminator_step_counterexample :
    (run_harmonics int_sqrt (List.replicate 24 silence) HarmonicsState.init).2 = false ∧
      (run_harmonics int_sqrt (List.replicate 24 silence) HarmonicsState.init).1.sample_count
        = 24 ∧
      (process_harmonics int_sqrt silence
        (run_harmonics int_sqrt (List.replicate 24 silence) HarmonicsState.init).1).ret = 0 ∧
      (process_harmonics int_sqrt silence
        (run_harmonics int_sqrt (List.replicate 24 silence) HarmonicsState.init).1).emitted
        = [1] ∧
      (process_harmonics int_sqrt silence
        (run_harmonics int_sqrt (List.replicate 24 silence)
          HarmonicsState.init).1).state.sample_count = 9 := by
  decide


/-- The value returned by `process_harmonics` is 1 exactly when `eot_fires`,
and 0 otherwise. -/
theorem process_harmonics_ret {α : Type} [Add α] [Sub α] [Mul α] [Div α] [NatCast α] [LT α]
    [DecidableRel (fun a b : α => a < b)] [DecidableEq α] (sqrt : α → α)
    (harmonics : Nat → α × α) (s : HarmonicsState α) :
    (eot_fires harmonics s → (process_harmonics sqrt harmonics s).ret = 1) ∧
      (¬ eot_fires harmonics s → (process_harmonics sqrt harmonics s).ret = 0) := by
  constructor
  · intro h
    rw [process_harmonics_eot sqrt harmonics s h]
  · intro h
    rw [process_harmonics_cont sqrt harmonics s h]
    exact (symbol_step_spec sqrt harmonics _).1

/-- A property of the state that holds initially and that every call of
`process_harmonics` preserves holds after every run. -/
theorem run_harmonics_induct {α : Type} [Add α] [Sub α] [Mul α] [Div α] [NatCast α] [LT α]
    [DecidableRel (fun a b : α => a < b)] [DecidableEq α] (sqrt : α → α)
    (P : HarmonicsState α → Prop)
    (hstep : ∀ h s, P s → P (process_harmonics sqrt h s).state)
    (probes : List (Nat → α × α)) (s : HarmonicsState α) (hs : P s) :
    P (run_harmonics sqrt probes s).1 := by
  induction probes generalizing s with
  | nil => exact hs
  | cons h rest ih =>
    unfold run_harmonics
    split
    · exact hstep h s hs
    · exact ih _ (hstep h s hs)

theorem sample_count_step {α : Type} [Add α] [Sub α] [Mul α] [Div α] [NatCast α] [LT α]
    [DecidableRel (fun a b : α => a < b)] [DecidableEq α] (sqrt : α → α)
    (harmonics : Nat → α × α) (s : HarmonicsState α)
    (h : 0 ≤ s.sample_count ∧ s.sample_count ≤ 24) :
    0 ≤ (process_harmonics sqrt harmonics s).state.sample_count ∧
      (process_harmonics sqrt harmonics s).state.sample_count ≤ 24 := by
  obtain ⟨h1, h2⟩ := process_harmonics_rules sqrt harmonics s
  by_cases he : eot_fires harmonics s
  · rw [(h1 he).2.2.2]
    exact h
  · obtain ⟨-, r1, r2⟩ := h2 he
    by_cases c1 : s.current_symbol = 1 ∧ ((0 : Nat) : α) <
        diff_mean (Function.update s.power_diffs s.power_diffs_start (bin_diff sqrt harmonics))
    · rw [(r1 c1).2.2]
      decide
    · obtain ⟨r3, r4⟩ := r2 c1
      by_cases c2 : s.current_symbol = 0 ∧
          diff_mean (Function.update s.power_diffs s.power_diffs_start
            (bin_diff sqrt harmonics)) < ((0 : Nat) : α)
      · rw [(r3 c2).2.2]
        decide
      · obtain ⟨r5, r6⟩ := r4 c2
        by_cases c3 : s.sample_count + 1 > 24
        · rw [(r5 c3).2.2]
          omega
        · rw [(r6 c3).2.2]
          omega

/-- C18. Symbol timer bound: after `init_history` and after every call made
by the record loop, for every sequence of spectra, `sample_count` lies in
`0 .. 24 = (int)(1.5*M)`; this holds whatever the arithmetic on `double`
does. -/
theorem symbol_timer_bound {α : Type} [Add α] [Sub α] [Mul α] [Div α] [NatCast α] [LT α]
    [DecidableRel (fun a b : α => a < b)] [DecidableEq α] (sqrt : α → α)
    (probes : List (Nat → α × α)) :
    SYMBOL_TIMEOUT = 24 ∧
      0 ≤ (run_harmonics sqrt probes HarmonicsState.init).1.sample_count ∧
      (run_harmonics sqrt probes HarmonicsState.init).1.sample_count ≤ SYMBOL_TIMEOUT := by
  refine ⟨by decide, ?_⟩
  have hT : SYMBOL_TIMEOUT = 24 := by decide
  rw [hT]
  exact run_harmonics_induct sqrt (fun s => 0 ≤ s.sample_count ∧ s.sample_count ≤ 24)
    (fun h s hs => sample_count_step sqrt h s hs) probes HarmonicsState.init
    ⟨le_refl _, by simp [HarmonicsState.init]⟩


/-- The indices and the reference after a call of `process_harmonics`. -/
theorem process_harmonics_fields {α : Type} [Add α] [Sub α] [Mul α] [Div α] [NatCast α] [LT α]
    [DecidableRel (fun a b : α => a < b)] [DecidableEq α] (sqrt : α → α)
    (harmonics : Nat → α × α) (s : HarmonicsState α) :
    (process_harmonics sqrt harmonics s).state.power_sq_totals =
        Function.update s.power_sq_totals s.power_sq_totals_pos (bin_power harmonics) ∧
      (process_harmonics sqrt harmonics s).state.power_sq_totals_pos =
        (if eot_fires harmonics s then s.power_sq_totals_pos + 1
         else if s.power_sq_totals_pos + 1 ≥ POWER_WINDOW then 0
         else s.power_sq_totals_pos + 1) ∧
      (process_harmonics sqrt harmonics s).state.power_diffs_start =
        (if eot_fires harmonics s then s.power_diffs_start
         else if s.power_diffs_start + 1 ≥ 8 then 0 else s.power_diffs_start + 1) ∧
      (process_harmonics sqrt harmonics s).state.ave_signal_power_sq =
        (if s.power_sq_totals_pos + 1 ≥ POWER_WINDOW ∧ s.bit_state.framed ≠ 0 ∧
            s.ave_signal_power_sq = ((0 : Nat) : α) then
          window_mean
            (Function.update s.power_sq_totals s.power_sq_totals_pos (bin_power harmonics))
         else s.ave_signal_power_sq) ∧
      (process_harmonics sqrt harmonics s).state.bit_state =
        (process_harmonics sqrt harmonics s).emitted.foldl (fun st b => process_bit b st)
          s.bit_state := by
  by_cases he : eot_fires harmonics s
  · rw [process_harmonics_eot sqrt harmonics s he]
    simp only [if_pos he]
    refine ⟨trivial, trivial, trivial, ?_, rfl⟩
    rw [if_neg]
    rintro ⟨-, -, h3⟩
    exact he.2.2.1 h3
  · rw [process_harmonics_cont sqrt harmonics s he]
    simp only [if_neg he]
    obtain ⟨-, h1, h2, h3, h4, -, h5, -⟩ := symbol_step_spec sqrt harmonics
      (after_power harmonics s)
    exact ⟨h1, h2, h4, h3, h5⟩

theorem history_indices_inv {α : Type} [Add α] [Sub α] [Mul α] [Div α] [NatCast α] [LT α]
    [DecidableRel (fun a b : α => a < b)] [DecidableEq α] (sqrt : α → α)
    (probes : List (Nat → α × α)) (s : HarmonicsState α)
    (h : s.power_diffs_start < 8 ∧ s.power_sq_totals_pos < 32) :
    (run_harmonics sqrt probes s).1.power_diffs_start < 8 ∧
      ((run_harmonics sqrt probes s).2 = false →
        (run_harmonics sqrt probes s).1.power_sq_totals_pos < 32) ∧
      ((run_harmonics sqrt probes s).2 = true →
        (run_harmonics sqrt probes s).1.power_sq_totals_pos = 32) := by
  have hW : POWER_WINDOW = 32 := by decide
  induction probes generalizing s with
  | nil => exact ⟨h.1, fun _ => h.2, fun hh => by simp [run_harmonics] at hh⟩
  | cons p rest ih =>
    obtain ⟨-, hpos, hstart, -, -⟩ := process_harmonics_fields sqrt p s
    obtain ⟨hr1, hr0⟩ := process_harmonics_ret sqrt p s
    unfold run_harmonics
    by_cases he : eot_fires p s
    · have hret := hr1 he
      rw [if_pos (by rw [hret]; decide)]
      rw [if_pos he] at hpos hstart
      have h32 : s.power_sq_totals_pos + 1 ≥ 32 := by
        have := he.1
        rw [hW] at this
        exact this
      refine ⟨by rw [hstart]; exact h.1, fun hh => by simp at hh, fun _ => ?_⟩
      simp only
      rw [hpos]
      omega
    · have hret := hr0 he
      rw [if_neg (by rw [hret]; decide)]
      rw [if_neg he, hW] at hpos
      rw [if_neg he] at hstart
      apply ih
      constructor
      · rw [hstart]
        split <;> omega
      · rw [hpos]
        split <;> omega

/-- C19, amended. After `init_history` and after every call of
`process_harmonics` that returns 0, `power_diffs_start < M/2 = 8` and
`power_sq_totals_pos < N = 32`; the call that reports the end of transmission
returns before the position is reset and leaves `power_sq_totals_pos = 32`,
after which the record loop makes no further call: so every call is entered
with both indices in range and writes inside its arrays. -/
theorem history_indices {α : Type} [Add α] [Sub α] [Mul α] [Div α] [NatCast α] [LT α]
    [DecidableRel (fun a b : α => a < b)] [DecidableEq α] (sqrt : α → α)
    (probes : List (Nat → α × α)) :
    DEFAULT_SYMBOL_LENGTH / 2 = 8 ∧ POWER_WINDOW = 32 ∧
      (run_harmonics sqrt probes HarmonicsState.init).1.power_diffs_start <
        DEFAULT_SYMBOL_LENGTH / 2 ∧
      ((run_harmonics sqrt probes HarmonicsState.init).2 = false →
        (run_harmonics sqrt probes HarmonicsState.init).1.power_sq_totals_pos < POWER_WINDOW) ∧
      ((run_harmonics sqrt probes HarmonicsState.init).2 = true →
        (run_harmonics sqrt probes HarmonicsState.init).1.power_sq_totals_pos = POWER_WINDOW) := by
  have hW : POWER_WINDOW = 32 := by decide
  have hM : DEFAULT_SYMBOL_LENGTH / 2 = 8 := by decide
  rw [hW, hM]
  exact ⟨rfl, rfl, history_indices_inv sqrt probes HarmonicsState.init
    ⟨by simp [HarmonicsState.init], by simp [HarmonicsState.init]⟩⟩

set_option maxRecDepth 1000000 in
/-- C19, as stated, fails: in the session of 122 probes of the zero tone, 150
of the one tone and 48 of silence (integer spectra on which every division of
the program is exact), the last call reports the end of transmission and
leaves `power_sq_totals_pos = 32`, which is not below 32. -/
theorem history_indices_counterexample :
    (run_harmonics int_sqrt
        (List.replicate 122 tone_zero ++ List.replicate 150 tone_one ++ List.replicate 48 silence)
        HarmonicsState.init).2 = true ∧
      (run_harmonics int_sqrt
        (List.replicate 122 tone_zero ++ List.replicate 150 tone_one ++ List.replicate 48 silence)
        HarmonicsState.init).1.power_sq_totals_pos = 32 ∧
      ¬ ((run_harmonics int_sqrt
        (List.replicate 122 tone_zero ++ List.replicate 150 tone_one ++ List.replicate 48 silence)
        HarmonicsState.init).1.power_sq_totals_pos < 32) := by
  decide


theorem foldl_add_eq_sum {α : Type} [LinearOrderedField α] (f : Nat → α) (l : List Nat) (a : α) :
    l.foldl (fun acc c => acc + f c) a = a + (l.map f).sum := by
  induction l generalizing a with
  | nil => simp
  | cons x l ih => rw [List.foldl_cons, ih, List.map_cons, List.sum_cons, add_assoc]

theorem sum_map_div {α : Type} [LinearOrderedField α] (f : Nat → α) (d : α) (l : List Nat) :
    (l.map fun c => f c / d).sum = (l.map f).sum / d := by
  induction l with
  | nil => simp
  | cons x l ih => rw [List.map_cons, List.sum_cons, ih, List.map_cons, List.sum_cons, add_div]

/-- In exact arithmetic the value accumulated by the loop over the power
window is the mean of its 32 entries. -/
theorem window_mean_eq {α : Type} [LinearOrderedField α] (w : Nat → α) :
    window_mean w = ((List.range 32).map w).sum / 32 := by
  have hW : POWER_WINDOW = 32 := by decide
  unfold window_mean
  rw [hW, foldl_add_eq_sum, sum_map_div]
  simp

/-- In exact arithmetic the value accumulated over the power window is the
mean of its entries, and the test of the program reads: `process_harmonics`
returns 1 if and only if the probe writes entry number 32 of the power window
(position 31), `framed` is set, the reference is already non-zero and the mean
of the 32 entries times `16^2` is below the reference. -/
theorem exact_mean_test {α : Type} [LinearOrderedField α] (sqrt : α → α)
    (harmonics : Nat → α × α) (s : HarmonicsState α) (hpos : s.power_sq_totals_pos < 32) :
    ((process_harmonics sqrt harmonics s).ret = 1 ↔
        s.power_sq_totals_pos = 31 ∧ s.bit_state.framed ≠ 0 ∧ s.ave_signal_power_sq ≠ 0 ∧
          ((List.range 32).map
            (Function.update s.power_sq_totals s.power_sq_totals_pos
              (bin_power harmonics))).sum / 32 * 16 ^ 2 < s.ave_signal_power_sq) ∧
      ((process_harmonics sqrt harmonics s).ret = 1 ∨
        (process_harmonics sqrt harmonics s).ret = 0) ∧
      (s.bit_state.framed = 0 → (process_harmonics sqrt harmonics s).ret = 0) ∧
      (s.ave_signal_power_sq = 0 → (process_harmonics sqrt harmonics s).ret = 0) := by
  have hW : POWER_WINDOW = 32 := by decide
  have hR : ((SIGNAL_POWER_RANGE : Nat) : α) = 16 := by
    have : SIGNAL_POWER_RANGE = 16 := rfl
    rw [this]
    norm_num
  obtain ⟨hr1, hr0⟩ := process_harmonics_ret sqrt harmonics s
  have hiff : eot_fires harmonics s ↔
      s.power_sq_totals_pos = 31 ∧ s.bit_state.framed ≠ 0 ∧ s.ave_signal_power_sq ≠ 0 ∧
        ((List.range 32).map
          (Function.update s.power_sq_totals s.power_sq_totals_pos
            (bin_power harmonics))).sum / 32 * 16 ^ 2 < s.ave_signal_power_sq := by
    unfold eot_fires
    rw [hW, hR, window_mean_eq, Nat.cast_zero]
    have h16 : ∀ x : α, x * 16 * 16 = x * 16 ^ 2 := fun x => by ring
    rw [h16]
    constructor
    · rintro ⟨h1, h2, h3, h4⟩
      exact ⟨by omega, h2, h3, h4⟩
    · rintro ⟨h1, h2, h3, h4⟩
      exact ⟨by omega, h2, h3, h4⟩
  have hret : (process_harmonics sqrt harmonics s).ret = 1 ↔ eot_fires harmonics s := by
    constructor
    · intro h1
      by_contra hne
      rw [hr0 hne] at h1
      exact absurd h1 (by decide)
    · exact hr1
  refine ⟨hret.trans hiff, ?_, ?_, ?_⟩
  · by_cases he : eot_fires harmonics s
    · exact Or.inl (hr1 he)
    · exact Or.inr (hr0 he)
  · intro hf
    exact hr0 (fun he => he.2.1 hf)
  · intro hz
    apply hr0
    intro he
    apply he.2.2.1
    rw [hz, Nat.cast_zero]

/-- C16, amended. End-of-transmission condition, whatever the arithmetic on
`double` does: entered with the window position in range, `process_harmonics`
returns 1 if and only if the probe writes entry number 32 of the power window
(position 31), `framed` is set, the reference is already non-zero and
`m * 16 * 16` is below the reference, where `m` is the value the program
accumulates for the mean: from 0, each of the 32 entries divided by 32 and
added, in index order, every operation being one of `double`.  Otherwise it
returns 0, in particular before framing and on the window in which the
reference is captured (reference still 0). -/
theorem eot_condition {α : Type} [Add α] [Sub α] [Mul α] [Div α] [NatCast α] [LT α]
    [DecidableRel (fun a b : α => a < b)] [DecidableEq α] (sqrt : α → α)
    (harmonics : Nat → α × α) (s : HarmonicsState α) (hpos : s.power_sq_totals_pos < 32) :
    ((process_harmonics sqrt harmonics s).ret = 1 ↔
        s.power_sq_totals_pos = 31 ∧ s.bit_state.framed ≠ 0 ∧
          s.ave_signal_power_sq ≠ ((0 : Nat) : α) ∧
          (List.range 32).foldl
              (fun acc c =>
                acc + Function.update s.power_sq_totals s.power_sq_totals_pos
                  (bin_power harmonics) c / ((32 : Nat) : α))
              ((0 : Nat) : α) * ((16 : Nat) : α) * ((16 : Nat) : α) <
            s.ave_signal_power_sq) ∧
      ((process_harmonics sqrt harmonics s).ret = 1 ∨
        (process_harmonics sqrt harmonics s).ret = 0) ∧
      (s.bit_state.framed = 0 → (process_harmonics sqrt harmonics s).ret = 0) ∧
      (s.ave_signal_power_sq = ((0 : Nat) : α) → (process_harmonics sqrt harmonics s).ret = 0) := by
  have hW : POWER_WINDOW = 32 := by decide
  have hR : SIGNAL_POWER_RANGE = 16 := rfl
  obtain ⟨hr1, hr0⟩ := process_harmonics_ret sqrt harmonics s
  have hiff : eot_fires harmonics s ↔
      s.power_sq_totals_pos = 31 ∧ s.bit_state.framed ≠ 0 ∧
        s.ave_signal_power_sq ≠ ((0 : Nat) : α) ∧
        (List.range 32).foldl
            (fun acc c =>
              acc + Function.update s.power_sq_totals s.power_sq_totals_pos
                (bin_power harmonics) c / ((32 : Nat) : α))
            ((0 : Nat) : α) * ((16 : Nat) : α) * ((16 : Nat) : α) <
          s.ave_signal_power_sq := by
    unfold eot_fires window_mean
    rw [hW, hR]
    constructor
    · rintro ⟨h1, h2, h3, h4⟩
      exact ⟨by omega, h2, h3, h4⟩
    · rintro ⟨h1, h2, h3, h4⟩
      exact ⟨by omega, h2, h3, h4⟩
  have hret : (process_harmonics sqrt harmonics s).ret = 1 ↔ eot_fires harmonics s := by
    constructor
    · intro h1
      by_contra hne
      rw [hr0 hne] at h1
      exact absurd h1 (by decide)
    · exact hr1
  refine ⟨hret.trans hiff, ?_, ?_, ?_⟩
  · by_cases he : eot_fires harmonics s
    · exact Or.inl (hr1 he)
    · exact Or.inr (hr0 he)
  · intro hf
    exact hr0 (fun he => he.2.1 hf)
  · intro hz
    exact hr0 (fun he => he.2.2.1 hz)

set_option maxRecDepth 100000 in
theorem eot_condition_witness :
    (31 : Nat) < 32 ∧
      (process_harmonics int_sqrt silence
        { current_symbol := 1, sample_count := 0, power_diffs := fun _ => 0,
          power_diffs_start := 0, power_sq_totals := fun _ => 0, power_sq_totals_pos := 31,
          ave_signal_power_sq := 1, bit_state := locked }).ret = 1 :=
  ⟨by decide,
    (eot_condition int_sqrt silence
      { current_symbol := 1, sample_count := 0, power_diffs := fun _ => 0,
        power_diffs_start := 0, power_sq_totals := fun _ => 0, power_sq_totals_pos := 31,
        ave_signal_power_sq := 1, bit_state := locked } (by decide)).1.2
      (by decide)⟩

set_option maxRecDepth 100000 in
theorem rounding_state_quiet : ¬ eot_fires rounding_tone rounding_state := by
  decide

set_option maxRecDepth 100000 in
/-- C16, as stated, fails on doubles: the state `rounding_state` is framed,
its reference is set to `256 * (p + 3 * 2^-52)` and its power window stands at
position 31 with every entry `p = (1 + 3 * 2^-26)^2`, the power of the probe
`rounding_tone` as well; the mean of the 32 entries is `p`, and `p * 16^2` is
below the reference.  Yet the call returns 0: the 32 rounded additions of
`p / 32` make `p + 3 * 2^-52`, which times 16 times 16 equals the reference
and is not below it. -/
theorem eot_condition_counterexample :
    rounding_state.power_sq_totals_pos = 31 ∧ rounding_state.bit_state.framed ≠ 0 ∧
      rounding_state.ave_signal_power_sq ≠ ((0 : Nat) : Binary64) ∧
      bin_power rounding_tone = rounding_power ∧
      (∀ c,
        Function.update rounding_state.power_sq_totals rounding_state.power_sq_totals_pos
          (bin_power rounding_tone) c = rounding_power) ∧
      ((List.range 32).map fun c =>
          (Function.update rounding_state.power_sq_totals rounding_state.power_sq_totals_pos
            (bin_power rounding_tone) c).toRat).sum / 32 * 16 ^ 2 <
        rounding_state.ave_signal_power_sq.toRat ∧
      window_mean
          (Function.update rounding_state.power_sq_totals rounding_state.power_sq_totals_pos
            (bin_power rounding_tone)) =
        { mantissa := (2 ^ 26 + 3) ^ 2 + 3, exponent := -52 } ∧
      ∀ sqrt : Binary64 → Binary64,
        (process_harmonics sqrt rounding_tone rounding_state).ret = 0 := by
  have hp : bin_power rounding_tone = rounding_power := by decide
  have hall : ∀ c,
      Function.update rounding_state.power_sq_totals rounding_state.power_sq_totals_pos
        (bin_power rounding_tone) c = rounding_power := by
    intro c
    rw [hp]
    by_cases hc : c = rounding_state.power_sq_totals_pos
    · rw [hc, Function.update_same]
    · rw [Function.update_noteq hc]
      rfl
  refine ⟨rfl, by decide, by decide, hp, hall, ?_, ?_, ?_⟩
  · simp only [hall]
    simp [Binary64.toRat, rounding_power, rounding_state, rounding_reference]
    norm_num
  · have : Function.update rounding_state.power_sq_totals rounding_state.power_sq_totals_pos
        (bin_power rounding_tone) = fun _ => rounding_power := funext hall
    rw [this]
    decide
  · intro sqrt
    exact (process_harmonics_ret sqrt rounding_tone rounding_state).2 rounding_state_quiet

theorem run_harmonics_stop {α : Type} [Add α] [Sub α] [Mul α] [Div α] [NatCast α] [LT α]
    [DecidableRel (fun a b : α => a < b)] [DecidableEq α] (sqrt : α → α)
    (h : Nat → α × α) (rest : List (Nat → α × α)) (s : HarmonicsState α)
    (hr : (process_harmonics sqrt h s).ret ≠ 0) :
    run_harmonics sqrt (h :: rest) s = ((process_harmonics sqrt h s).state, true) := by
  rw [run_harmonics, if_pos hr]

theorem run_harmonics_go {α : Type} [Add α] [Sub α] [Mul α] [Div α] [NatCast α] [LT α]
    [DecidableRel (fun a b : α => a < b)] [DecidableEq α] (sqrt : α → α)
    (h : Nat → α × α) (rest : List (Nat → α × α)) (s : HarmonicsState α)
    (hr : (process_harmonics sqrt h s).ret = 0) :
    run_harmonics sqrt (h :: rest) s =
      run_harmonics sqrt rest (process_harmonics sqrt h s).state := by
  rw [run_harmonics, if_neg (by rw [hr]; decide)]

theorem run_harmonics_append {α : Type} [Add α] [Sub α] [Mul α] [Div α] [NatCast α] [LT α]
    [DecidableRel (fun a b : α => a < b)] [DecidableEq α] (sqrt : α → α)
    (l₁ l₂ : List (Nat → α × α)) (s : HarmonicsState α) :
    run_harmonics sqrt (l₁ ++ l₂) s =
      if (run_harmonics sqrt l₁ s).2 = true then run_harmonics sqrt l₁ s
      else run_harmonics sqrt l₂ (run_harmonics sqrt l₁ s).1 := by
  induction l₁ generalizing s with
  | nil => simp [run_harmonics]
  | cons h rest ih =>
    rw [List.cons_append]
    by_cases hr : (process_harmonics sqrt h s).ret = 0
    · rw [run_harmonics_go sqrt h _ s hr, run_harmonics_go sqrt h _ s hr]
      exact ih _
    · rw [run_harmonics_stop sqrt h _ s hr, run_harmonics_stop sqrt h _ s hr]
      simp

theorem bin_power_nonneg {α : Type} [LinearOrderedField α] (harmonics : Nat → α × α) :
    0 ≤ bin_power harmonics := by
  unfold bin_power
  have h1 := mul_self_nonneg (harmonics 1).1
  have h2 := mul_self_nonneg (harmonics 1).2
  have h3 := mul_self_nonneg (harmonics 2).1
  have h4 := mul_self_nonneg (harmonics 2).2
  linarith

theorem window_mean_nonneg {α : Type} [LinearOrderedField α] (w : Nat → α)
    (h : ∀ c, 0 ≤ w c) : 0 ≤ window_mean w := by
  rw [window_mean_eq]
  apply div_nonneg _ (by norm_num)
  apply List.sum_nonneg
  intro x hx
  obtain ⟨c, -, rfl⟩ := List.mem_map.1 hx
  exact h c

theorem reference_nonneg_step {α : Type} [LinearOrderedField α] (sqrt : α → α)
    (harmonics : Nat → α × α) (s : HarmonicsState α)
    (h : (∀ c, 0 ≤ s.power_sq_totals c) ∧ 0 ≤ s.ave_signal_power_sq) :
    (∀ c, 0 ≤ (process_harmonics sqrt harmonics s).state.power_sq_totals c) ∧
      0 ≤ (process_harmonics sqrt harmonics s).state.ave_signal_power_sq := by
  obtain ⟨ht, -, -, hr, -⟩ := process_harmonics_fields sqrt harmonics s
  have hupd : ∀ c, 0 ≤ Function.update s.power_sq_totals s.power_sq_totals_pos
      (bin_power harmonics) c := by
    intro c
    by_cases hc : c = s.power_sq_totals_pos
    · rw [hc, Function.update_same]
      exact bin_power_nonneg harmonics
    · rw [Function.update_noteq hc]
      exact h.1 c
  rw [ht, hr]
  refine ⟨hupd, ?_⟩
  split
  · exact window_mean_nonneg _ hupd
  · exact h.2

/-- C20. The reference power is captured once: `ave_signal_power_sq` starts
at 0; a call changes it only if `framed` is set and it is still 0; once it is
non-zero no later call of the session changes it; and in exact arithmetic it
is never negative, so it goes from 0 to a positive value at most once. -/
theorem reference_captured_once {α : Type} [LinearOrderedField α] (sqrt : α → α) :
    (HarmonicsState.init : HarmonicsState α).ave_signal_power_sq = 0 ∧
      (∀ harmonics (s : HarmonicsState α),
        (process_harmonics sqrt harmonics s).state.ave_signal_power_sq ≠ s.ave_signal_power_sq →
          s.bit_state.framed ≠ 0 ∧ s.ave_signal_power_sq = 0) ∧
      (∀ harmonics (s : HarmonicsState α), s.ave_signal_power_sq ≠ 0 →
        (process_harmonics sqrt harmonics s).state.ave_signal_power_sq = s.ave_signal_power_sq) ∧
      (∀ probes more : List (Nat → α × α),
        (run_harmonics sqrt probes HarmonicsState.init).1.ave_signal_power_sq ≠ 0 →
          (run_harmonics sqrt (probes ++ more) HarmonicsState.init).1.ave_signal_power_sq =
            (run_harmonics sqrt probes HarmonicsState.init).1.ave_signal_power_sq) ∧
      (∀ probes : List (Nat → α × α),
        0 ≤ (run_harmonics sqrt probes HarmonicsState.init).1.ave_signal_power_sq) := by
  have hkeep : ∀ harmonics (s : HarmonicsState α), s.ave_signal_power_sq ≠ 0 →
      (process_harmonics sqrt harmonics s).state.ave_signal_power_sq =
        s.ave_signal_power_sq := by
    intro harmonics s hne
    rw [(process_harmonics_fields sqrt harmonics s).2.2.2.1, if_neg]
    rintro ⟨-, -, h0⟩
    rw [Nat.cast_zero] at h0
    exact hne h0
  refine ⟨by simp [HarmonicsState.init], ?_, hkeep, ?_, ?_⟩
  · intro harmonics s hne
    rw [(process_harmonics_fields sqrt harmonics s).2.2.2.1] at hne
    by_cases hc : s.power_sq_totals_pos + 1 ≥ POWER_WINDOW ∧ s.bit_state.framed ≠ 0 ∧
        s.ave_signal_power_sq = ((0 : Nat) : α)
    · exact ⟨hc.2.1, by rw [hc.2.2, Nat.cast_zero]⟩
    · rw [if_neg hc] at hne
      exact absurd rfl hne
  · intro probes more hne
    rw [run_harmonics_append]
    split
    · rfl
    · generalize (run_harmonics sqrt probes HarmonicsState.init).1 = s at *
      exact run_harmonics_induct sqrt
        (fun t => t.ave_signal_power_sq = s.ave_signal_power_sq)
        (fun h t ht => by
          show (process_harmonics sqrt h t).state.ave_signal_power_sq = s.ave_signal_power_sq
          rw [hkeep h t (by rw [ht]; exact hne), ht]) more s rfl
  · intro probes
    exact (run_harmonics_induct sqrt
      (fun t => (∀ c, 0 ≤ t.power_sq_totals c) ∧ 0 ≤ t.ave_signal_power_sq)
      (fun h t ht => reference_nonneg_step sqrt h t ht) probes HarmonicsState.init
      ⟨fun c => by simp [HarmonicsState.init], by simp [HarmonicsState.init]⟩).2


theorem sum_lt_of_forall_lt {α : Type} [LinearOrderedField α] (f : Nat → α) (b : α)
    (l : List Nat) (hl : l ≠ []) (h : ∀ c ∈ l, f c < b) :
    (l.map f).sum < (l.length : α) * b := by
  induction l with
  | nil => exact absurd rfl hl
  | cons x l ih =>
    rw [List.map_cons, List.sum_cons, List.length_cons]
    push_cast
    have hx := h x (by simp)
    by_cases hnil : l = []
    · subst hnil
      simp
      exact hx
    · have := ih hnil (fun c hc => h c (by simp [hc]))
      linarith

/-- A power window whose 32 entries are all below the reference divided by
the squared range has its mean below it too. -/
theorem window_mean_low {α : Type} [LinearOrderedField α] (w : Nat → α) (ref : α)
    (h : ∀ c, c < 32 → w c * 16 ^ 2 < ref) :
    window_mean w * ((SIGNAL_POWER_RANGE : Nat) : α) * ((SIGNAL_POWER_RANGE : Nat) : α) < ref := by
  have hR : ((SIGNAL_POWER_RANGE : Nat) : α) = 16 := by
    have : SIGNAL_POWER_RANGE = 16 := rfl
    rw [this]
    norm_num
  rw [hR, window_mean_eq]
  have hsum := sum_lt_of_forall_lt (fun c => w c * 16 ^ 2) ref (List.range 32) (by decide)
    (fun c hc => h c (List.mem_range.1 hc))
  have hmul : ((List.range 32).map fun c => w c * 16 ^ 2).sum =
      ((List.range 32).map w).sum * 16 ^ 2 := by
    rw [List.sum_map_mul_right]
  rw [hmul, List.length_range] at hsum
  push_cast at hsum
  linarith

/-- With monotone division and addition, the value accumulated over the power
window is monotone in the entries of the window. -/
theorem window_mean_mono {α : Type} [Add α] [Div α] [NatCast α] [LE α]
    (hrefl : ∀ a : α, a ≤ a)
    (hdiv : ∀ a b : α, a ≤ b → a / ((32 : Nat) : α) ≤ b / ((32 : Nat) : α))
    (hadd : ∀ a b c d : α, a ≤ b → c ≤ d → a + c ≤ b + d)
    (w w' : Nat → α) (h : ∀ c, c < 32 → w c ≤ w' c) :
    window_mean w ≤ window_mean w' := by
  have hW : POWER_WINDOW = 32 := by decide
  have hfold : ∀ (l : List Nat) (a a' : α), a ≤ a' → (∀ c ∈ l, c < 32) →
      l.foldl (fun acc c => acc + w c / ((32 : Nat) : α)) a ≤
        l.foldl (fun acc c => acc + w' c / ((32 : Nat) : α)) a' := by
    intro l
    induction l with
    | nil => exact fun a a' ha _ => ha
    | cons x l ih =>
      intro a a' ha hl
      rw [List.foldl_cons, List.foldl_cons]
      exact ih _ _ (hadd _ _ _ _ ha (hdiv _ _ (h x (hl x (List.mem_cons_self _ _)))))
        (fun c hc => hl c (List.mem_cons_of_mem _ hc))
  unfold window_mean
  rw [hW]
  exact hfold _ _ _ (hrefl _) (fun c hc => List.mem_range.1 hc)

/-- With monotone arithmetic, a power window whose entries are all at most a
level on which the test of the program passes, passes the test too. -/
theorem window_mean_level {α : Type} [Add α] [Mul α] [Div α] [NatCast α] [LE α] [LT α]
    (hrefl : ∀ a : α, a ≤ a) (hlt : ∀ a b c : α, a ≤ b → b < c → a < c)
    (hdiv : ∀ a b : α, a ≤ b → a / ((32 : Nat) : α) ≤ b / ((32 : Nat) : α))
    (hadd : ∀ a b c d : α, a ≤ b → c ≤ d → a + c ≤ b + d)
    (hmul : ∀ a b : α, a ≤ b → a * ((16 : Nat) : α) ≤ b * ((16 : Nat) : α))
    (w : Nat → α) (level ref : α) (h : ∀ c, c < 32 → w c ≤ level)
    (hlevel : window_mean (fun _ => level) * ((SIGNAL_POWER_RANGE : Nat) : α) *
      ((SIGNAL_POWER_RANGE : Nat) : α) < ref) :
    window_mean w * ((SIGNAL_POWER_RANGE : Nat) : α) * ((SIGNAL_POWER_RANGE : Nat) : α) < ref := by
  have hR : SIGNAL_POWER_RANGE = 16 := rfl
  rw [hR] at hlevel ⊢
  exact hlt _ _ _
    (hmul _ _ (hmul _ _ (window_mean_mono hrefl hdiv hadd w (fun _ => level) h))) hlevel

/-- A call that does not complete the power window returns 0, moves the
window position on by one and keeps `framed` and the reference. -/
theorem process_harmonics_fill {α : Type} [Add α] [Sub α] [Mul α] [Div α] [NatCast α] [LT α]
    [DecidableRel (fun a b : α => a < b)] [DecidableEq α] (sqrt : α → α)
    (harmonics : Nat → α × α) (s : HarmonicsState α) (hf : s.bit_state.framed ≠ 0)
    (hpos : s.power_sq_totals_pos < 31) :
    (process_harmonics sqrt harmonics s).ret = 0 ∧
      (process_harmonics sqrt harmonics s).state.bit_state.framed ≠ 0 ∧
      (process_harmonics sqrt harmonics s).state.ave_signal_power_sq = s.ave_signal_power_sq ∧
      (process_harmonics sqrt harmonics s).state.power_sq_totals_pos =
        s.power_sq_totals_pos + 1 ∧
      (process_harmonics sqrt harmonics s).state.power_sq_totals =
        Function.update s.power_sq_totals s.power_sq_totals_pos (bin_power harmonics) := by
  have hW : POWER_WINDOW = 32 := by decide
  have hne : ¬ eot_fires harmonics s := by
    rintro ⟨h1, -⟩
    rw [hW] at h1
    omega
  obtain ⟨ht, hp, -, hr, hb⟩ := process_harmonics_fields sqrt harmonics s
  refine ⟨(process_harmonics_ret sqrt harmonics s).2 hne, ?_, ?_, ?_, ht⟩
  · rw [hb]
    have := feed_framed (process_harmonics sqrt harmonics s).emitted s.bit_state hf
    unfold feed at this
    rw [this]
    exact hf
  · rw [hr, if_neg]
    rintro ⟨h1, -⟩
    rw [hW] at h1
    omega
  · rw [hp, if_neg hne, if_neg (by rw [hW]; omega)]

/-- The call that completes the power window, in a framed session whose
reference is set, either reports the end of transmission or returns 0 with
the window position back at 0, `framed` and the reference kept. -/
theorem process_harmonics_wrap {α : Type} [Add α] [Sub α] [Mul α] [Div α] [NatCast α] [LT α]
    [DecidableRel (fun a b : α => a < b)] [DecidableEq α] (sqrt : α → α)
    (harmonics : Nat → α × α) (s : HarmonicsState α) (hf : s.bit_state.framed ≠ 0)
    (href : s.ave_signal_power_sq ≠ ((0 : Nat) : α)) (hpos : s.power_sq_totals_pos = 31) :
    (process_harmonics sqrt harmonics s).ret = 1 ∨
      ((process_harmonics sqrt harmonics s).ret = 0 ∧
        (process_harmonics sqrt harmonics s).state.bit_state.framed ≠ 0 ∧
        (process_harmonics sqrt harmonics s).state.ave_signal_power_sq =
          s.ave_signal_power_sq ∧
        (process_harmonics sqrt harmonics s).state.power_sq_totals_pos = 0) := by
  have hW : POWER_WINDOW = 32 := by decide
  by_cases he : eot_fires harmonics s
  · exact Or.inl ((process_harmonics_ret sqrt harmonics s).1 he)
  · right
    obtain ⟨-, hp, -, hr, hb⟩ := process_harmonics_fields sqrt harmonics s
    refine ⟨(process_harmonics_ret sqrt harmonics s).2 he, ?_, ?_, ?_⟩
    · rw [hb]
      have := feed_framed (process_harmonics sqrt harmonics s).emitted s.bit_state hf
      unfold feed at this
      rw [this]
      exact hf
    · rw [hr, if_neg]
      rintro ⟨-, -, h0⟩
      exact href h0
    · rw [hp, if_neg he, if_pos (by rw [hW]; omega)]

/-- From a framed state whose current power window holds only entries at
most the level, spectra of power at most the level make `process_harmonics`
report the end of transmission on the call that completes the window. -/
theorem low_window_stops {α : Type} [Add α] [Sub α] [Mul α] [Div α] [NatCast α] [LE α] [LT α]
    [DecidableRel (fun a b : α => a < b)] [DecidableEq α] (sqrt : α → α)
    (hrefl : ∀ a : α, a ≤ a) (hlt : ∀ a b c : α, a ≤ b → b < c → a < c)
    (hdiv : ∀ a b : α, a ≤ b → a / ((32 : Nat) : α) ≤ b / ((32 : Nat) : α))
    (hadd : ∀ a b c d : α, a ≤ b → c ≤ d → a + c ≤ b + d)
    (hmul : ∀ a b : α, a ≤ b → a * ((16 : Nat) : α) ≤ b * ((16 : Nat) : α))
    (level ref : α)
    (hlevel : window_mean (fun _ => level) * ((SIGNAL_POWER_RANGE : Nat) : α) *
      ((SIGNAL_POWER_RANGE : Nat) : α) < ref) (k : Nat) :
    ∀ (s : HarmonicsState α) (probes : List (Nat → α × α)),
      s.bit_state.framed ≠ 0 → s.ave_signal_power_sq ≠ ((0 : Nat) : α) →
      s.ave_signal_power_sq = ref →
      s.power_sq_totals_pos + (k + 1) = 32 →
      (∀ c, c < s.power_sq_totals_pos → s.power_sq_totals c ≤ level) →
      (∀ h ∈ probes, bin_power h ≤ level) →
      k + 1 ≤ probes.length →
      (run_harmonics sqrt (probes.take (k + 1)) s).2 = true := by
  have hW : POWER_WINDOW = 32 := by decide
  induction k with
  | zero =>
    intro s probes hf href hr hpos hlow hp hlen
    obtain ⟨h, rest, rfl⟩ : ∃ h rest, probes = h :: rest := by
      cases probes with
      | nil => simp at hlen
      | cons h rest => exact ⟨h, rest, rfl⟩
    have he : eot_fires h s := by
      refine ⟨by rw [hW]; omega, hf, href, ?_⟩
      rw [hr]
      apply window_mean_level hrefl hlt hdiv hadd hmul _ level ref _ hlevel
      intro c hc
      by_cases hcp : c = s.power_sq_totals_pos
      · rw [hcp, Function.update_same]
        exact hp h (by simp)
      · rw [Function.update_noteq hcp]
        exact hlow c (by omega)
    have hret := (process_harmonics_ret sqrt h s).1 he
    rw [show List.take (0 + 1) (h :: rest) = h :: List.take 0 rest from rfl,
      run_harmonics_stop sqrt h _ s (by rw [hret]; decide)]
  | succ k ih =>
    intro s probes hf href hr hpos hlow hp hlen
    obtain ⟨h, rest, rfl⟩ : ∃ h rest, probes = h :: rest := by
      cases probes with
      | nil => simp at hlen
      | cons h rest => exact ⟨h, rest, rfl⟩
    obtain ⟨hret, hf', href', hpos', htot'⟩ :=
      process_harmonics_fill sqrt h s hf (by omega)
    rw [show List.take (k + 1 + 1) (h :: rest) = h :: List.take (k + 1) rest from rfl,
      run_harmonics_go sqrt h _ s hret]
    apply ih _ rest hf' (by rw [href']; exact href) (by rw [href']; exact hr)
      (by rw [hpos']; omega)
    · intro c hc
      rw [htot']
      rw [hpos'] at hc
      by_cases hcp : c = s.power_sq_totals_pos
      · rw [hcp, Function.update_same]
        exact hp h (by simp)
      · rw [Function.update_noteq hcp]
        exact hlow c (by omega)
    · intro g hg
      exact hp g (by simp [hg])
    · simpa using hlen

/-- From any framed state whose reference is set, spectra of power at most
the level make `process_harmonics` report the end of transmission at the
latest on the call that completes the window after the current one. -/
theorem any_window_stops {α : Type} [Add α] [Sub α] [Mul α] [Div α] [NatCast α] [LE α] [LT α]
    [DecidableRel (fun a b : α => a < b)] [DecidableEq α] (sqrt : α → α)
    (hrefl : ∀ a : α, a ≤ a) (hlt : ∀ a b c : α, a ≤ b → b < c → a < c)
    (hdiv : ∀ a b : α, a ≤ b → a / ((32 : Nat) : α) ≤ b / ((32 : Nat) : α))
    (hadd : ∀ a b c d : α, a ≤ b → c ≤ d → a + c ≤ b + d)
    (hmul : ∀ a b : α, a ≤ b → a * ((16 : Nat) : α) ≤ b * ((16 : Nat) : α))
    (level ref : α)
    (hlevel : window_mean (fun _ => level) * ((SIGNAL_POWER_RANGE : Nat) : α) *
      ((SIGNAL_POWER_RANGE : Nat) : α) < ref) (k : Nat) :
    ∀ (s : HarmonicsState α) (probes : List (Nat → α × α)),
      s.bit_state.framed ≠ 0 → s.ave_signal_power_sq ≠ ((0 : Nat) : α) →
      s.ave_signal_power_sq = ref →
      s.power_sq_totals_pos + (k + 1) = 32 →
      (∀ h ∈ probes, bin_power h ≤ level) →
      k + 1 + 32 ≤ probes.length →
      (run_harmonics sqrt (probes.take (k + 1 + 32)) s).2 = true := by
  induction k with
  | zero =>
    intro s probes hf href hr hpos hp hlen
    obtain ⟨h, rest, rfl⟩ : ∃ h rest, probes = h :: rest := by
      cases probes with
      | nil => simp at hlen
      | cons h rest => exact ⟨h, rest, rfl⟩
    rw [show List.take (0 + 1 + 32) (h :: rest) = h :: List.take 32 rest from rfl]
    rcases process_harmonics_wrap sqrt h s hf href (by omega) with
      hret | ⟨hret, hf', href', hpos'⟩
    · rw [run_harmonics_stop sqrt h _ s (by rw [hret]; decide)]
    · rw [run_harmonics_go sqrt h _ s hret]
      apply low_window_stops sqrt hrefl hlt hdiv hadd hmul level ref hlevel 31 _ rest hf'
        (by rw [href']; exact href) (by rw [href']; exact hr) (by rw [hpos'])
      · intro c hc
        rw [hpos'] at hc
        omega
      · intro g hg
        exact hp g (by simp [hg])
      · simp at hlen
        omega
  | succ k ih =>
    intro s probes hf href hr hpos hp hlen
    obtain ⟨h, rest, rfl⟩ : ∃ h rest, probes = h :: rest := by
      cases probes with
      | nil => simp at hlen
      | cons h rest => exact ⟨h, rest, rfl⟩
    obtain ⟨hret, hf', href', hpos', -⟩ :=
      process_harmonics_fill sqrt h s hf (by omega)
    rw [show List.take (k + 1 + 1 + 32) (h :: rest) = h :: List.take (k + 1 + 32) rest from rfl,
      run_harmonics_go sqrt h _ s hret]
    apply ih _ rest hf' (by rw [href']; exact href) (by rw [href']; exact hr)
      (by rw [hpos']; omega)
    · intro g hg
      exact hp g (by simp [hg])
    · simp at hlen
      omega

theorem run_harmonics_take_mono {α : Type} [Add α] [Sub α] [Mul α] [Div α] [NatCast α]
    [LT α] [DecidableRel (fun a b : α => a < b)] [DecidableEq α] (sqrt : α → α)
    (probes : List (Nat → α × α)) (s : HarmonicsState α) (a b : Nat) (hab : a ≤ b)
    (h : (run_harmonics sqrt (probes.take a) s).2 = true) :
    (run_harmonics sqrt (probes.take b) s).2 = true := by
  obtain ⟨d, rfl⟩ : ∃ d, b = a + d := ⟨b - a, by omega⟩
  rw [List.take_add, run_harmonics_append, if_pos h]
  exact h

/-- C17, amended. Let the order and the arithmetic on `double` have what the
test uses: `a <= a`, `a <= b < c` gives `a < c`, and division by 32, addition
and multiplication by 16 are monotone (so it is with the doubles of IEEE 754
rounded to nearest: `binary64_div_mono`, `binary64_add_mono`,
`binary64_mul_mono`).  In a framed session whose reference is set, if every
probe from probe `t` on has a power at most a level on which the test of the
program passes (the value accumulated over a window of 32 entries equal to the
level, times 16 times 16, is below the reference), then `process_harmonics`
reports the end of transmission within `2N - 1 = 63` probes from `t` (on the
call that completes the window after the current one, at the latest), and
within `N = 32` probes when the power window is at position 0 at `t`. -/
theorem eot_latency {α : Type} [Add α] [Sub α] [Mul α] [Div α] [NatCast α] [LE α] [LT α]
    [DecidableRel (fun a b : α => a < b)] [DecidableEq α] (sqrt : α → α)
    (hrefl : ∀ a : α, a ≤ a) (hlt : ∀ a b c : α, a ≤ b → b < c → a < c)
    (hdiv : ∀ a b : α, a ≤ b → a / ((32 : Nat) : α) ≤ b / ((32 : Nat) : α))
    (hadd : ∀ a b c d : α, a ≤ b → c ≤ d → a + c ≤ b + d)
    (hmul : ∀ a b : α, a ≤ b → a * ((16 : Nat) : α) ≤ b * ((16 : Nat) : α))
    (s : HarmonicsState α) (probes : List (Nat → α × α)) (level : α)
    (hf : s.bit_state.framed ≠ 0) (href : s.ave_signal_power_sq ≠ ((0 : Nat) : α))
    (hpos : s.power_sq_totals_pos < 32)
    (hlevel : (List.range 32).foldl (fun acc _ => acc + level / ((32 : Nat) : α))
        ((0 : Nat) : α) * ((16 : Nat) : α) * ((16 : Nat) : α) < s.ave_signal_power_sq)
    (hlow : ∀ h ∈ probes, bin_power h ≤ level)
    (hlen : 63 ≤ probes.length) :
    (run_harmonics sqrt (probes.take 63) s).2 = true ∧
      (s.power_sq_totals_pos = 0 → (run_harmonics sqrt (probes.take 32) s).2 = true) := by
  have hlevel' : window_mean (fun _ => level) * ((SIGNAL_POWER_RANGE : Nat) : α) *
      ((SIGNAL_POWER_RANGE : Nat) : α) < s.ave_signal_power_sq := hlevel
  have h0 : s.power_sq_totals_pos = 0 → (run_harmonics sqrt (probes.take 32) s).2 = true := by
    intro hz
    exact low_window_stops sqrt hrefl hlt hdiv hadd hmul level _ hlevel' 31 s probes hf href rfl
      (by omega) (fun c hc => by omega) hlow (by omega)
  refine ⟨?_, h0⟩
  by_cases hz : s.power_sq_totals_pos = 0
  · exact run_harmonics_take_mono sqrt probes s 32 63 (by omega) (h0 hz)
  · obtain ⟨k, hk⟩ : ∃ k, s.power_sq_totals_pos + (k + 1) = 32 :=
      ⟨31 - s.power_sq_totals_pos, by omega⟩
    exact run_harmonics_take_mono sqrt probes s (k + 1 + 32) 63 (by omega)
      (any_window_stops sqrt hrefl hlt hdiv hadd hmul level _ hlevel' k s probes hf href rfl hk hlow
        (by omega))

set_option maxRecDepth 100000 in
theorem eot_latency_witness :
    quiet_state.bit_state.framed ≠ 0 ∧
      quiet_state.ave_signal_power_sq ≠ ((0 : Nat) : Binary64) ∧
      quiet_state.power_sq_totals_pos < 32 ∧
      (List.range 32).foldl (fun acc _ => acc + quiet_level / ((32 : Nat) : Binary64))
          ((0 : Nat) : Binary64) * ((16 : Nat) : Binary64) * ((16 : Nat) : Binary64) <
        quiet_state.ave_signal_power_sq ∧
      bin_power quiet_tone ≤ quiet_level ∧
      (run_harmonics (fun x => x) ((List.replicate 63 quiet_tone).take 63) quiet_state).2 = true :=
  ⟨by decide, by decide, by decide, by decide, by decide,
    (eot_latency (fun x => x) binary64_le_refl binary64_lt_of_le_of_lt binary64_div_mono
      binary64_add_mono binary64_mul_mono quiet_state (List.replicate 63 quiet_tone) quiet_level
      (by decide) (by decide) (by decide) (by decide)
      (fun h hh => by rw [List.eq_of_mem_replicate hh]; decide)
      (by rw [List.length_replicate])).1⟩

set_option maxRecDepth 1000000 in
/-- C17, as stated, fails: after 122 probes of the zero tone and 150 of the
one tone (integer spectra on which every division of the program is exact)
the session is framed, the reference is 64 and the power window is at position
16; silence from then on has power 0, yet no end of transmission is reported
in the next 32 probes, nor in the next 47: it comes on probe 48. -/
theorem eot_latency_counterexample :
    (run_harmonics int_sqrt (List.replicate 122 tone_zero ++ List.replicate 150 tone_one)
        HarmonicsState.init).2 = false ∧
      (run_harmonics int_sqrt (List.replicate 122 tone_zero ++ List.replicate 150 tone_one)
        HarmonicsState.init).1.bit_state.framed = 1 ∧
      (run_harmonics int_sqrt (List.replicate 122 tone_zero ++ List.replicate 150 tone_one)
        HarmonicsState.init).1.ave_signal_power_sq = 64 ∧
      (run_harmonics int_sqrt (List.replicate 122 tone_zero ++ List.replicate 150 tone_one)
        HarmonicsState.init).1.power_sq_totals_pos = 16 ∧
      bin_power silence * 16 * 16 < 64 ∧
      (run_harmonics int_sqrt (List.replicate 32 silence)
        (run_harmonics int_sqrt (List.replicate 122 tone_zero ++ List.replicate 150 tone_one)
          HarmonicsState.init).1).2 = false ∧
      (run_harmonics int_sqrt (List.replicate 47 silence)
        (run_harmonics int_sqrt (List.replicate 122 tone_zero ++ List.replicate 150 tone_one)
          HarmonicsState.init).1).2 = false ∧
      (run_harmonics int_sqrt (List.replicate 48 silence)
        (run_harmonics int_sqrt (List.replicate 122 tone_zero ++ List.replicate 150 tone_one)
          HarmonicsState.init).1).2 = true := by
  decide

/-! ## Silence, the symbol clock and the discipline of emissions -/

/-- What a call of `process_harmonics` emits and what it leaves in the symbol,
the counter and `power_diffs`, by cases. -/
theorem process_harmonics_cases {α : Type} [Add α] [Sub α] [Mul α] [Div α] [NatCast α] [LT α]
    [DecidableRel (fun a b : α => a < b)] [DecidableEq α] (sqrt : α → α)
    (harmonics : Nat → α × α) (s : HarmonicsState α) :
    (eot_fires harmonics s →
        (process_harmonics sqrt harmonics s).ret = 1 ∧
        (process_harmonics sqrt harmonics s).emitted = [] ∧
        (process_harmonics sqrt harmonics s).state.current_symbol = s.current_symbol ∧
        (process_harmonics sqrt harmonics s).state.sample_count = s.sample_count ∧
        (process_harmonics sqrt harmonics s).state.power_diffs = s.power_diffs) ∧
      (¬ eot_fires harmonics s →
        (process_harmonics sqrt harmonics s).ret = 0 ∧
        (process_harmonics sqrt harmonics s).state.power_diffs =
          Function.update s.power_diffs s.power_diffs_start (bin_diff sqrt harmonics) ∧
        (sign_flip sqrt harmonics s →
          (process_harmonics sqrt harmonics s).emitted = [lnot s.current_symbol] ∧
          (process_harmonics sqrt harmonics s).state.current_symbol = lnot s.current_symbol ∧
          (process_harmonics sqrt harmonics s).state.sample_count = 0) ∧
        (¬ sign_flip sqrt harmonics s →
          (process_harmonics sqrt harmonics s).state.current_symbol = s.current_symbol ∧
          (s.sample_count + 1 > 24 →
            (process_harmonics sqrt harmonics s).emitted = [s.current_symbol] ∧
            (process_harmonics sqrt harmonics s).state.sample_count = s.sample_count + 1 - 16) ∧
          (¬ s.sample_count + 1 > 24 →
            (process_harmonics sqrt harmonics s).emitted = [] ∧
            (process_harmonics sqrt harmonics s).state.sample_count = s.sample_count + 1))) := by
  obtain ⟨h1, h2⟩ := process_harmonics_rules sqrt harmonics s
  constructor
  · intro he
    obtain ⟨a, b, c, d⟩ := h1 he
    refine ⟨a, b, c, d, ?_⟩
    rw [process_harmonics_eot sqrt harmonics s he]
  · intro he
    obtain ⟨a, r1, r2⟩ := h2 he
    have hpd : (process_harmonics sqrt harmonics s).state.power_diffs =
        Function.update s.power_diffs s.power_diffs_start (bin_diff sqrt harmonics) := by
      rw [process_harmonics_cont sqrt harmonics s he]
      exact (symbol_step_spec sqrt harmonics (after_power harmonics s)).2.2.2.2.2.1
    refine ⟨a, hpd, ?_, ?_⟩
    · intro hf
      rcases hf with hf | hf
      · obtain ⟨x, y, z⟩ := r1 hf
        rw [hf.1]
        exact ⟨x, y, z⟩
      · have hn : ¬ (s.current_symbol = 1 ∧ ((0 : Nat) : α) <
            diff_mean (Function.update s.power_diffs s.power_diffs_start
              (bin_diff sqrt harmonics))) := by
          rintro ⟨h1', -⟩
          rw [hf.1] at h1'
          exact absurd h1' (by decide)
        obtain ⟨x, y, z⟩ := (r2 hn).1 hf
        rw [hf.1]
        exact ⟨x, y, z⟩
    · intro hf
      have hn1 : ¬ (s.current_symbol = 1 ∧ ((0 : Nat) : α) <
          diff_mean (Function.update s.power_diffs s.power_diffs_start
            (bin_diff sqrt harmonics))) := fun hh => hf (Or.inl hh)
      have hn2 : ¬ (s.current_symbol = 0 ∧
          diff_mean (Function.update s.power_diffs s.power_diffs_start
            (bin_diff sqrt harmonics)) < ((0 : Nat) : α)) := fun hh => hf (Or.inr hh)
      obtain ⟨r5, r6⟩ := (r2 hn1).2 hn2
      refine ⟨?_, fun c3 => ⟨(r5 c3).1, (r5 c3).2.2⟩, fun c3 => ⟨(r6 c3).1, (r6 c3).2.2⟩⟩
      by_cases c3 : s.sample_count + 1 > 24
      · exact (r5 c3).2.1
      · exact (r6 c3).2.1

theorem diff_mean_zero {α : Type} [LinearOrderedField α] (pd : Nat → α)
    (h : ∀ i, pd i = 0) : diff_mean pd = 0 := by
  unfold diff_mean
  rw [foldl_add_eq_sum]
  have : (List.range (DEFAULT_SYMBOL_LENGTH / 2)).map pd =
      (List.range (DEFAULT_SYMBOL_LENGTH / 2)).map (fun _ => (0 : α)) :=
    List.map_congr_left (fun i _ => h i)
  rw [this]
  simp

/-- A probe of silence, made before framing with the symbol at 1 and
`power_diffs` all zero, returns 0, emits nothing or a 1, and leaves the framer
in its initial state. -/
theorem silent_probe {α : Type} [LinearOrderedField α] (sqrt : α → α)
    (h : Nat → α × α) (hz : h 1 = (0, 0) ∧ h 2 = (0, 0)) (s : HarmonicsState α)
    (hs : s.bit_state = BitState.init ∧ s.current_symbol = 1 ∧ ∀ i, s.power_diffs i = 0) :
    (process_harmonics sqrt h s).ret = 0 ∧
      ((process_harmonics sqrt h s).emitted = [] ∨ (process_harmonics sqrt h s).emitted = [1]) ∧
      (process_harmonics sqrt h s).state.bit_state = BitState.init ∧
      (process_harmonics sqrt h s).state.current_symbol = 1 ∧
      ∀ i, (process_harmonics sqrt h s).state.power_diffs i = 0 := by
  obtain ⟨hb, hc, hp⟩ := hs
  have hne : ¬ eot_fires h s := by
    rintro ⟨-, hf, -⟩
    rw [hb] at hf
    exact hf rfl
  have hd : bin_diff sqrt h = 0 := by
    unfold bin_diff
    rw [hz.1, hz.2]
    simp
  have hupd : ∀ i, Function.update s.power_diffs s.power_diffs_start (bin_diff sqrt h) i = 0 := by
    intro i
    rw [hd]
    by_cases hi : i = s.power_diffs_start
    · rw [hi, Function.update_same]
    · rw [Function.update_noteq hi, hp]
  have hnf : ¬ sign_flip sqrt h s := by
    unfold sign_flip smoothed_diff
    rw [diff_mean_zero _ hupd, hc]
    simp
  obtain ⟨hret, hpd, -, hrest⟩ := (process_harmonics_cases sqrt h s).2 hne
  obtain ⟨hcs, ht, hnt⟩ := hrest hnf
  obtain ⟨-, -, -, -, hbs⟩ := process_harmonics_fields sqrt h s
  have hone : process_bit 1 BitState.init = BitState.init := by decide
  refine ⟨hret, ?_, ?_, by rw [hcs, hc], fun i => by rw [hpd]; exact hupd i⟩
  · by_cases c3 : s.sample_count + 1 > 24
    · exact Or.inr (by rw [(ht c3).1, hc])
    · exact Or.inl (hnt c3).1
  · rw [hbs, hb]
    by_cases c3 : s.sample_count + 1 > 24
    · rw [(ht c3).1, hc]
      exact hone
    · rw [(hnt c3).1]
      rfl

theorem silent_run {α : Type} [LinearOrderedField α] (sqrt : α → α)
    (probes : List (Nat → α × α)) (hz : ∀ h ∈ probes, h 1 = (0, 0) ∧ h 2 = (0, 0))
    (s : HarmonicsState α)
    (hs : s.bit_state = BitState.init ∧ s.current_symbol = 1 ∧ ∀ i, s.power_diffs i = 0) :
    (run_harmonics sqrt probes s).2 = false ∧
      (run_harmonics sqrt probes s).1.bit_state = BitState.init ∧
      ∀ b ∈ bits_emitted sqrt probes s, b = 1 := by
  induction probes generalizing s with
  | nil => exact ⟨rfl, hs.1, fun b hb => by simp [bits_emitted] at hb⟩
  | cons h rest ih =>
    obtain ⟨hret, hem, hrest⟩ := silent_probe sqrt h (hz h (List.mem_cons_self _ _)) s hs
    obtain ⟨i1, i2, i3⟩ := ih (fun g hg => hz g (List.mem_cons_of_mem _ hg)) _ hrest
    rw [run_harmonics_go sqrt h rest s hret]
    refine ⟨i1, i2, ?_⟩
    intro b hb
    rw [bits_emitted, if_neg (by rw [hret]; decide), List.mem_append] at hb
    rcases hb with hb | hb
    · rcases hem with hem | hem
      · rw [hem] at hb
        simp at hb
      · rw [hem] at hb
        simpa using hb
    · exact i3 b hb

/-- C21. Silence never frames, in exact arithmetic: for every sequence of
spectra whose bins 1 and 2 are all zero, fed to `process_harmonics` from the
initial state, no call reports the end of transmission, `framed` stays 0 and
no byte is written; every bit the discriminator emits on the way is a 1 (by
the timeout rule), which the framer, still waiting for zeros, discards. -/
theorem silence_never_frames {α : Type} [LinearOrderedField α] (sqrt : α → α)
    (probes : List (Nat → α × α)) (hz : ∀ h ∈ probes, h 1 = (0, 0) ∧ h 2 = (0, 0)) :
    (run_harmonics sqrt probes HarmonicsState.init).2 = false ∧
      (run_harmonics sqrt probes HarmonicsState.init).1.bit_state.framed = 0 ∧
      (run_harmonics sqrt probes HarmonicsState.init).1.bit_state.out = [] ∧
      ∀ b ∈ bits_emitted sqrt probes HarmonicsState.init, b = 1 := by
  obtain ⟨h1, h2, h3⟩ := silent_run sqrt probes hz HarmonicsState.init
    ⟨rfl, rfl, fun _ => by simp [HarmonicsState.init]⟩
  rw [h2]
  exact ⟨h1, rfl, rfl, h3⟩

theorem silence_never_frames_witness :
    (∀ h ∈ List.replicate 100 (fun _ : Nat => ((0 : ℚ), (0 : ℚ))), h 1 = (0, 0) ∧ h 2 = (0, 0)) ∧
      (run_harmonics (fun x : ℚ => x) (List.replicate 100 (fun _ : Nat => ((0 : ℚ), (0 : ℚ))))
        HarmonicsState.init).2 = false ∧
      (run_harmonics (fun x : ℚ => x) (List.replicate 100 (fun _ : Nat => ((0 : ℚ), (0 : ℚ))))
        HarmonicsState.init).1.bit_state.framed = 0 :=
  ⟨fun h hh => by rw [List.eq_of_mem_replicate hh]; exact ⟨rfl, rfl⟩,
    (silence_never_frames (fun x : ℚ => x) (List.replicate 100 (fun _ : Nat => ((0 : ℚ), (0 : ℚ))))
      (fun h hh => by rw [List.eq_of_mem_replicate hh]; exact ⟨rfl, rfl⟩)).1,
    (silence_never_frames (fun x : ℚ => x) (List.replicate 100 (fun _ : Nat => ((0 : ℚ), (0 : ℚ))))
      (fun h hh => by rw [List.eq_of_mem_replicate hh]; exact ⟨rfl, rfl⟩)).2.1⟩

/-- With no sign flip and no end of transmission, the counter alone decides
the emissions: from a counter at `k` the call number `j` (from 0) emits the
symbol exactly when `k + j` is 24, 40, 56, ... -/
theorem clock_run {α : Type} [Add α] [Sub α] [Mul α] [Div α] [NatCast α] [LT α]
    [DecidableRel (fun a b : α => a < b)] [DecidableEq α] (sqrt : α → α)
    (later : List (Nat → α × α)) (s : HarmonicsState α) (k : Nat)
    (hk : s.sample_count = (k : Int) ∧ k ≤ 24)
    (hlog : ∀ e ∈ probe_log sqrt later s, e.flip = false ∧ e.ret = 0) :
    (probe_log sqrt later s).map (fun e => e.emitted) =
      (List.range later.length).map fun j =>
        if 24 ≤ k + j ∧ (k + j - 24) % 16 = 0 then [s.current_symbol] else [] := by
  induction later generalizing s k with
  | nil => rfl
  | cons h rest ih =>
    obtain ⟨hk1, hk2⟩ := hk
    have hhead := hlog _ (List.mem_cons_self _ _)
    simp only [decide_eq_false_iff_not] at hhead
    obtain ⟨hnf, hret⟩ := hhead
    have hne : ¬ eot_fires h s := by
      intro he
      rw [(process_harmonics_ret sqrt h s).1 he] at hret
      exact absurd hret (by decide)
    obtain ⟨-, -, -, hrest⟩ := (process_harmonics_cases sqrt h s).2 hne
    obtain ⟨hcs, ht, hnt⟩ := hrest hnf
    have htail : ∀ e ∈ probe_log sqrt rest (process_harmonics sqrt h s).state,
        e.flip = false ∧ e.ret = 0 := by
      intro e he
      apply hlog
      rw [probe_log, if_neg (by rw [hret]; decide)]
      exact List.mem_cons_of_mem _ he
    rw [probe_log, if_neg (by rw [hret]; decide), List.map_cons, List.length_cons,
      List.range_succ_eq_map, List.map_cons, List.map_map]
    by_cases c3 : s.sample_count + 1 > 24
    · have hk24 : k = 24 := by omega
      have := ih (process_harmonics sqrt h s).state 9
        ⟨by rw [(ht c3).2, hk1, hk24]; rfl, by omega⟩ htail
      rw [this, (ht c3).1, hcs, hk24]
      congr 1
      apply List.map_congr_left
      intro j _
      have hiff : (24 ≤ 9 + j ∧ (9 + j - 24) % 16 = 0) ↔
          (24 ≤ 24 + (j + 1) ∧ (24 + (j + 1) - 24) % 16 = 0) := by omega
      simp only [Function.comp, hiff]
    · have hklt : k < 24 := by omega
      have := ih (process_harmonics sqrt h s).state (k + 1)
        ⟨by rw [(hnt c3).2, hk1]; push_cast; ring, by omega⟩ htail
      rw [this, (hnt c3).1, hcs]
      congr 1
      · rw [if_neg (by omega)]
      · apply List.map_congr_left
        intro j _
        have hiff : (24 ≤ k + 1 + j ∧ (k + 1 + j - 24) % 16 = 0) ↔
            (24 ≤ k + (j + 1) ∧ (k + (j + 1) - 24) % 16 = 0) := by
          have : k + 1 + j = k + (j + 1) := by ring
          rw [this]
        simp only [Function.comp, hiff]

/-- C26, amended. If the call at probe `t` emits by a sign flip, and every
later call made returns 0 (does not report the end of transmission) with a
smoothed difference that does not have the flipping sign, then the later calls
emit the symbol again exactly at probes `t + 25, t + 41, t + 57, ..` (call
`j`, counted from 0 after `t`, emits iff `j + 1 >= 25` and 16 divides
`j + 1 - 25`) and emit nothing at the other probes. -/
theorem symbol_clock {α : Type} [Add α] [Sub α] [Mul α] [Div α] [NatCast α] [LT α]
    [DecidableRel (fun a b : α => a < b)] [DecidableEq α] (sqrt : α → α)
    (s : HarmonicsState α) (h : Nat → α × α) (later : List (Nat → α × α))
    (hflip : ¬ eot_fires h s ∧ sign_flip sqrt h s)
    (hlater : ∀ e ∈ probe_log sqrt later (process_harmonics sqrt h s).state,
      e.flip = false ∧ e.ret = 0) :
    (process_harmonics sqrt h s).emitted =
        [(process_harmonics sqrt h s).state.current_symbol] ∧
      (probe_log sqrt later (process_harmonics sqrt h s).state).map (fun e => e.emitted) =
        (List.range later.length).map fun j =>
          if 25 ≤ j + 1 ∧ (j + 1 - 25) % 16 = 0 then
            [(process_harmonics sqrt h s).state.current_symbol]
          else [] := by
  obtain ⟨-, -, hf, -⟩ := (process_harmonics_cases sqrt h s).2 hflip.1
  obtain ⟨he, hc, hs⟩ := hf hflip.2
  refine ⟨by rw [he, hc], ?_⟩
  rw [clock_run sqrt later _ 0 ⟨by rw [hs]; rfl, by omega⟩ hlater]
  apply List.map_congr_left
  intro j _
  have hiff : (24 ≤ 0 + j ∧ (0 + j - 24) % 16 = 0) ↔ (25 ≤ j + 1 ∧ (j + 1 - 25) % 16 = 0) := by
    omega
  simp only [hiff]

set_option maxRecDepth 1000000 in
theorem symbol_clock_witness :
    (¬ eot_fires tone_zero (HarmonicsState.init : HarmonicsState Int) ∧
        sign_flip int_sqrt tone_zero HarmonicsState.init) ∧
      (probe_log int_sqrt (List.replicate 41 tone_zero)
          (process_harmonics int_sqrt tone_zero HarmonicsState.init).state).map
          (fun e => e.emitted) =
        (List.range (List.replicate 41 tone_zero).length).map fun j =>
          if 25 ≤ j + 1 ∧ (j + 1 - 25) % 16 = 0 then
            [(process_harmonics int_sqrt tone_zero HarmonicsState.init).state.current_symbol]
          else [] :=
  ⟨by decide,
    (symbol_clock int_sqrt HarmonicsState.init tone_zero (List.replicate 41 tone_zero)
      (by decide) (by decide)).2⟩

set_option maxRecDepth 1000000 in
/-- C26, as stated, fails: in the session of 130 probes of the zero tone, 158
of the one tone and 32 of silence, the call at probe `t = 135` emits 1 by a
sign flip, no later probe has the flipping sign, and the call at probe
`t + 185 = t + 25 + 16 * 10` emits nothing: it reports the end of transmission
(returns 1) before the symbol rules are reached. -/
theorem symbol_clock_counterexample :
    (run_harmonics int_sqrt (List.replicate 130 tone_zero ++ List.replicate 4 tone_one)
        HarmonicsState.init).2 = false ∧
      sign_flip int_sqrt tone_one
        (run_harmonics int_sqrt (List.replicate 130 tone_zero ++ List.replicate 4 tone_one)
          HarmonicsState.init).1 ∧
      (process_harmonics int_sqrt tone_one
        (run_harmonics int_sqrt (List.replicate 130 tone_zero ++ List.replicate 4 tone_one)
          HarmonicsState.init).1).emitted = [1] ∧
      (∀ e ∈ probe_log int_sqrt (List.replicate 153 tone_one ++ List.replicate 32 silence)
          (process_harmonics int_sqrt tone_one
            (run_harmonics int_sqrt (List.replicate 130 tone_zero ++ List.replicate 4 tone_one)
              HarmonicsState.init).1).state, e.flip = false) ∧
      (probe_log int_sqrt (List.replicate 153 tone_one ++ List.replicate 32 silence)
          (process_harmonics int_sqrt tone_one
            (run_harmonics int_sqrt (List.replicate 130 tone_zero ++ List.replicate 4 tone_one)
              HarmonicsState.init).1).state)[184]? =
        some { flip := false, emitted := [], ret := 1 } ∧
      184 + 1 = 25 + 16 * 10 := by
  decide

theorem lnot_bit (c : Int) (h : c = 0 ∨ c = 1) :
    (lnot c = 0 ∨ lnot c = 1) ∧ lnot c = 1 - c ∧ lnot c ≠ c := by
  rcases h with rfl | rfl <;> decide

/-- Along a run the symbol is the last bit emitted (1 while nothing has been
emitted), and it is 0 or 1. -/
theorem run_symbol_inv {α : Type} [Add α] [Sub α] [Mul α] [Div α] [NatCast α] [LT α]
    [DecidableRel (fun a b : α => a < b)] [DecidableEq α] (sqrt : α → α)
    (probes : List (Nat → α × α)) (s : HarmonicsState α) (bits : List Int)
    (hs : s.current_symbol = bits.getLast?.getD 1 ∧ (s.current_symbol = 0 ∨ s.current_symbol = 1)) :
    (run_harmonics sqrt probes s).1.current_symbol =
        (bits ++ bits_emitted sqrt probes s).getLast?.getD 1 ∧
      ((run_harmonics sqrt probes s).1.current_symbol = 0 ∨
        (run_harmonics sqrt probes s).1.current_symbol = 1) := by
  induction probes generalizing s bits with
  | nil => simpa [run_harmonics, bits_emitted] using hs
  | cons h rest ih =>
    obtain ⟨h1, h2⟩ := process_harmonics_cases sqrt h s
    by_cases he : eot_fires h s
    · obtain ⟨hret, hem, hcs, -, -⟩ := h1 he
      rw [run_harmonics_stop sqrt h rest s (by rw [hret]; decide), bits_emitted,
        if_pos (by rw [hret]; decide), hem, List.append_nil]
      simp only
      rw [hcs]
      exact hs
    · obtain ⟨hret, -, hf, hnf⟩ := h2 he
      rw [run_harmonics_go sqrt h rest s hret, bits_emitted, if_neg (by rw [hret]; decide),
        ← List.append_assoc]
      apply ih
      by_cases hflip : sign_flip sqrt h s
      · obtain ⟨hem, hcs, -⟩ := hf hflip
        rw [hem, hcs]
        exact ⟨by simp, (lnot_bit _ hs.2).1⟩
      · obtain ⟨hcs, ht, hnt⟩ := hnf hflip
        rw [hcs]
        by_cases c3 : s.sample_count + 1 > 24
        · rw [(ht c3).1]
          exact ⟨by simp, hs.2⟩
        · rw [(hnt c3).1, List.append_nil]
          exact hs

/-- C27. Emission discipline: after any run from the initial state, a call of
`process_harmonics` passes at most one bit to `process_bit`; a bit it emits is
0 or 1 and is the value `current_symbol` has afterwards; a bit emitted when
the smoothed difference has the flipping sign is the complement of the bit
emitted last before (0 when nothing was emitted before); a bit equal to the
bit emitted last before is emitted by the timeout rule (no flipping sign,
counter above 24). -/
theorem emission_discipline {α : Type} [Add α] [Sub α] [Mul α] [Div α] [NatCast α] [LT α]
    [DecidableRel (fun a b : α => a < b)] [DecidableEq α] (sqrt : α → α)
    (earlier : List (Nat → α × α)) (h : Nat → α × α) :
    (process_harmonics sqrt h (run_harmonics sqrt earlier HarmonicsState.init).1).emitted.length
        ≤ 1 ∧
      (∀ b,
        (process_harmonics sqrt h (run_harmonics sqrt earlier HarmonicsState.init).1).emitted
          = [b] →
        (b = 0 ∨ b = 1) ∧
        (process_harmonics sqrt h
          (run_harmonics sqrt earlier HarmonicsState.init).1).state.current_symbol = b ∧
        (sign_flip sqrt h (run_harmonics sqrt earlier HarmonicsState.init).1 →
          b = match (bits_emitted sqrt earlier HarmonicsState.init).getLast? with
              | none => 0
              | some p => 1 - p) ∧
        ((bits_emitted sqrt earlier HarmonicsState.init).getLast? = some b →
          ¬ sign_flip sqrt h (run_harmonics sqrt earlier HarmonicsState.init).1 ∧
          (run_harmonics sqrt earlier HarmonicsState.init).1.sample_count + 1 > 24)) := by
  obtain ⟨hlast, hbit⟩ := run_symbol_inv sqrt earlier HarmonicsState.init []
    ⟨rfl, Or.inr rfl⟩
  rw [List.nil_append] at hlast
  generalize (run_harmonics sqrt earlier HarmonicsState.init).1 = s at hlast hbit ⊢
  generalize bits_emitted sqrt earlier HarmonicsState.init = bits at hlast ⊢
  obtain ⟨h1, h2⟩ := process_harmonics_cases sqrt h s
  by_cases he : eot_fires h s
  · obtain ⟨-, hem, -⟩ := h1 he
    rw [hem]
    exact ⟨by simp, fun b hb => by simp at hb⟩
  · obtain ⟨-, -, hf, hnf⟩ := h2 he
    by_cases hflip : sign_flip sqrt h s
    · obtain ⟨hem, hcs, -⟩ := hf hflip
      obtain ⟨l1, l2, l3⟩ := lnot_bit _ hbit
      rw [hem, hcs]
      refine ⟨by simp, ?_⟩
      intro b hb
      obtain rfl : lnot s.current_symbol = b := by simpa using hb
      refine ⟨l1, rfl, fun _ => ?_, fun hl => ?_⟩
      · rw [l2, hlast]
        cases bits.getLast? <;> rfl
      · rw [hl] at hlast
        exact absurd hlast.symm l3
    · obtain ⟨hcs, ht, hnt⟩ := hnf hflip
      by_cases c3 : s.sample_count + 1 > 24
      · rw [(ht c3).1, hcs]
        refine ⟨by simp, ?_⟩
        intro b hb
        obtain rfl : s.current_symbol = b := by simpa using hb
        exact ⟨hbit, rfl, fun hh => absurd hh hflip, fun _ => ⟨hflip, c3⟩⟩
      · rw [(hnt c3).1]
        exact ⟨by simp, fun b hb => by simp at hb⟩

/-! ## The state of the sliding audio buffer -/

theorem bufshape_init {σ α : Type} (read_samples : σ → Nat → ReadResult σ α)
    (hread : ∀ src n, 0 ≤ (read_samples src n).count ∧ (read_samples src n).count ≤ (n : Int))
    (in_file : σ) : BufShape (init_audio_buffer read_samples in_file).1 := by
  have hB : AUDIO_BUFFER_SIZE = 4096 := rfl
  obtain ⟨h0, h1⟩ := hread in_file 4096
  have hle : to_size (read_samples in_file 4096).count ≤ 4096 := by
    unfold to_size
    omega
  simp only [BufShape, init_audio_buffer, hB]
  refine ⟨by decide, hle, Or.inl trivial, by decide, ?_⟩
  intro he
  by_contra hne
  rw [if_pos hne] at he
  exact absurd he (by decide)

theorem bufshape_refill {σ α : Type} (read_samples : σ → Nat → ReadResult σ α)
    (hread : ∀ src n, 0 ≤ (read_samples src n).count ∧ (read_samples src n).count ≤ (n : Int))
    (x : AudioState α × σ) (h : BufShape x.1) (he : x.1.audio_eof = 0) :
    BufShape (refill read_samples x).1 := by
  have hB : AUDIO_BUFFER_SIZE = 4096 := rfl
  have h2048 : AUDIO_BUFFER_SIZE / 2 = 2048 := by decide
  obtain ⟨h0, h1⟩ := hread x.2 2048
  unfold BufShape at h ⊢
  rw [h2048, hB] at h ⊢
  obtain ⟨ho, hl, hs, hp, hfull⟩ := h
  have hlen := hfull he
  rw [refill_eq]
  simp only
  refine ⟨by omega, ?_, ?_, ?_, ?_⟩
  · split
    · rw [hlen]
      unfold to_size
      omega
    · exact hl
  · rcases hs with hs | hs <;> simp [hs]
  · rcases hs with hs | hs
    · rw [hs] at hp
      rw [if_neg (by rw [hs]; decide)]
      omega
    · rw [hs] at hp
      rw [if_pos hs]
      omega
  · intro he'
    split at he'
    · exact absurd he' (by decide)
    · rename_i hc
      rw [if_neg hc]
      exact hlen

theorem bufshape_loop {σ α : Type} (read_samples : σ → Nat → ReadResult σ α)
    (hread : ∀ src n, 0 ≤ (read_samples src n).count ∧ (read_samples src n).count ≤ (n : Int))
    (offset length fuel : Nat) (x : AudioState α × σ) (h : BufShape x.1) :
    BufShape (refill_loop read_samples offset length fuel x).1 ∧
      x.1.audio_buffer_offset ≤
        (refill_loop read_samples offset length fuel x).1.audio_buffer_offset ∧
      (x.1.audio_eof ≠ 0 → (refill_loop read_samples offset length fuel x).1.audio_eof ≠ 0) := by
  induction fuel generalizing x with
  | zero => exact ⟨h, le_refl _, fun he => he⟩
  | succ fuel ih =>
    unfold refill_loop
    split
    · rename_i hc
      obtain ⟨i1, i2, -⟩ := ih (refill read_samples x) (bufshape_refill read_samples hread x h hc.1)
      rw [(refill_offset read_samples x).1] at i2
      exact ⟨i1, by omega, fun he => absurd hc.1 he⟩
    · exact ⟨h, le_refl _, fun he => he⟩

theorem bufshape_call {σ α : Type} [Zero α] (read_samples : σ → Nat → ReadResult σ α)
    (hread : ∀ src n, 0 ≤ (read_samples src n).count ∧ (read_samples src n).count ≤ (n : Int))
    (st : AudioState α) (in_file : σ) (offset length : Nat) (h : BufShape st) :
    BufShape (audio_at_offset read_samples st in_file offset length).state ∧
      st.audio_buffer_offset ≤
        (audio_at_offset read_samples st in_file offset length).state.audio_buffer_offset ∧
      (st.audio_eof ≠ 0 →
        (audio_at_offset read_samples st in_file offset length).state.audio_eof ≠ 0) ∧
      (length ≤ AUDIO_BUFFER_SIZE → st.audio_buffer_offset ≤ offset →
        (audio_at_offset read_samples st in_file offset length).state.audio_eof ≠ 0 ∨
        offset + length ≤
          (audio_at_offset read_samples st in_file offset length).state.audio_buffer_offset +
          (audio_at_offset read_samples st in_file offset length).state.audio_buffer_length) := by
  unfold audio_at_offset
  by_cases h1 : length > AUDIO_BUFFER_SIZE
  · rw [if_pos h1]
    exact ⟨h, le_refl _, fun he => he, fun hh => absurd h1 (by omega)⟩
  · rw [if_neg h1]
    by_cases h2 : offset < st.audio_buffer_offset
    · rw [if_pos h2]
      exact ⟨h, le_refl _, fun he => he, fun _ hh => absurd h2 (by omega)⟩
    · rw [if_neg h2]
      obtain ⟨i1, i2, i3⟩ := bufshape_loop read_samples hread offset length (offset + length)
        (st, in_file) h
      refine ⟨i1, i2, i3, fun _ _ => ?_⟩
      exact refill_loop_exit read_samples offset length (offset + length) (st, in_file)
        (Or.inr (by
          show offset + length ≤ st.audio_buffer_offset + st.audio_buffer_length +
            2048 * (offset + length)
          omega))

theorem audio_at_offset_nonneg {σ α : Type} [Zero α] (read_samples : σ → Nat → ReadResult σ α)
    (st : AudioState α) (in_file : σ) (offset length : Nat)
    (h : ¬ (length > AUDIO_BUFFER_SIZE ∨ offset < st.audio_buffer_offset)) :
    0 ≤ (audio_at_offset read_samples st in_file offset length).ret := by
  unfold audio_at_offset
  rw [if_neg (fun hh => h (Or.inl hh)), if_neg (fun hh => h (Or.inr hh))]
  simp only
  unfold copy_out
  simp only
  split
  · split
    · exact Int.natCast_nonneg _
    · exact Int.natCast_nonneg _
  · exact Int.natCast_nonneg _

theorem bufshape_after {σ α : Type} [Zero α] (read_samples : σ → Nat → ReadResult σ α)
    (hread : ∀ src n, 0 ≤ (read_samples src n).count ∧ (read_samples src n).count ≤ (n : Int))
    (in_file : σ) (requests : List (Nat × Nat)) :
    BufShape (buffer_after read_samples in_file requests).1 := by
  induction requests using List.reverseRecOn with
  | nil => exact bufshape_init read_samples hread in_file
  | append_singleton l r ih =>
    unfold buffer_after at ih ⊢
    rw [List.foldl_append]
    exact (bufshape_call read_samples hread _ _ r.1 r.2 ih).1

/-- C29. State invariant of the sliding buffer: if every read returns between
0 and the count asked for, then after `init_audio_buffer` and any sequence of
calls of `audio_at_offset`, `audio_buffer_offset` is a multiple of 2048,
`audio_buffer_length <= 4096`, `audio_buffer_section` is 0 or 1 and equals
`(audio_buffer_offset / 2048) mod 2`; a further call does not decrease
`audio_buffer_offset` nor clear `audio_eof`; it fails (returns -1) exactly on
the two guards, and otherwise leaves `audio_eof` set or
`audio_buffer_offset + audio_buffer_length >= offset + length`. -/
theorem buffer_state_invariant {σ α : Type} [Zero α]
    (read_samples : σ → Nat → ReadResult σ α)
    (hread : ∀ src n, 0 ≤ (read_samples src n).count ∧ (read_samples src n).count ≤ (n : Int))
    (in_file : σ) (requests : List (Nat × Nat)) (offset length : Nat) :
    AUDIO_BUFFER_SIZE = 4096 ∧
      (buffer_after read_samples in_file requests).1.audio_buffer_offset % 2048 = 0 ∧
      (buffer_after read_samples in_file requests).1.audio_buffer_length ≤ AUDIO_BUFFER_SIZE ∧
      ((buffer_after read_samples in_file requests).1.audio_buffer_section = 0 ∨
        (buffer_after read_samples in_file requests).1.audio_buffer_section = 1) ∧
      (buffer_after read_samples in_file requests).1.audio_buffer_section =
        (buffer_after read_samples in_file requests).1.audio_buffer_offset / 2048 % 2 ∧
      (buffer_after read_samples in_file requests).1.audio_buffer_offset ≤
        (buffer_after read_samples in_file (requests ++ [(offset, length)])).1.audio_buffer_offset ∧
      ((buffer_after read_samples in_file requests).1.audio_eof ≠ 0 →
        (buffer_after read_samples in_file (requests ++ [(offset, length)])).1.audio_eof ≠ 0) ∧
      ((audio_at_offset read_samples (buffer_after read_samples in_file requests).1
          (buffer_after read_samples in_file requests).2 offset length).ret = -1 ↔
        length > AUDIO_BUFFER_SIZE ∨
          offset < (buffer_after read_samples in_file requests).1.audio_buffer_offset) ∧
      (¬ (length > AUDIO_BUFFER_SIZE ∨
          offset < (buffer_after read_samples in_file requests).1.audio_buffer_offset) →
        (buffer_after read_samples in_file (requests ++ [(offset, length)])).1.audio_eof ≠ 0 ∨
        offset + length ≤
          (buffer_after read_samples in_file (requests ++ [(offset, length)])).1.audio_buffer_offset +
          (buffer_after read_samples in_file
            (requests ++ [(offset, length)])).1.audio_buffer_length) := by
  have hB : AUDIO_BUFFER_SIZE = 4096 := rfl
  have h2048 : AUDIO_BUFFER_SIZE / 2 = 2048 := by decide
  have hstep : buffer_after read_samples in_file (requests ++ [(offset, length)]) =
      ((audio_at_offset read_samples (buffer_after read_samples in_file requests).1
          (buffer_after read_samples in_file requests).2 offset length).state,
        (audio_at_offset read_samples (buffer_after read_samples in_file requests).1
          (buffer_after read_samples in_file requests).2 offset length).source) := by
    unfold buffer_after
    rw [List.foldl_append]
    rfl
  have hshape := bufshape_after read_samples hread in_file requests
  obtain ⟨-, c2, c3, c4⟩ := bufshape_call read_samples hread _
    (buffer_after read_samples in_file requests).2 offset length hshape
  unfold BufShape at hshape
  rw [h2048] at hshape
  obtain ⟨s1, s2, s3, s4, -⟩ := hshape
  rw [hstep]
  refine ⟨hB, s1, s2, s3, s4, c2, c3, ?_, ?_⟩
  · constructor
    · intro hret
      by_contra hne
      have hnn := audio_at_offset_nonneg read_samples
        (buffer_after read_samples in_file requests).1
        (buffer_after read_samples in_file requests).2 offset length hne
      rw [hret] at hnn
      exact absurd hnn (by decide)
    · intro hg
      unfold audio_at_offset
      by_cases h1 : length > AUDIO_BUFFER_SIZE
      · rw [if_pos h1]
      · rw [if_neg h1, if_pos (hg.resolve_left h1)]
  · intro hg
    exact c4 (by omega) (by omega)

theorem buffer_state_invariant_witness :
    (∀ (src : List Int) (n : Nat),
        0 ≤ (read_from_file src n).count ∧ (read_from_file src n).count ≤ (n : Int)) ∧
      (buffer_after read_from_file ([1, 2, 3] : List Int) [(0, 2), (1, 2)]).1.audio_buffer_length
        ≤ AUDIO_BUFFER_SIZE :=
  ⟨fun src n => by simp [read_from_file],
    (buffer_state_invariant read_from_file (fun src n => by simp [read_from_file])
      ([1, 2, 3] : List Int) [(0, 2), (1, 2)] 2 2).2.2.1⟩

/-! ## The microphone source -/

theorem read_from_mic_total {α : Type} [IntCast α] (c : MicCall) (t : Nat) :
    (read_from_mic c.framed c.pcm c.count t : MicResult α).total_read = t + delivered c := by
  by_cases h1 : c.count > AUDIO_BUFFER_SIZE
  · have hd : delivered c = 0 := by
      unfold delivered
      rw [if_neg (by omega)]
    rw [hd, read_from_mic, if_pos h1]
    rfl
  · by_cases h2 : c.pcm.err < 0
    · have hd : delivered c = 0 := by
        unfold delivered
        rw [if_neg (by omega)]
      rw [hd, read_from_mic, if_neg h1, if_pos h2]
      rfl
    · have hd : delivered c = c.count := by
        unfold delivered
        rw [if_pos ⟨by omega, by omega⟩]
      rw [hd, read_from_mic, if_neg h1, if_neg h2]
      simp only
      split <;> rfl

theorem mic_total_eq (α : Type) [IntCast α] (calls : List MicCall) :
    mic_total α calls = (calls.map delivered).sum := by
  unfold mic_total
  induction calls using List.reverseRecOn with
  | nil => rfl
  | append_singleton l c ih =>
    rw [List.foldl_append, List.foldl_cons, List.foldl_nil, ih, read_from_mic_total,
      List.map_append, List.sum_append]
    simp

/-- C25. No-signal timeout: with `total_read` the sum of the counts of the
earlier calls that read the device successfully, `read_from_mic` returns -2 if
and only if the call reads the device (`count <= AUDIO_BUFFER_SIZE`), the read
succeeds, `total_read + count > MAX_WAIT * S = 1323000` and `framed` is 0; with
`framed` set it never returns -2; a failed device read returns 0 and leaves
`total_read` as it was. -/
theorem no_signal_timeout (α : Type) [IntCast α] (calls : List MicCall) (c : MicCall) :
    DEFAULT_SAMPLE_RATE * MAX_WAIT = 1323000 ∧
      mic_total α calls = (calls.map delivered).sum ∧
      ((read_from_mic c.framed c.pcm c.count (mic_total α calls) : MicResult α).ret = -2 ↔
        (c.count ≤ AUDIO_BUFFER_SIZE ∧ 0 ≤ c.pcm.err) ∧
          (calls.map delivered).sum + c.count > DEFAULT_SAMPLE_RATE * MAX_WAIT ∧
          c.framed = 0) ∧
      (c.framed ≠ 0 →
        (read_from_mic c.framed c.pcm c.count (mic_total α calls) : MicResult α).ret ≠ -2) ∧
      (c.count ≤ AUDIO_BUFFER_SIZE → c.pcm.err < 0 →
        (read_from_mic c.framed c.pcm c.count (mic_total α calls) : MicResult α).ret = 0 ∧
        (read_from_mic c.framed c.pcm c.count (mic_total α calls) : MicResult α).total_read =
          mic_total α calls) := by
  have hB : AUDIO_BUFFER_SIZE = 4096 := rfl
  have hiff : ∀ t : Nat,
      ((read_from_mic c.framed c.pcm c.count t : MicResult α).ret = -2 ↔
        (c.count ≤ AUDIO_BUFFER_SIZE ∧ 0 ≤ c.pcm.err) ∧
          t + c.count > DEFAULT_SAMPLE_RATE * MAX_WAIT ∧ c.framed = 0) := by
    intro t
    unfold read_from_mic
    by_cases h1 : c.count > AUDIO_BUFFER_SIZE
    · rw [if_pos h1]
      constructor
      · intro h
        simp at h
      · rintro ⟨⟨h, -⟩, -⟩
        omega
    · rw [if_neg h1]
      by_cases h2 : c.pcm.err < 0
      · rw [if_pos h2]
        constructor
        · intro h
          simp at h
        · rintro ⟨⟨-, h⟩, -⟩
          omega
      · rw [if_neg h2]
        simp only
        by_cases h3 : t + c.count > DEFAULT_SAMPLE_RATE * MAX_WAIT ∧ c.framed = 0
        · rw [if_pos h3]
          exact ⟨fun _ => ⟨⟨by omega, by omega⟩, h3⟩, fun _ => rfl⟩
        · rw [if_neg h3]
          constructor
          · intro h
            simp only at h
            omega
          · rintro ⟨-, h⟩
            exact absurd h h3
  have hsum := mic_total_eq α calls
  refine ⟨by decide, hsum, ?_, ?_, ?_⟩
  · rw [← hsum]
    exact hiff _
  · intro hf h
    exact hf ((hiff _).1 h).2.2
  · intro h1 h2
    unfold read_from_mic
    rw [if_neg (by omega), if_pos h2]
    exact ⟨rfl, rfl⟩

/-! ## The record session and the entry point -/

theorem refill_loop_source {α : Type} (offset length fuel : Nat) (x : AudioState α × List α) :
    (refill_loop read_from_file offset length fuel x).2.length ≤ x.2.length := by
  induction fuel generalizing x with
  | zero => exact le_refl _
  | succ fuel ih =>
    unfold refill_loop
    split
    · refine le_trans (ih _) ?_
      rw [refill_eq]
      simp [read_from_file]
    · exact le_refl _

theorem audio_at_offset_source {α : Type} [Zero α] (st : AudioState α) (src : List α)
    (offset length : Nat) :
    (audio_at_offset read_from_file st src offset length).source.length ≤ src.length := by
  unfold audio_at_offset
  split
  · exact le_refl _
  · split
    · exact le_refl _
    · exact refill_loop_source offset length (offset + length) (st, src)

/-- On a file of `n` items the loop of `press_record` ends within `n + 1`
passes: the call at `offset = n` returns 0. -/
theorem record_loop_total {α : Type} [Field α] [LT α] [DecidableRel (fun a b : α => a < b)]
    [DecidableEq α] (sqrt : α → α) (cosT sinT : ℚ → α) (total : List α) (fuel k : Nat)
    (x : AudioState α × List α) (hs : HarmonicsState α) (hinv : BufInv total x.1 x.2)
    (hb : x.1.audio_buffer_offset ≤ k) (hk : k ≤ total.length)
    (hfuel : total.length - k + 1 ≤ fuel) :
    ∃ l, record_loop sqrt cosT sinT fuel k x hs = some l ∧ l.unread.length ≤ x.2.length ∧
      k ≤ l.probes ∧ (k < total.length → k + 1 ≤ l.probes) ∧ l.probes ≤ total.length := by
  have hW : DEFAULT_WAVELENGTH = 32 := by decide
  induction fuel generalizing k x hs with
  | zero => omega
  | succ fuel ih =>
    obtain ⟨hret, -, hinv', hb'⟩ := audio_at_offset_spec total x.1 x.2 hinv k DEFAULT_WAVELENGTH hb
      (by rw [hW]; omega) hk
    have hsrc := audio_at_offset_source x.1 x.2 k DEFAULT_WAVELENGTH
    unfold record_loop
    simp only
    by_cases hlt : k < total.length
    · rw [if_pos (by rw [hret, hW]; omega)]
      split
      · exact ⟨_, rfl, hsrc, Nat.le_succ _, fun _ => le_refl _, hlt⟩
      · obtain ⟨l, h1, h2, h3, -, h4⟩ := ih (k + 1)
          ((audio_at_offset read_from_file x.1 x.2 k DEFAULT_WAVELENGTH).state,
            (audio_at_offset read_from_file x.1 x.2 k DEFAULT_WAVELENGTH).source)
          (process_harmonics sqrt
            (dft_r2c cosT sinT DEFAULT_WAVELENGTH
              (apply_window_func (init_window cosT) fun c =>
                cell_value
                  ((audio_at_offset read_from_file x.1 x.2 k DEFAULT_WAVELENGTH).out.getD c none)))
            hs).state
          hinv' (le_trans hb' (Nat.le_succ k)) (by omega) (by omega)
        exact ⟨l, h1, le_trans h2 hsrc, by omega, fun _ => h3, h4⟩
    · rw [if_neg (by rw [hret, hW]; omega)]
      exact ⟨_, rfl, hsrc, le_refl _, fun h => absurd h hlt, by simp only; omega⟩

/-- On a WAV input of `n` items `press_record` returns within `n + 1` passes
of its loop, and the value it returns is 1. -/
theorem press_record_total {α : Type} [Field α] [LT α] [DecidableRel (fun a b : α => a < b)]
    [DecidableEq α] (sqrt : α → α) (cosT sinT : ℚ → α) (wav : WavInput α) :
    ∃ r, press_record sqrt cosT sinT (wav.items.length + 1) wav = some r ∧ r.ret = 1 ∧
      r.init_result = init_file_input wav.file_info ∧
      (wav.items ≠ [] → 1 ≤ r.probes ∧ r.unread.length < wav.items.length) := by
  obtain ⟨l, h1, h2, -, h3, -⟩ := record_loop_total sqrt cosT sinT wav.items
    (wav.items.length + 1) 0 (init_audio_buffer read_from_file wav.items) HarmonicsState.init
    (bufinv_init wav.items) (by simp [init_audio_buffer]) (Nat.zero_le _) (by omega)
  refine ⟨_, by rw [press_record, h1], rfl, rfl, ?_⟩
  intro hne
  have hpos : 0 < wav.items.length := List.length_pos.2 hne
  refine ⟨h3 hpos, lt_of_le_of_lt h2 ?_⟩
  have hB : AUDIO_BUFFER_SIZE = 4096 := rfl
  simp only [init_audio_buffer, read_from_file, List.length_drop, hB]
  omega

/-- On a C string, the test `s[0] == '-' && s[1] == 0` holds exactly for the
string "-". -/
theorem c_char_dash (s : String) (h : Char.ofNat 0 ∉ s.data) :
    (c_char s 0 = '-' ∧ c_char s 1 = Char.ofNat 0) ↔ s = "-" := by
  obtain ⟨l⟩ := s
  have hs : ∀ l' : List Char, (String.mk l' = "-" ↔ l' = ['-']) := by
    intro l'
    constructor
    · intro hh
      exact congrArg String.data hh
    · intro hh
      rw [hh]
  rw [hs]
  unfold c_char
  cases l with
  | nil =>
    simp only [List.getD_nil]
    constructor
    · rintro ⟨h1, -⟩
      exact absurd h1 (by decide)
    · intro h1
      exact absurd h1 (by simp)
  | cons a l =>
    cases l with
    | nil => simp
    | cons b l =>
      simp only [List.getD_cons_zero, List.getD_cons_succ]
      constructor
      · rintro ⟨-, h1⟩
        exfalso
        apply h
        rw [← h1]
        simp
      · intro h1
        simp at h1

theorem main_eq_spec (record_ret play_ret : Option String → Option String → Int)
    (argv : List String) (hnul : ∀ a ∈ argv, Char.ofNat 0 ∉ a.data) :
    main record_ret play_ret argv = dispatch_spec record_ret play_ret argv := by
  match argv, hnul with
  | [], _ => simp [main, dispatch_spec, recognised]
  | [_], _ => simp [main, dispatch_spec, recognised]
  | [_, _], _ => simp [main, dispatch_spec, recognised]
  | [_, b, c], _ =>
    simp only [main, dispatch_spec, recognised, List.length_cons, List.length_nil,
      List.getD_cons_succ, List.getD_cons_zero, List.getElem?_cons_succ,
      List.getElem?_cons_zero]
    simp
  | [_, b, c, d], h =>
    have hd := c_char_dash d (h d (by simp))
    simp only [main, dispatch_spec, recognised, List.length_cons, List.length_nil,
      List.getD_cons_succ, List.getD_cons_zero, List.getElem?_cons_succ,
      List.getElem?_cons_zero, hd]
    by_cases h1 : b = "press" <;> by_cases h2 : c = "record" <;> by_cases h3 : c = "play" <;>
      by_cases h4 : d = "-" <;> simp [h1, h2, h3, h4]
  | [_, b, c, d, e], h =>
    have hd := c_char_dash d (h d (by simp))
    simp only [main, dispatch_spec, recognised, List.length_cons, List.length_nil,
      List.getD_cons_succ, List.getD_cons_zero, List.getElem?_cons_succ,
      List.getElem?_cons_zero, hd]
    by_cases h1 : b = "press" <;> by_cases h2 : c = "record" <;> by_cases h3 : c = "play" <;>
      by_cases h4 : d = "-" <;> simp [h1, h2, h3, h4]
  | _ :: _ :: _ :: _ :: _ :: _ :: rest, _ =>
    have h6 : ¬ (rest.length + 1 + 1 + 1 + 1 + 1 + 1 ≤ 5) := by omega
    simp [main, dispatch_spec, recognised, h6]

/-- The first test of `main` is the recognition of a record command, and for
such a command `main` returns what `press_record` returns. -/
theorem main_record (record_ret play_ret : Option String → Option String → Int)
    (argv : List String) (h : recognised "record" argv) :
    ∃ d w, main record_ret play_ret argv =
      { session := Session.record d w, result := record_ret d w } := by
  obtain ⟨⟨h3, h5⟩, h1, h2⟩ := h
  have hc : (argv.length ≥ 3 ∧ argv.length ≤ 5) ∧ argv.getD 1 "" = "press" ∧
      argv.getD 2 "" = "record" := by
    refine ⟨⟨h3, h5⟩, ?_, ?_⟩
    · rw [List.getD_eq_getElem?_getD, h1]
      rfl
    · rw [List.getD_eq_getElem?_getD, h2]
      rfl
  unfold main
  simp only
  rw [if_pos hc]
  split
  · split
    · exact ⟨_, _, rfl⟩
    · exact ⟨_, _, rfl⟩
  · split
    · exact ⟨_, _, rfl⟩
    · exact ⟨_, _, rfl⟩

/-- C23. Command-line dispatch: for every `argv` of C strings, `main` does
what the specification says (`dispatch_spec`): it runs record (resp. play)
iff `3 <= argc <= 5`, `argv[1]` is "press" and `argv[2]` is "record" (resp.
"play"), with the data path `NULL` iff `argc = 3` or `argv[3]` is exactly "-"
and `argv[3]` otherwise, and the WAV path `argv[4]` iff `argc = 5` and `NULL`
otherwise, and returns what the function called returns; for any other
command line it prints the usage and returns 1. -/
theorem command_line_dispatch (record_ret play_ret : Option String → Option String → Int)
    (argv : List String) (hnul : ∀ a ∈ argv, Char.ofNat 0 ∉ a.data) :
    main record_ret play_ret argv = dispatch_spec record_ret play_ret argv ∧
      ((∃ d w, (main record_ret play_ret argv).session = Session.record d w) ↔
        recognised "record" argv) ∧
      ((∃ d w, (main record_ret play_ret argv).session = Session.play d w) ↔
        recognised "play" argv) ∧
      (¬ recognised "record" argv → ¬ recognised "play" argv →
        main record_ret play_ret argv = { session := Session.usage, result := 1 }) := by
  have heq := main_eq_spec record_ret play_ret argv hnul
  have hex : recognised "record" argv → ¬ recognised "play" argv := by
    rintro ⟨-, -, h2⟩ ⟨-, -, h2'⟩
    rw [h2] at h2'
    exact absurd h2' (by decide)
  rw [heq]
  refine ⟨rfl, ?_, ?_, ?_⟩
  · unfold dispatch_spec
    by_cases hr : recognised "record" argv
    · simp [hr]
    · by_cases hp : recognised "play" argv <;> simp [hr, hp]
  · unfold dispatch_spec
    by_cases hr : recognised "record" argv
    · simp [hr, hex hr]
    · by_cases hp : recognised "play" argv <;> simp [hr, hp]
  · intro hr hp
    unfold dispatch_spec
    simp [hr, hp]

theorem command_line_dispatch_witness :
    (∀ a ∈ ["cosby", "press", "record", "-", "in.wav"], Char.ofNat 0 ∉ a.data) ∧
      main (fun _ _ => 1) (fun _ _ => 0) ["cosby", "press", "record", "-", "in.wav"] =
        { session := Session.record none (some "in.wav"), result := 1 } :=
  ⟨by decide,
    (command_line_dispatch (fun _ _ => 1) (fun _ _ => 0)
      ["cosby", "press", "record", "-", "in.wav"] (by decide)).1.trans (by decide)⟩

/-- C22 fails for record: `press_record` ends in `return 1` however its loop
ends, and `main` returns that value.  For every recognised record command
line and every WAV input, the session runs to completion within `n + 1` passes
of its loop (`n` the number of items of the input) and `main` then returns 1,
not 0. -/
theorem record_exit_code {α : Type} [Field α] [LT α] [DecidableRel (fun a b : α => a < b)]
    [DecidableEq α] (sqrt : α → α) (cosT sinT : ℚ → α) (wav : WavInput α)
    (play_ret : Option String → Option String → Int) (argv : List String)
    (h : recognised "record" argv) :
    ∃ r, press_record sqrt cosT sinT (wav.items.length + 1) wav = some r ∧ r.ret = 1 ∧
      (main (fun _ _ => r.ret) play_ret argv).result = 1 ∧
      (main (fun _ _ => r.ret) play_ret argv).result ≠ 0 := by
  obtain ⟨r, h1, h2, -⟩ := press_record_total sqrt cosT sinT wav
  obtain ⟨d, w, hm⟩ := main_record (fun _ _ => r.ret) play_ret argv h
  refine ⟨r, h1, h2, ?_, ?_⟩
  · rw [hm]
    exact h2
  · rw [hm]
    simp only
    rw [h2]
    decide

theorem record_exit_code_witness :
    recognised "record" ["cosby", "press", "record", "out.dat", "in.wav"] ∧
      ∃ r, press_record (fun x : ℚ => x) (fun _ => 0) (fun _ => 0) 2
          { file_info := { samplerate := 44100, channels := 1 }, items := [1] } = some r ∧
        r.ret = 1 ∧
        (main (fun _ _ => r.ret) (fun _ _ => 0)
          ["cosby", "press", "record", "out.dat", "in.wav"]).result = 1 ∧
        (main (fun _ _ => r.ret) (fun _ _ => 0)
          ["cosby", "press", "record", "out.dat", "in.wav"]).result ≠ 0 :=
  ⟨by decide,
    record_exit_code (fun x : ℚ => x) (fun _ => 0) (fun _ => 0)
      { file_info := { samplerate := 44100, channels := 1 }, items := [1] } (fun _ _ => 0)
      ["cosby", "press", "record", "out.dat", "in.wav"] (by decide)⟩

/-- C24 fails: for a WAV input whose sample rate is not 44100 or whose
channel count is not 1, `init_file_input` returns -1, but `press_record` does
not look at that value: the session is the one it runs on a supported file
with the same items (only the value of `init_file_input` differs), and when
the file holds an item, items are read from it and at least one spectral probe
is made. -/
theorem unsupported_wav_input {α : Type} [Field α] [LT α] [DecidableRel (fun a b : α => a < b)]
    [DecidableEq α] (sqrt : α → α) (cosT sinT : ℚ → α) (wav : WavInput α)
    (h : wav.file_info.samplerate ≠ 44100 ∨ wav.file_info.channels ≠ 1) :
    init_file_input wav.file_info = -1 ∧
      (∀ fuel,
        press_record sqrt cosT sinT fuel wav =
          (press_record sqrt cosT sinT fuel
            { file_info := { samplerate := 44100, channels := 1 }, items := wav.items }).map
            fun r => { r with init_result := -1 }) ∧
      (wav.items ≠ [] →
        ∃ r, press_record sqrt cosT sinT (wav.items.length + 1) wav = some r ∧
          r.init_result = -1 ∧ 1 ≤ r.probes ∧ r.unread.length < wav.items.length) := by
  have hS : (DEFAULT_SAMPLE_RATE : Int) = 44100 := rfl
  have hinit : init_file_input wav.file_info = -1 := by
    unfold init_file_input
    rw [hS]
    rcases h with h | h
    · rw [if_pos h]
    · by_cases h1 : wav.file_info.samplerate = 44100
      · rw [if_neg (by simpa using h1), if_pos h]
      · rw [if_pos h1]
  refine ⟨hinit, ?_, ?_⟩
  · intro fuel
    unfold press_record
    simp only [hinit]
    cases record_loop sqrt cosT sinT fuel 0 (init_audio_buffer read_from_file wav.items)
      HarmonicsState.init <;> rfl
  · intro hne
    obtain ⟨r, h1, -, h3, h4⟩ := press_record_total sqrt cosT sinT wav
    exact ⟨r, h1, by rw [h3, hinit], h4 hne⟩

theorem unsupported_wav_input_witness :
    ((48000 : Int) ≠ 44100 ∨ (1 : Int) ≠ 1) ∧
      init_file_input { samplerate := 48000, channels := 1 } = -1 ∧
      ∃ r, press_record (fun x : ℚ => x) (fun _ => 0) (fun _ => 0) 2
          { file_info := { samplerate := 48000, channels := 1 }, items := [1] } = some r ∧
        r.init_result = -1 ∧ 1 ≤ r.probes ∧ r.unread.length < 1 :=
  ⟨Or.inl (by decide),
    (unsupported_wav_input (fun x : ℚ => x) (fun _ => 0) (fun _ => 0)
      { file_info := { samplerate := 48000, channels := 1 }, items := [1] }
      (Or.inl (by decide))).1,
    (unsupported_wav_input (fun x : ℚ => x) (fun _ => 0) (fun _ => 0)
      { file_info := { samplerate := 48000, channels := 1 }, items := [1] }
      (Or.inl (by decide))).2.2 (by simp)⟩

/-! ## Symmetry of the tables and uniformity of the encoding -/

/-- C28. Polarity symmetry of the slices, in exact real arithmetic with
`W = 32` and `M = 16`: `zero_audio[M + i] = -zero_audio[i]` and
`one_audio[W/4 + i] = -one_audio[i]` for every `i` (in particular for
`i < M`), so the negative slice of each symbol is the pointwise negation of
its positive slice. -/
theorem polarity_symmetry (i : Nat) :
    DEFAULT_WAVELENGTH = 32 ∧ DEFAULT_SYMBOL_LENGTH = 16 ∧
      (make_output_audio (fun t : ℚ => Real.cos (2 * Real.pi * (t : ℝ)))
        (fun t : ℚ => Real.sin (2 * Real.pi * (t : ℝ))) DEFAULT_WAVELENGTH).1
          (DEFAULT_SYMBOL_LENGTH + i) =
        -(make_output_audio (fun t : ℚ => Real.cos (2 * Real.pi * (t : ℝ)))
          (fun t : ℚ => Real.sin (2 * Real.pi * (t : ℝ))) DEFAULT_WAVELENGTH).1 i ∧
      (make_output_audio (fun t : ℚ => Real.cos (2 * Real.pi * (t : ℝ)))
        (fun t : ℚ => Real.sin (2 * Real.pi * (t : ℝ))) DEFAULT_WAVELENGTH).2
          (DEFAULT_WAVELENGTH / 4 + i) =
        -(make_output_audio (fun t : ℚ => Real.cos (2 * Real.pi * (t : ℝ)))
          (fun t : ℚ => Real.sin (2 * Real.pi * (t : ℝ))) DEFAULT_WAVELENGTH).2 i ∧
      (∀ bit : Int,
        write_samples
            (make_output_audio (fun t : ℚ => Real.cos (2 * Real.pi * (t : ℝ)))
              (fun t : ℚ => Real.sin (2 * Real.pi * (t : ℝ))) DEFAULT_WAVELENGTH).1
            (make_output_audio (fun t : ℚ => Real.cos (2 * Real.pi * (t : ℝ)))
              (fun t : ℚ => Real.sin (2 * Real.pi * (t : ℝ))) DEFAULT_WAVELENGTH).2
            (symbol_slice bit false) =
          (write_samples
            (make_output_audio (fun t : ℚ => Real.cos (2 * Real.pi * (t : ℝ)))
              (fun t : ℚ => Real.sin (2 * Real.pi * (t : ℝ))) DEFAULT_WAVELENGTH).1
            (make_output_audio (fun t : ℚ => Real.cos (2 * Real.pi * (t : ℝ)))
              (fun t : ℚ => Real.sin (2 * Real.pi * (t : ℝ))) DEFAULT_WAVELENGTH).2
            (symbol_slice bit true)).map fun x => -x) := by
  have hW : DEFAULT_WAVELENGTH = 32 := by decide
  have hM : DEFAULT_SYMBOL_LENGTH = 16 := by decide
  have hW4 : DEFAULT_WAVELENGTH / 4 = 8 := by decide
  have hz : ∀ j : Nat,
      (make_output_audio (fun t : ℚ => Real.cos (2 * Real.pi * (t : ℝ)))
        (fun t : ℚ => Real.sin (2 * Real.pi * (t : ℝ))) DEFAULT_WAVELENGTH).1 (16 + j) =
      -(make_output_audio (fun t : ℚ => Real.cos (2 * Real.pi * (t : ℝ)))
        (fun t : ℚ => Real.sin (2 * Real.pi * (t : ℝ))) DEFAULT_WAVELENGTH).1 j := by
    intro j
    rw [zero_audio_eq, zero_audio_eq]
    have : 2 * Real.pi * ((16 + j : Nat) : ℝ) / 32 = 2 * Real.pi * (j : ℝ) / 32 + Real.pi := by
      push_cast
      ring
    rw [this, Real.sin_add_pi]
  have ho : ∀ j : Nat,
      (make_output_audio (fun t : ℚ => Real.cos (2 * Real.pi * (t : ℝ)))
        (fun t : ℚ => Real.sin (2 * Real.pi * (t : ℝ))) DEFAULT_WAVELENGTH).2 (8 + j) =
      -(make_output_audio (fun t : ℚ => Real.cos (2 * Real.pi * (t : ℝ)))
        (fun t : ℚ => Real.sin (2 * Real.pi * (t : ℝ))) DEFAULT_WAVELENGTH).2 j := by
    intro j
    rw [one_audio_eq, one_audio_eq]
    have : 2 * Real.pi * (2 * ((8 + j : Nat) : ℝ)) / 32 =
        2 * Real.pi * (2 * (j : ℝ)) / 32 + Real.pi := by
      push_cast
      ring
    rw [this, Real.sin_add_pi]
  refine ⟨hW, hM, ?_, ?_, ?_⟩
  · rw [hM]
    exact hz i
  · rw [hW4]
    exact ho i
  · intro bit
    unfold symbol_slice write_samples
    rw [hW4, hM, hW]
    by_cases hb : bit = 0
    · simp only [hb, ne_eq, not_true_eq_false, if_false, if_true, Bool.false_eq_true,
        List.map_map, Nat.zero_add]
      apply List.map_congr_left
      intro c _
      exact hz c
    · simp only [hb, ne_eq, not_false_eq_true, if_false, if_true, Bool.false_eq_true,
        List.map_map, Nat.zero_add]
      apply List.map_congr_left
      intro c _
      exact ho c

theorem polarity_after_zeros (p : Bool) (n : Nat) :
    polarity_after p (List.replicate (2 * n) 0) = p := by
  rw [polarity_after_count]
  simp

theorem polarity_after_ones (p : Bool) (n : Nat) :
    polarity_after p (List.replicate n 1) = p := by
  induction n with
  | zero => rfl
  | succ n ih =>
    rw [List.replicate_succ]
    exact ih

theorem encode_bits_ones (p : Bool) (n : Nat) :
    encode_bits p (List.replicate n 1) = List.replicate n (symbol_slice 1 p) := by
  induction n with
  | zero => rfl
  | succ n ih =>
    rw [List.replicate_succ, encode_bits, List.replicate_succ]
    simp [ih]

/-- A whole table of `zero_audio` written in one call is, sample for sample,
the positive slice of a 0 followed by its negative slice. -/
theorem write_samples_cycle {α : Type} (z o : Nat → α) :
    write_samples z o ⟨Wave.zero_audio, 0, DEFAULT_WAVELENGTH⟩ =
      write_samples z o (symbol_slice 0 true) ++ write_samples z o (symbol_slice 0 false) := by
  have hW : DEFAULT_WAVELENGTH = 32 := by decide
  have hM : DEFAULT_SYMBOL_LENGTH = 16 := by decide
  have h1 : symbol_slice 0 true = ⟨Wave.zero_audio, 0, 16⟩ := by decide
  have h2 : symbol_slice 0 false = ⟨Wave.zero_audio, 16, 16⟩ := by decide
  rw [h1, h2, hW]
  simp only [write_samples]
  have : List.range 32 = List.range 16 ++ (List.range 16).map (fun c => 16 + c) := by decide
  rw [this, List.map_append, List.map_map]
  rfl

/-- The lead of whole tables is, sample for sample, the per-bit encoding of
twice as many zeros from the positive polarity. -/
theorem lead_cycles {α : Type} (z o : Nat → α) (n : Nat) :
    (List.replicate n (⟨Wave.zero_audio, 0, DEFAULT_WAVELENGTH⟩ : Write)).flatMap
        (write_samples z o) =
      (encode_bits true (List.replicate (2 * n) 0)).flatMap (write_samples z o) := by
  induction n with
  | zero => rfl
  | succ n ih =>
    have h2 : 2 * (n + 1) = (2 * n + 1) + 1 := by ring
    rw [List.replicate_succ, List.flatMap_cons, ih, h2, List.replicate_succ, List.replicate_succ,
      encode_bits, encode_bits, List.flatMap_cons, List.flatMap_cons, write_samples_cycle,
      List.append_assoc]
    rfl

/-- C30. The sample stream written by `press_play` for the payload `data` is
the per-bit encoding, started with positive polarity, of the bit sequence
`0^(2*floor(5*S/W)) ++ 1^8 ++ bits(data) ++ [0]`, whatever the two tables
hold; and the polarity which that encoding reaches after the zeros and the
eight ones is the positive polarity `is_pos = 1` that the program sets before
the payload. -/
theorem uniform_encoding {α : Type} (zero_audio one_audio : Nat → α) (data : List Nat) :
    press_play_samples zero_audio one_audio data =
        (encode_bits true
          (List.replicate (2 * (5 * DEFAULT_SAMPLE_RATE / DEFAULT_WAVELENGTH)) 0 ++
            List.replicate 8 1 ++ payload_bits data ++ [0])).flatMap
          (write_samples zero_audio one_audio) ∧
      press_play data =
        (play_pad (play_data
          { is_pos :=
              if polarity_after true
                (List.replicate (2 * (5 * DEFAULT_SAMPLE_RATE / DEFAULT_WAVELENGTH)) 0 ++
                  List.replicate 8 1) then 1 else 0,
            writes := play_lead } data)).writes := by
  have hpol : polarity_after true
      (List.replicate (2 * (5 * DEFAULT_SAMPLE_RATE / DEFAULT_WAVELENGTH)) 0 ++
        List.replicate 8 1) = true := by
    rw [polarity_after_append, polarity_after_zeros, polarity_after_ones]
  constructor
  · have hlead : play_lead =
        List.replicate (5 * DEFAULT_SAMPLE_RATE / DEFAULT_WAVELENGTH)
          ⟨Wave.zero_audio, 0, DEFAULT_WAVELENGTH⟩ ++
        List.replicate 8 (symbol_slice 1 true) := by
      unfold play_lead
      congr 1
    have hpad : ∀ p, encode_bits p [0] = [symbol_slice 0 p] := fun p => rfl
    unfold press_play_samples
    rw [press_play_eq, hlead]
    generalize 5 * DEFAULT_SAMPLE_RATE / DEFAULT_WAVELENGTH = n
    rw [encode_bits_append, encode_bits_append, encode_bits_append, hpad, encode_bits_ones]
    simp only [polarity_after_append, polarity_after_zeros, polarity_after_ones,
      List.flatMap_append]
    rw [lead_cycles]
  · rw [hpol]
    rfl

end Cosby
